import Mathlib

/-!
# DartLoader: from a flat URDF model to a DART skeleton, robot or object

A shallow embedding of `src/utils/Parser/dart_parser/DartLoader.cpp`.

* `std::map` containers are their iteration sequences: lists of (key, value)
  pairs, in the order in which the C++ iterators visit them.
* A `BodyNodeDynamics*` that points to a converted link node is the index of
  that node in `mNodes` (every node is created once and pushed to `mNodes`
  once, so the index is its identity); `NULL` is `none`.
* The `while` loops carry `mNodes.size() - numIter` as a structurally
  decreasing counter next to `numIter` itself.
* `printf` output under `debug` is not modelled; the one place where a debug
  line dereferences a pointer is.
-/

set_option autoImplicit false

/-! ## The flat model (urdf::ModelInterface) -/

namespace urdf

/-- A link record; only the name takes part in assembling the tree. -/
structure Link where
  name : String
deriving DecidableEq, Repr

/-- A joint record: the two links are referenced by name only. -/
structure Joint where
  name : String
  parent_link_name : String
  child_link_name : String
deriving DecidableEq, Repr

/-- The flat model: `links_` and `joints_` in map iteration order, and the
declared root link. -/
structure ModelInterface where
  name_ : String
  links_ : List (String × Link)
  joints_ : List (String × Joint)
  root_link_ : Link
deriving DecidableEq, Repr

def ModelInterface.getName (m : ModelInterface) : String := m.name_

def ModelInterface.getRoot (m : ModelInterface) : Link := m.root_link_

end urdf

/-! ## Output data: body nodes, joints, the assembled structure -/

namespace kinematics

/-- A pointer to a body node as a joint or a structure holds it. -/
inductive NodePtr where
  | null
  | defaultRoot
  | link (idx : Nat)
deriving DecidableEq, Repr

/-- The pointer value of the result of a lookup in `mNodes`. -/
def NodePtr.ofLookup : Option Nat → NodePtr
  | none => NodePtr.null
  | some i => NodePtr.link i

/-- An output joint: either converted from a joint record, with both ends
resolved to nodes of `mNodes`, or the synthesized joint of the root link. -/
inductive Joint where
  | converted (name : String) (parentNode childNode : Nat)
  | rootJoint (rootLinkName : String) (defaultRootExists : Bool)
      (parentNode childNode : NodePtr)
deriving DecidableEq, Repr

/-- The child end of a joint, as a pointer into `mNodes`. -/
def Joint.getChildNode : Joint → Option Nat
  | Joint.converted _ _ c => some c
  | Joint.rootJoint _ _ _ (NodePtr.link c) => some c
  | Joint.rootJoint _ _ _ _ => none

/-- Whether a joint is a converted joint whose parent is node `i`. -/
def Joint.hasParent (i : Nat) : Joint → Bool
  | Joint.converted _ p _ => decide (p = i)
  | Joint.rootJoint _ _ _ _ => false

end kinematics

namespace dynamics

/-- A converted link node: its name and its ordered child-joint list. -/
structure BodyNodeDynamics where
  name : String
  childJoints : List kinematics.Joint
deriving DecidableEq, Repr

def BodyNodeDynamics.getName (b : BodyNodeDynamics) : String := b.name

def BodyNodeDynamics.getNumChildJoints (b : BodyNodeDynamics) : Nat :=
  b.childJoints.length

/-- The sequence `getChildNode(0), ..., getChildNode(getNumChildJoints() - 1)`. -/
def BodyNodeDynamics.getChildNodes (b : BodyNodeDynamics) : List (Option Nat) :=
  b.childJoints.map kinematics.Joint.getChildNode

/-- Modelled from the spec: the assembled structure (`SkeletonDynamics`, and
its subclasses `Robot` and `Object`), whose class is not part of the source
file. It exposes the ordered node sequence built by "append node", a name,
and whether "initialize structure" has run. -/
structure SkeletonDynamics where
  mName : String
  nodes : List kinematics.NodePtr
  initialised : Bool
deriving DecidableEq, Repr

/-- Modelled from the spec: a freshly constructed, empty structure. -/
def SkeletonDynamics.new : SkeletonDynamics :=
  { mName := "", nodes := [], initialised := false }

/-- Modelled from the spec: "append node" of the output boundary. -/
def SkeletonDynamics.addNode (s : SkeletonDynamics) (u : Option Nat) : SkeletonDynamics :=
  { s with nodes := s.nodes ++ [kinematics.NodePtr.ofLookup u] }

/-- Modelled from the spec: the virtual default base node of the Robot and
Object variants, put in front of the link nodes. -/
def SkeletonDynamics.addDefaultRootNode (s : SkeletonDynamics) : SkeletonDynamics :=
  { s with nodes := s.nodes ++ [kinematics.NodePtr.defaultRoot] }

def SkeletonDynamics.setName (s : SkeletonDynamics) (n : String) : SkeletonDynamics :=
  { s with mName := n }

/-- Modelled from the spec: "initialize structure" finalizes indices; the
node sequence is left as it is. -/
def SkeletonDynamics.initSkel (s : SkeletonDynamics) : SkeletonDynamics :=
  { s with initialised := true }

/-- Modelled from the spec: `update` recomputes poses and leaves the
structure alone. -/
def SkeletonDynamics.update (s : SkeletonDynamics) : SkeletonDynamics := s

end dynamics

/-! ## Errors -/

/-- The error kinds of the specification, and the one abnormal outcome the
C++ code itself can have on these paths: the use of a `NULL` node pointer. -/
inductive LoadError where
  | UnknownRootLink (name : String)
  | UnresolvedJointEndpoint (joint : String)
  | UnreachableLink (name : String)
  | DuplicateLinkName (name : String)
  | NullDereference
deriving DecidableEq, Repr

/-! ## The loader -/

/-- The loader object: the two member vectors the builders work on, and the
`debug` flag. -/
structure DartLoader where
  mNodes : List dynamics.BodyNodeDynamics
  mJoints : List kinematics.Joint
  debug : Bool
deriving DecidableEq, Repr

namespace DartLoader

open dynamics kinematics

/-- The scan of `getNode` from index `i` on. -/
def getNodeFrom (_nodeName : String) : List BodyNodeDynamics → Nat → Option Nat
  | [], _ => none
  | node :: rest, i =>
    if node.getName = _nodeName then some i else getNodeFrom _nodeName rest (i + 1)

/-- `DartLoader::getNode`: the first node of `mNodes` with the given name, or
`NULL`. -/
def getNode (self : DartLoader) (_nodeName : String) : Option Nat :=
  getNodeFrom _nodeName self.mNodes 0

/-- Dereferencing a node pointer. -/
def deref (self : DartLoader) : Option Nat → Option BodyNodeDynamics
  | none => none
  | some i => self.mNodes[i]?

/-- Modelled from the spec: the Node Converter (`createDartNode`, not in the
source file) makes one body node with the link's name and no joint wiring. -/
def createDartNode (lk : urdf.Link) : BodyNodeDynamics :=
  { name := lk.name, childJoints := [] }

/-- Appending a joint to the child-joint list of node `i`. -/
def addChildJoint (joint : Joint) : List BodyNodeDynamics → Nat → List BodyNodeDynamics
  | [], _ => []
  | node :: rest, 0 => { node with childJoints := node.childJoints ++ [joint] } :: rest
  | node :: rest, i + 1 => node :: addChildJoint joint rest i

/-- Modelled from the spec: the Joint Converter (`createDartJoint`, not in the
source file). Both link names are resolved by name lookup in the converted
nodes; an absent name is the fatal error `UnresolvedJointEndpoint`; otherwise
the new joint is appended to the resolved parent's child-joint list. -/
def createDartJoint (self : DartLoader) (jt : urdf.Joint) :
    Except LoadError (DartLoader × Joint) :=
  match self.getNode jt.parent_link_name, self.getNode jt.child_link_name with
  | some p, some c =>
    let joint := Joint.converted jt.name p c
    Except.ok ({ self with mNodes := addChildJoint joint self.mNodes p }, joint)
  | _, _ => Except.error (LoadError.UnresolvedJointEndpoint jt.name)

/-- Modelled from the spec: the Root Synthesizer (`createDartRootJoint`, not in
the source file). With the flag false the root body node is attached to the
world frame directly; with the flag true the virtual default base node is
attached to the root body node. -/
def createDartRootJoint (self : DartLoader) (root : urdf.Link) (defaultRootExists : Bool) :
    Joint :=
  Joint.rootJoint root.name defaultRootExists
    (if defaultRootExists then NodePtr.defaultRoot else NodePtr.null)
    (NodePtr.ofLookup (self.getNode root.name))

/-- The body-node loop: `mNodes.resize(0)` and one `push_back` per link. -/
def createNodes (links : List (String × urdf.Link)) : List BodyNodeDynamics :=
  links.foldl (fun acc lk => acc ++ [createDartNode lk.2]) []

/-- The joint loop of the Skeleton and Object builders: every joint record is
converted and pushed to `mJoints`, in map order. -/
def convertJoints (self : DartLoader) : List (String × urdf.Joint) → Except LoadError DartLoader
  | [] => Except.ok self
  | jt :: rest =>
    match self.createDartJoint jt.2 with
    | Except.error e => Except.error e
    | Except.ok (self1, joint) =>
      convertJoints { self1 with mJoints := self1.mJoints ++ [joint] } rest

/-- The traversal loop of `modelInterfaceToSkeleton`. The first argument is
`mNodes.size() - numIter`; the result carries the final `numIter`. -/
def pushParentsFirst (self : DartLoader) :
    Nat → List (Option Nat) → Nat → SkeletonDynamics → Except LoadError (SkeletonDynamics × Nat)
  | 0, _, numIter, mSkeleton => Except.ok (mSkeleton, numIter)
  | _ + 1, [], numIter, mSkeleton => Except.ok (mSkeleton, numIter)
  | remaining + 1, u :: rest, numIter, mSkeleton =>
    let mSkeleton := mSkeleton.addNode u
    match self.deref u with
    | none => Except.error LoadError.NullDereference
    | some node =>
      pushParentsFirst self remaining (rest ++ node.getChildNodes) (numIter + 1) mSkeleton

/-- `DartLoader::modelInterfaceToSkeleton`. -/
def modelInterfaceToSkeleton (self : DartLoader) (_model : urdf.ModelInterface) :
    Except LoadError (DartLoader × SkeletonDynamics) :=
  let mSkeleton := SkeletonDynamics.new
  let self := { self with mNodes := createNodes _model.links_ }
  let self := { self with mJoints := [] }
  match self.convertJoints _model.joints_ with
  | Except.error e => Except.error e
  | Except.ok self =>
    let rootNode := self.getNode _model.getRoot.name
    let rootJoint := self.createDartRootJoint _model.getRoot false
    let self := { self with mJoints := self.mJoints ++ [rootJoint] }
    match self.pushParentsFirst self.mNodes.length [rootNode] 0 mSkeleton with
    | Except.error e => Except.error e
    | Except.ok (mSkeleton, _) => Except.ok (self, mSkeleton.initSkel)

/-- The joint loop inside the Robot traversal: the joint records whose
`parent_link_name` equals the name of the dequeued node are converted. -/
def convertJointsOf (uName : String) (self : DartLoader) :
    List (String × urdf.Joint) → Except LoadError DartLoader
  | [] => Except.ok self
  | jt :: rest =>
    if jt.2.parent_link_name = uName then
      match self.createDartJoint jt.2 with
      | Except.error e => Except.error e
      | Except.ok (self1, joint) =>
        convertJointsOf uName { self1 with mJoints := self1.mJoints ++ [joint] } rest
    else convertJointsOf uName self rest

/-- The traversal loop of `modelInterfaceToRobot`. The first argument is
`mNodes.size() - numIter`. -/
def robotLoop (_model : urdf.ModelInterface) :
    Nat → DartLoader → List (Option Nat) → Nat → SkeletonDynamics →
      Except LoadError (DartLoader × SkeletonDynamics × Nat)
  | 0, self, _, numIter, mRobot => Except.ok (self, mRobot, numIter)
  | _ + 1, self, [], numIter, mRobot => Except.ok (self, mRobot, numIter)
  | remaining + 1, self, u :: rest, numIter, mRobot =>
    let mRobot := mRobot.addNode u
    match self.deref u with
    | none => Except.error LoadError.NullDereference
    | some node =>
      match convertJointsOf node.getName self _model.joints_ with
      | Except.error e => Except.error e
      | Except.ok self =>
        match self.deref u with
        | none => Except.error LoadError.NullDereference
        | some node =>
          robotLoop _model remaining self (rest ++ node.getChildNodes) (numIter + 1) mRobot

/-- `DartLoader::modelInterfaceToRobot`. -/
def modelInterfaceToRobot (self : DartLoader) (_model : urdf.ModelInterface) :
    Except LoadError (DartLoader × SkeletonDynamics) :=
  let mRobot := SkeletonDynamics.new
  let mRobot := mRobot.addDefaultRootNode
  let mRobot := mRobot.setName _model.getName
  let self := { self with mNodes := createNodes _model.links_ }
  let self := { self with mJoints := [] }
  let rootNode := self.getNode _model.getRoot.name
  if self.debug && rootNode.isNone then Except.error LoadError.NullDereference
  else
    let rootJoint := self.createDartRootJoint _model.getRoot true
    let self := { self with mJoints := self.mJoints ++ [rootJoint] }
    match robotLoop _model self.mNodes.length self [rootNode] 0 mRobot with
    | Except.error e => Except.error e
    | Except.ok (self, mRobot, _) => Except.ok (self, mRobot.initSkel.update)

/-- The second loop of the Object builder: every node of `mNodes` other than
the root node, from index `i` on. -/
def addTheRest (rootNode : Option Nat) :
    List BodyNodeDynamics → Nat → SkeletonDynamics → SkeletonDynamics
  | [], _, mObject => mObject
  | _ :: rest, i, mObject =>
    if some i ≠ rootNode then addTheRest rootNode rest (i + 1) (mObject.addNode (some i))
    else addTheRest rootNode rest (i + 1) mObject

/-- `DartLoader::modelInterfaceToObject`. -/
def modelInterfaceToObject (self : DartLoader) (_model : urdf.ModelInterface) :
    Except LoadError (DartLoader × SkeletonDynamics) :=
  let mObject := SkeletonDynamics.new
  let mObject := mObject.addDefaultRootNode
  let mObject := mObject.setName _model.getName
  let self := { self with mNodes := createNodes _model.links_ }
  let self := { self with mJoints := [] }
  match self.convertJoints _model.joints_ with
  | Except.error e => Except.error e
  | Except.ok self =>
    let rootNode := self.getNode _model.getRoot.name
    let rootJoint := self.createDartRootJoint _model.getRoot true
    let self := { self with mJoints := self.mJoints ++ [rootJoint] }
    let mObject := mObject.addNode rootNode
    let mObject := addTheRest rootNode self.mNodes 0 mObject
    Except.ok (self, mObject.initSkel.update)

end DartLoader

/-! ## Predicates on flat models -/

namespace urdf

/-- The names of the link records, in map order. -/
def ModelInterface.linkNames (m : ModelInterface) : List String :=
  m.links_.map (fun lk => lk.2.name)

/-- Some joint record has parent link `a` and child link `b`. -/
def ModelInterface.JointEdge (m : ModelInterface) (a b : String) : Prop :=
  ∃ jt ∈ m.joints_, jt.2.parent_link_name = a ∧ jt.2.child_link_name = b

/-- Link `b` is reachable from link `a` through joints (`a` itself included). -/
def ModelInterface.Reachable (m : ModelInterface) (a b : String) : Prop :=
  Relation.ReflTransGen m.JointEdge a b

/-- Link `b` is a descendant of link `a`: reachable through at least one joint. -/
def ModelInterface.Descendant (m : ModelInterface) (a b : String) : Prop :=
  Relation.TransGen m.JointEdge a b

/-- The declared root link name is the name of a link record. -/
def ModelInterface.RootResolves (m : ModelInterface) : Prop :=
  m.root_link_.name ∈ m.linkNames

/-- Both link names of every joint record are names of link records. -/
def ModelInterface.EndpointsResolve (m : ModelInterface) : Prop :=
  ∀ jt ∈ m.joints_, jt.2.parent_link_name ∈ m.linkNames ∧ jt.2.child_link_name ∈ m.linkNames

instance (m : ModelInterface) : Decidable m.RootResolves :=
  inferInstanceAs (Decidable (m.root_link_.name ∈ m.linkNames))

instance (m : ModelInterface) : Decidable m.EndpointsResolve :=
  inferInstanceAs (Decidable (∀ jt ∈ m.joints_,
    jt.2.parent_link_name ∈ m.linkNames ∧ jt.2.child_link_name ∈ m.linkNames))

/-- A well-formed flat model: the joint graph is a tree rooted at the declared
root link. -/
structure ModelInterface.WellFormed (m : ModelInterface) : Prop where
  /-- no two link records share a name -/
  noDuplicateNames : m.linkNames.Nodup
  /-- the root link is in the link set -/
  rootPresent : m.RootResolves
  /-- every joint's parent and child names resolve -/
  endpointsResolve : m.EndpointsResolve
  /-- single root: the root is the one link that is no joint's child -/
  singleRoot : ∀ x ∈ m.linkNames,
    (x = m.root_link_.name ↔ ∀ jt ∈ m.joints_, jt.2.child_link_name ≠ x)
  /-- a link has at most one incoming joint -/
  singleParent : (m.joints_.map (fun jt => jt.2.child_link_name)).Nodup
  /-- no link is its own descendant -/
  acyclic : ∀ x, ¬ m.Descendant x x

end urdf

namespace DartLoader

open dynamics kinematics

/-- The name of the link node behind a pointer of the assembled structure. -/
def nameOf (self : DartLoader) : NodePtr → Option String
  | NodePtr.link i => (self.mNodes[i]?).map BodyNodeDynamics.getName
  | _ => none

/-- The link name at position `k` of the node sequence of a structure. -/
def nodeNameAt (self : DartLoader) (t : SkeletonDynamics) (k : Nat) : Option String :=
  (t.nodes[k]?).bind self.nameOf

/-- The joint a joint record converts to when both of its names resolve. -/
def resolveJoint (self : DartLoader) (jt : urdf.Joint) : Option Joint :=
  match self.getNode jt.parent_link_name, self.getNode jt.child_link_name with
  | some p, some c => some (Joint.converted jt.name p c)
  | _, _ => none

/-- The child-joint list of node `i` (empty when there is no such node). -/
def childJointsAt (ns : List BodyNodeDynamics) (i : Nat) : List Joint :=
  match ns[i]? with
  | some node => node.childJoints
  | none => []

/-- The children of node `i` as indices. -/
def kidsAt (ns : List BodyNodeDynamics) (i : Nat) : List Nat :=
  (childJointsAt ns i).filterMap Joint.getChildNode

/-- Breadth-first traversal over a fixed child function, bounded by a
counter: the sequence of nodes dequeued. -/
def bfs (kids : Nat → List Nat) : Nat → List Nat → List Nat
  | 0, _ => []
  | _ + 1, [] => []
  | f + 1, u :: rest => u :: bfs kids f (rest ++ kids u)

/-- Every child pointer stored in `ns` points into `ns`. -/
def ChildrenValid (ns : List BodyNodeDynamics) : Prop :=
  ∀ i, ∀ J ∈ childJointsAt ns i, ∃ c, J.getChildNode = some c ∧ c < ns.length

/-- Every stored child edge comes from a joint record of the model, with both
ends being the nodes its names resolve to. -/
def EdgesSound (m : urdf.ModelInterface) (ns : List BodyNodeDynamics) : Prop :=
  ∀ i, ∀ J ∈ childJointsAt ns i, ∃ jt ∈ m.joints_, ∃ c,
    getNodeFrom jt.2.parent_link_name ns 0 = some i
      ∧ getNodeFrom jt.2.child_link_name ns 0 = some c
      ∧ J = Joint.converted jt.2.name i c

/-- Every joint record of the model whose names resolve is a stored child edge. -/
def EdgesComplete (m : urdf.ModelInterface) (ns : List BodyNodeDynamics) : Prop :=
  ∀ jt ∈ m.joints_, ∀ p c, getNodeFrom jt.2.parent_link_name ns 0 = some p →
    getNodeFrom jt.2.child_link_name ns 0 = some c → c ∈ kidsAt ns p

/-- The indices below `n` other than `r`, in ascending order: the nodes the
second loop of the Object builder adds. -/
def theRest (n r : Nat) : List Nat :=
  (List.range n).filter (fun j => decide (j ≠ r))

/-- The node a link name resolves to once the body nodes of a model have been
created: the index of the first link record with that name. -/
def lookupLink (m : urdf.ModelInterface) (nm : String) : Option Nat :=
  getNodeFrom nm (createNodes m.links_) 0

/-- The state of the loader after the body-node loop and `mJoints.resize(0)`. -/
def afterNodes (self : DartLoader) (m : urdf.ModelInterface) : DartLoader :=
  { mNodes := createNodes m.links_, mJoints := [], debug := self.debug }

/-- The joint a joint record converts to once the body nodes of a model have
been created (none when one of its names is absent). -/
def resolveIn (m : urdf.ModelInterface) (jt : urdf.Joint) : Option Joint :=
  resolveJoint { mNodes := createNodes m.links_, mJoints := [], debug := false } jt

/-- The converted joints of all joint records of a model, in joint-map order. -/
def convertedJoints (m : urdf.ModelInterface) : List Joint :=
  m.joints_.filterMap (fun jt => resolveIn m jt.2)

/-- The child-joint list node `i` has once every joint record is converted. -/
def jointsOfNode (m : urdf.ModelInterface) (i : Nat) : List Joint :=
  (convertedJoints m).filter (Joint.hasParent i)

/-- The children of node `i` once every joint record is converted, in the
order of its child-joint list. -/
def childrenOf (m : urdf.ModelInterface) (i : Nat) : List Nat :=
  (jointsOfNode m i).filterMap Joint.getChildNode

/-- The joint records the Robot traversal hands to the joint converter in an
iteration that dequeues node `u`: the records whose `parent_link_name` is
the name of `u`, in joint-map order. -/
def recordsOf (m : urdf.ModelInterface) (u : Nat) : List (String × urdf.Joint) :=
  match m.linkNames[u]? with
  | some a => m.joints_.filter (fun jt => decide (jt.2.parent_link_name = a))
  | none => []

/-- Level-order traversal, `d` levels deep: the nodes of the current level in
their order, followed by the level-order traversal of the next level, which
holds the children of the first node of the current level, then those of the
second, and so on. -/
def levelOrder (kids : Nat → List Nat) : Nat → List Nat → List Nat
  | 0, _ => []
  | d + 1, level => level ++ levelOrder kids d (level.flatMap kids)

/-- The invariant of a breadth-first traversal of a tree: no node is both
visited and queued or occurs twice, and the parent of every visited or queued
node has been visited. -/
def TreeInv (kids : Nat → List Nat) (visited queue : List Nat) : Prop :=
  (visited ++ queue).Nodup ∧ ∀ c ∈ visited ++ queue, ∀ p, c ∈ kids p → p ∈ visited

end DartLoader

namespace urdf

/-- The depth of a link in the joint graph: the root has depth 0, the child
of a joint is one deeper than its parent. -/
inductive ModelInterface.HasDepth (m : ModelInterface) : String → Nat → Prop where
  | root : ModelInterface.HasDepth m m.root_link_.name 0
  | child {a b : String} {d : Nat} :
      ModelInterface.HasDepth m a d → m.JointEdge a b → ModelInterface.HasDepth m b (d + 1)

end urdf

/-! ## Example models -/

/-- The three-link arm of the specification's example: links base, arm1,
arm2 (in map order arm1, arm2, base), joints j1 and j2, root base. -/
def armModel : urdf.ModelInterface :=
  { name_ := "arm",
    links_ := [("arm1", ⟨"arm1"⟩), ("arm2", ⟨"arm2"⟩), ("base", ⟨"base"⟩)],
    joints_ := [("j1", ⟨"j1", "base", "arm1"⟩), ("j2", ⟨"j2", "arm1", "arm2"⟩)],
    root_link_ := ⟨"base"⟩ }

/-- A loader that has not converted anything yet. -/
def DartLoader.fresh : DartLoader := { mNodes := [], mJoints := [], debug := false }

/-- The example arm with a further link "loose" that no joint references. -/
def looseModel : urdf.ModelInterface :=
  { name_ := "loose",
    links_ := [("arm1", ⟨"arm1"⟩), ("arm2", ⟨"arm2"⟩), ("base", ⟨"base"⟩), ("loose", ⟨"loose"⟩)],
    joints_ := [("j1", ⟨"j1", "base", "arm1"⟩), ("j2", ⟨"j2", "arm1", "arm2"⟩)],
    root_link_ := ⟨"base"⟩ }

/-- The example arm with a further unreferenced link "anchor", which comes
first in map order. -/
def anchorModel : urdf.ModelInterface :=
  { name_ := "anchor",
    links_ := [("anchor", ⟨"anchor"⟩), ("arm1", ⟨"arm1"⟩), ("arm2", ⟨"arm2"⟩), ("base", ⟨"base"⟩)],
    joints_ := [("j1", ⟨"j1", "base", "arm1"⟩), ("j2", ⟨"j2", "arm1", "arm2"⟩)],
    root_link_ := ⟨"base"⟩ }

/-- A chain base, arm2, arm1: the child arm1 comes before its parent arm2 in
map order. -/
def reversedArmModel : urdf.ModelInterface :=
  { name_ := "reversed",
    links_ := [("arm1", ⟨"arm1"⟩), ("arm2", ⟨"arm2"⟩), ("base", ⟨"base"⟩)],
    joints_ := [("j1", ⟨"j1", "base", "arm2"⟩), ("j2", ⟨"j2", "arm2", "arm1"⟩)],
    root_link_ := ⟨"base"⟩ }

/-- One link and a joint whose child link "ghost" does not exist. -/
def danglingChildModel : urdf.ModelInterface :=
  { name_ := "danglingChild",
    links_ := [("base", ⟨"base"⟩)],
    joints_ := [("j1", ⟨"j1", "base", "ghost"⟩)],
    root_link_ := ⟨"base"⟩ }

/-- One link and a joint whose parent link "ghost" does not exist. -/
def danglingParentModel : urdf.ModelInterface :=
  { name_ := "danglingParent",
    links_ := [("base", ⟨"base"⟩)],
    joints_ := [("j1", ⟨"j1", "ghost", "base"⟩)],
    root_link_ := ⟨"base"⟩ }

/-- No links at all, and a declared root link "base". -/
def noLinksModel : urdf.ModelInterface :=
  { name_ := "noLinks", links_ := [], joints_ := [], root_link_ := ⟨"base"⟩ }

/-- One link "arm1", and a declared root link "base" that is not in the link set. -/
def missingRootModel : urdf.ModelInterface :=
  { name_ := "missingRoot", links_ := [("arm1", ⟨"arm1"⟩)], joints_ := [],
    root_link_ := ⟨"base"⟩ }

/-- The example arm with a third joint from arm2 back to arm1: a cycle
reachable from the root. -/
def cyclicModel : urdf.ModelInterface :=
  { name_ := "cyclic",
    links_ := [("arm1", ⟨"arm1"⟩), ("arm2", ⟨"arm2"⟩), ("base", ⟨"base"⟩)],
    joints_ := [("j1", ⟨"j1", "base", "arm1"⟩), ("j2", ⟨"j2", "arm1", "arm2"⟩),
      ("j3", ⟨"j3", "arm2", "arm1"⟩)],
    root_link_ := ⟨"base"⟩ }

/-- Three links and a joint from arm1 to itself: a cycle reachable from the
root, which leaves the link "spare" unreachable. -/
def selfLoopModel : urdf.ModelInterface :=
  { name_ := "selfLoop",
    links_ := [("arm1", ⟨"arm1"⟩), ("base", ⟨"base"⟩), ("spare", ⟨"spare"⟩)],
    joints_ := [("j1", ⟨"j1", "base", "arm1"⟩), ("j2", ⟨"j2", "arm1", "arm1"⟩)],
    root_link_ := ⟨"base"⟩ }

/-- A loader that an earlier conversion has left with a node and a joint. -/
def DartLoader.used : DartLoader :=
  { mNodes := [{ name := "stale", childJoints := [] }, { name := "base", childJoints := [] }],
    mJoints := [kinematics.Joint.converted "old" 0 1],
    debug := false }

/-- A loader whose first and third node share the name "arm". -/
def DartLoader.twoArms : DartLoader :=
  { mNodes := [{ name := "arm", childJoints := [] }, { name := "base", childJoints := [] },
      { name := "arm", childJoints := [] }],
    mJoints := [],
    debug := false }

namespace DartLoader
open dynamics kinematics

/-! ## Basic facts: node creation and name lookup -/

theorem createNodes_foldl (links : List (String × urdf.Link)) (acc : List BodyNodeDynamics) :
    links.foldl (fun acc lk => acc ++ [createDartNode lk.2]) acc
      = acc ++ links.map (fun lk => createDartNode lk.2) := by
  induction links generalizing acc with
  | nil => simp
  | cons lk rest ih => simp [ih]

theorem createNodes_eq_map (links : List (String × urdf.Link)) :
    createNodes links = links.map (fun lk => createDartNode lk.2) := by
  simp [createNodes, createNodes_foldl]

theorem createNodes_length (links : List (String × urdf.Link)) :
    (createNodes links).length = links.length := by
  simp [createNodes_eq_map]

theorem createNodes_names (m : urdf.ModelInterface) :
    (createNodes m.links_).map BodyNodeDynamics.getName = m.linkNames := by
  simp [createNodes_eq_map, urdf.ModelInterface.linkNames, createDartNode,
    BodyNodeDynamics.getName, Function.comp_def]

theorem createNodes_childJointsAt (links : List (String × urdf.Link)) (i : Nat) :
    childJointsAt (createNodes links) i = [] := by
  unfold childJointsAt
  rw [createNodes_eq_map, List.getElem?_map]
  cases links[i]? <;> simp [createDartNode]

theorem getNodeFrom_shift (nm : String) (ns : List BodyNodeDynamics) (k : Nat) :
    getNodeFrom nm ns k = (getNodeFrom nm ns 0).map (fun i => i + k) := by
  induction ns generalizing k with
  | nil => simp [getNodeFrom]
  | cons node rest ih =>
    simp only [getNodeFrom]
    by_cases h : node.getName = nm
    · simp [h]
    · simp only [h, if_false]
      rw [ih (k + 1), ih (0 + 1)]
      cases getNodeFrom nm rest 0 <;> simp [Nat.add_comm, Nat.add_left_comm]

theorem getNodeFrom_congr (nm : String) (ns ns' : List BodyNodeDynamics) (k : Nat)
    (h : ns.map BodyNodeDynamics.getName = ns'.map BodyNodeDynamics.getName) :
    getNodeFrom nm ns k = getNodeFrom nm ns' k := by
  induction ns generalizing ns' k with
  | nil =>
    cases ns' with
    | nil => rfl
    | cons _ _ => simp at h
  | cons node rest ih =>
    cases ns' with
    | nil => simp at h
    | cons node' rest' =>
      simp only [List.map_cons, List.cons.injEq] at h
      simp only [getNodeFrom, h.1]
      rw [ih rest' (k + 1) h.2]

theorem getNodeFrom_some (nm : String) (ns : List BodyNodeDynamics) (i : Nat)
    (h : getNodeFrom nm ns 0 = some i) :
    ∃ node, ns[i]? = some node ∧ node.getName = nm := by
  induction ns generalizing i with
  | nil => simp [getNodeFrom] at h
  | cons node rest ih =>
    simp only [getNodeFrom] at h
    by_cases hn : node.getName = nm
    · simp only [hn, if_true, Option.some.injEq] at h
      subst h
      exact ⟨node, by simp, hn⟩
    · simp only [hn, if_false] at h
      rw [getNodeFrom_shift] at h
      cases h0 : getNodeFrom nm rest 0 with
      | none => simp [h0] at h
      | some j =>
        simp only [h0, Option.map_some', Option.some.injEq] at h
        subst h
        obtain ⟨nd, h1, h2⟩ := ih j h0
        exact ⟨nd, by simpa using h1, h2⟩

theorem getNodeFrom_isSome (nm : String) (ns : List BodyNodeDynamics)
    (h : nm ∈ ns.map BodyNodeDynamics.getName) : ∃ i, getNodeFrom nm ns 0 = some i := by
  induction ns with
  | nil => simp at h
  | cons node rest ih =>
    simp only [getNodeFrom]
    by_cases hn : node.getName = nm
    · exact ⟨0, by simp [hn]⟩
    · simp only [hn, if_false]
      have h' : nm ∈ rest.map BodyNodeDynamics.getName := by
        simp only [List.map_cons, List.mem_cons] at h
        rcases h with h | h
        · exact absurd h.symm hn
        · exact h
      obtain ⟨i, hi⟩ := ih h'
      exact ⟨i + 1, by rw [getNodeFrom_shift, hi]; rfl⟩

theorem getNodeFrom_none (nm : String) (ns : List BodyNodeDynamics)
    (h : nm ∉ ns.map BodyNodeDynamics.getName) : getNodeFrom nm ns 0 = none := by
  cases h0 : getNodeFrom nm ns 0 with
  | none => rfl
  | some i =>
    obtain ⟨nd, h1, h2⟩ := getNodeFrom_some nm ns i h0
    exact absurd (by
      rw [← h2]
      exact List.mem_map.2 ⟨nd, List.getElem?_mem h1, rfl⟩) h

theorem getNodeFrom_first (nm : String) (ns : List BodyNodeDynamics) (i j : Nat)
    (h : getNodeFrom nm ns 0 = some i) (node : BodyNodeDynamics) (hj : ns[j]? = some node)
    (hn : node.getName = nm) : i ≤ j := by
  induction ns generalizing i j with
  | nil => simp [getNodeFrom] at h
  | cons nd rest ih =>
    simp only [getNodeFrom] at h
    by_cases hd : nd.getName = nm
    · simp only [hd, if_true, Option.some.injEq] at h
      omega
    · simp only [hd, if_false] at h
      rw [getNodeFrom_shift] at h
      cases h0 : getNodeFrom nm rest 0 with
      | none => simp [h0] at h
      | some i0 =>
        simp only [h0, Option.map_some', Option.some.injEq] at h
        cases j with
        | zero =>
          simp only [List.getElem?_cons_zero, Option.some.injEq] at hj
          subst hj
          exact absurd hn hd
        | succ j0 =>
          simp only [List.getElem?_cons_succ] at hj
          have := ih i0 j0 h0 hj
          omega

/-- With distinct names, the lookup of a node's own name finds that node. -/
theorem getNodeFrom_self (ns : List BodyNodeDynamics)
    (hnd : (ns.map BodyNodeDynamics.getName).Nodup) (i : Nat) (node : BodyNodeDynamics)
    (hi : ns[i]? = some node) : getNodeFrom node.getName ns 0 = some i := by
  have hmem : node.getName ∈ ns.map BodyNodeDynamics.getName :=
    List.mem_map.2 ⟨node, List.getElem?_mem hi, rfl⟩
  obtain ⟨j, hj⟩ := getNodeFrom_isSome _ _ hmem
  obtain ⟨nd, h1, h2⟩ := getNodeFrom_some _ _ _ hj
  have hi' : (ns.map BodyNodeDynamics.getName)[i]? = some node.getName := by
    simp [List.getElem?_map, hi]
  have hj' : (ns.map BodyNodeDynamics.getName)[j]? = some node.getName := by
    simp [List.getElem?_map, h1, h2]
  have hil : i < (ns.map BodyNodeDynamics.getName).length := by
    rcases List.getElem?_eq_some.1 hi' with ⟨h, _⟩; exact h
  have hjl : j < (ns.map BodyNodeDynamics.getName).length := by
    rcases List.getElem?_eq_some.1 hj' with ⟨h, _⟩; exact h
  have : i = j := by
    have e1 := (List.getElem?_eq_some.1 hi').2
    have e2 := (List.getElem?_eq_some.1 hj').2
    exact (List.Nodup.getElem_inj_iff hnd).1 (e1.trans e2.symm)
  rw [hj, this]

/-! ## The joint converter -/

theorem addChildJoint_names (J : Joint) (ns : List BodyNodeDynamics) (p : Nat) :
    (addChildJoint J ns p).map BodyNodeDynamics.getName = ns.map BodyNodeDynamics.getName := by
  induction ns generalizing p with
  | nil => rfl
  | cons node rest ih =>
    cases p with
    | zero => simp [addChildJoint, BodyNodeDynamics.getName]
    | succ q => simp [addChildJoint, ih q]

theorem addChildJoint_length (J : Joint) (ns : List BodyNodeDynamics) (p : Nat) :
    (addChildJoint J ns p).length = ns.length := by
  have := congrArg List.length (addChildJoint_names J ns p)
  simpa using this

theorem addChildJoint_childJointsAt (J : Joint) (ns : List BodyNodeDynamics) (p i : Nat) :
    childJointsAt (addChildJoint J ns p) i
      = if i = p ∧ p < ns.length then childJointsAt ns i ++ [J] else childJointsAt ns i := by
  induction ns generalizing p i with
  | nil => simp [addChildJoint, childJointsAt]
  | cons node rest ih =>
    cases p with
    | zero =>
      cases i with
      | zero => simp [addChildJoint, childJointsAt]
      | succ j => simp [addChildJoint, childJointsAt]
    | succ q =>
      cases i with
      | zero => simp [addChildJoint, childJointsAt]
      | succ j =>
        have := ih q j
        simp only [childJointsAt, addChildJoint, List.getElem?_cons_succ, List.length_cons,
          Nat.add_lt_add_iff_right, Nat.add_right_cancel_iff] at this ⊢
        exact this

theorem getNode_congr (a b : DartLoader)
    (h : a.mNodes.map BodyNodeDynamics.getName = b.mNodes.map BodyNodeDynamics.getName)
    (nm : String) : a.getNode nm = b.getNode nm :=
  getNodeFrom_congr nm _ _ 0 h

theorem resolveJoint_congr (a b : DartLoader)
    (h : a.mNodes.map BodyNodeDynamics.getName = b.mNodes.map BodyNodeDynamics.getName)
    (jt : urdf.Joint) : a.resolveJoint jt = b.resolveJoint jt := by
  simp only [resolveJoint, getNode_congr a b h]

theorem resolveJoint_some (self : DartLoader) (jt : urdf.Joint) (J : Joint)
    (h : self.resolveJoint jt = some J) :
    ∃ p c, self.getNode jt.parent_link_name = some p ∧ self.getNode jt.child_link_name = some c
      ∧ J = Joint.converted jt.name p c := by
  unfold resolveJoint at h
  cases hp : self.getNode jt.parent_link_name with
  | none => simp [hp] at h
  | some p =>
    cases hc : self.getNode jt.child_link_name with
    | none => simp [hp, hc] at h
    | some c =>
      simp only [hp, hc, Option.some.injEq] at h
      exact ⟨p, c, rfl, rfl, h.symm⟩

theorem resolveJoint_isSome (self : DartLoader) (jt : urdf.Joint)
    (hp : jt.parent_link_name ∈ self.mNodes.map BodyNodeDynamics.getName)
    (hc : jt.child_link_name ∈ self.mNodes.map BodyNodeDynamics.getName) :
    ∃ J, self.resolveJoint jt = some J := by
  obtain ⟨p, hp'⟩ := getNodeFrom_isSome _ _ hp
  obtain ⟨c, hc'⟩ := getNodeFrom_isSome _ _ hc
  exact ⟨Joint.converted jt.name p c, by simp [resolveJoint, getNode, hp', hc']⟩

theorem resolveJoint_none (self : DartLoader) (jt : urdf.Joint)
    (h : jt.parent_link_name ∉ self.mNodes.map BodyNodeDynamics.getName
      ∨ jt.child_link_name ∉ self.mNodes.map BodyNodeDynamics.getName) :
    self.resolveJoint jt = none := by
  unfold resolveJoint getNode
  rcases h with h | h
  · rw [getNodeFrom_none _ _ h]
  · rw [getNodeFrom_none _ _ h]
    cases getNodeFrom jt.parent_link_name self.mNodes 0 <;> rfl

theorem createDartJoint_of_some (self : DartLoader) (jt : urdf.Joint) (p c : Nat)
    (hp : self.getNode jt.parent_link_name = some p)
    (hc : self.getNode jt.child_link_name = some c) :
    self.createDartJoint jt
      = Except.ok ({ self with mNodes := addChildJoint (Joint.converted jt.name p c) self.mNodes p },
          Joint.converted jt.name p c) := by
  simp [createDartJoint, hp, hc]

theorem createDartJoint_of_none (self : DartLoader) (jt : urdf.Joint)
    (h : self.resolveJoint jt = none) :
    self.createDartJoint jt = Except.error (LoadError.UnresolvedJointEndpoint jt.name) := by
  unfold resolveJoint at h
  unfold createDartJoint
  cases hp : self.getNode jt.parent_link_name with
  | none => rfl
  | some p =>
    cases hc : self.getNode jt.child_link_name with
    | none => rfl
    | some c => simp [hp, hc] at h

/-- The eager joint loop, when every record resolves: all records are
converted, in order, and each lands in the child-joint list of its parent. -/
theorem convertJoints_spec (js : List (String × urdf.Joint)) (self : DartLoader)
    (h : ∀ jt ∈ js, ∃ J, self.resolveJoint jt.2 = some J) :
    ∃ ns, self.convertJoints js
        = Except.ok { mNodes := ns,
                      mJoints := self.mJoints ++ js.filterMap (fun jt => self.resolveJoint jt.2),
                      debug := self.debug }
      ∧ ns.map BodyNodeDynamics.getName = self.mNodes.map BodyNodeDynamics.getName
      ∧ ∀ i, childJointsAt ns i = childJointsAt self.mNodes i
          ++ (js.filterMap (fun jt => self.resolveJoint jt.2)).filter (Joint.hasParent i) := by
  induction js generalizing self with
  | nil => exact ⟨self.mNodes, by simp [convertJoints], rfl, by simp⟩
  | cons jt rest ih =>
    obtain ⟨J, hJ⟩ := h jt (List.mem_cons_self _ _)
    obtain ⟨p, c, hp, hc, rfl⟩ := resolveJoint_some self jt.2 J hJ
    have hplt : p < self.mNodes.length := by
      obtain ⟨nd, h1, _⟩ := getNodeFrom_some _ _ _ hp
      exact (List.getElem?_eq_some.1 h1).1
    let s2 : DartLoader :=
      { mNodes := addChildJoint (Joint.converted jt.2.name p c) self.mNodes p,
        mJoints := self.mJoints ++ [Joint.converted jt.2.name p c],
        debug := self.debug }
    have hnames : s2.mNodes.map BodyNodeDynamics.getName
        = self.mNodes.map BodyNodeDynamics.getName := addChildJoint_names _ _ _
    have hres : ∀ j : urdf.Joint, s2.resolveJoint j = self.resolveJoint j :=
      fun j => resolveJoint_congr s2 self hnames j
    have h2 : ∀ j ∈ rest, ∃ J, s2.resolveJoint j.2 = some J := by
      intro j hj
      rw [hres]
      exact h j (List.mem_cons_of_mem _ hj)
    obtain ⟨ns, e1, e2, e3⟩ := ih s2 h2
    refine ⟨ns, ?_, e2.trans hnames, ?_⟩
    · simp only [convertJoints, createDartJoint_of_some self jt.2 p c hp hc]
      rw [show ({ mNodes := addChildJoint (Joint.converted jt.2.name p c) self.mNodes p,
                  mJoints := self.mJoints ++ [Joint.converted jt.2.name p c],
                  debug := self.debug } : DartLoader) = s2 from rfl, e1]
      simp [s2, hres, hJ]
    · intro i
      rw [e3 i]
      simp only [s2, addChildJoint_childJointsAt, hres, List.filterMap_cons, hJ]
      by_cases hi : i = p
      · subst hi
        simp [hplt, Joint.hasParent, List.filter_cons]
      · have : ¬ p = i := fun e => hi e.symm
        simp [hi, this, Joint.hasParent, List.filter_cons]

/-- The eager joint loop stops with `UnresolvedJointEndpoint` at the first
record one of whose names is absent. -/
theorem convertJoints_error (js : List (String × urdf.Joint)) (self : DartLoader)
    (h : ∃ jt ∈ js, self.resolveJoint jt.2 = none) :
    ∃ jt ∈ js, self.resolveJoint jt.2 = none
      ∧ self.convertJoints js = Except.error (LoadError.UnresolvedJointEndpoint jt.2.name) := by
  induction js generalizing self with
  | nil => simp at h
  | cons jt rest ih =>
    cases hJ : self.resolveJoint jt.2 with
    | none =>
      exact ⟨jt, List.mem_cons_self _ _, hJ, by
        simp [convertJoints, createDartJoint_of_none self jt.2 hJ]⟩
    | some J =>
      obtain ⟨p, c, hp, hc, rfl⟩ := resolveJoint_some self jt.2 J hJ
      let s2 : DartLoader :=
        { mNodes := addChildJoint (Joint.converted jt.2.name p c) self.mNodes p,
          mJoints := self.mJoints ++ [Joint.converted jt.2.name p c],
          debug := self.debug }
      have hnames : s2.mNodes.map BodyNodeDynamics.getName
          = self.mNodes.map BodyNodeDynamics.getName := addChildJoint_names _ _ _
      have hres : ∀ j : urdf.Joint, s2.resolveJoint j = self.resolveJoint j :=
        fun j => resolveJoint_congr s2 self hnames j
      have h2 : ∃ j ∈ rest, s2.resolveJoint j.2 = none := by
        obtain ⟨j, hj, hn⟩ := h
        rcases List.mem_cons.1 hj with e | hj
        · subst e; rw [hJ] at hn; cases hn
        · exact ⟨j, hj, by rw [hres]; exact hn⟩
      obtain ⟨j, hj, hn, e⟩ := ih s2 h2
      refine ⟨j, List.mem_cons_of_mem _ hj, by rw [← hres]; exact hn, ?_⟩
      simp only [convertJoints, createDartJoint_of_some self jt.2 p c hp hc]
      exact e

/-! ## Breadth-first traversal over a fixed child function -/

theorem bfs_length_le (kids : Nat → List Nat) (f : Nat) (q : List Nat) :
    (bfs kids f q).length ≤ f := by
  induction f generalizing q with
  | zero => simp [bfs]
  | succ f ih =>
    cases q with
    | nil => simp [bfs]
    | cons u rest =>
      simp only [bfs, List.length_cons]
      exact Nat.succ_le_succ (ih _)

/-- Everything dequeued lies in any set that holds the queue and is closed
under children. -/
theorem bfs_mem_closed (kids : Nat → List Nat) (R : Nat → Prop)
    (hR : ∀ u, R u → ∀ c ∈ kids u, R c) (f : Nat) (q : List Nat)
    (hq : ∀ u ∈ q, R u) : ∀ x ∈ bfs kids f q, R x := by
  induction f generalizing q with
  | zero => simp [bfs]
  | succ f ih =>
    cases q with
    | nil => simp [bfs]
    | cons u rest =>
      intro x hx
      simp only [bfs, List.mem_cons] at hx
      rcases hx with rfl | hx
      · exact hq _ (List.mem_cons_self _ _)
      · refine ih (rest ++ kids u) ?_ x hx
        intro v hv
        rcases List.mem_append.1 hv with hv | hv
        · exact hq _ (List.mem_cons_of_mem _ hv)
        · exact hR u (hq _ (List.mem_cons_self _ _)) v hv

/-- The first entries dequeued are the initial queue; every later entry is a
child of an entry dequeued before it. -/
theorem bfs_parent_before (kids : Nat → List Nat) (f : Nat) (q : List Nat) (k c : Nat)
    (h : (bfs kids f q)[k]? = some c) :
    q[k]? = some c ∨ ∃ j p, j < k ∧ (bfs kids f q)[j]? = some p ∧ c ∈ kids p := by
  induction f generalizing q k with
  | zero => simp [bfs] at h
  | succ f ih =>
    cases q with
    | nil => simp [bfs] at h
    | cons u rest =>
      simp only [bfs] at h ⊢
      cases k with
      | zero =>
        left
        simpa using h
      | succ k0 =>
        simp only [List.getElem?_cons_succ] at h ⊢
        rcases ih (rest ++ kids u) k0 h with h1 | ⟨j, p, hj, hp, hc⟩
        · by_cases hk : k0 < rest.length
          · left
            rwa [List.getElem?_append_left hk] at h1
          · right
            refine ⟨0, u, Nat.succ_pos _, by simp, ?_⟩
            rw [List.getElem?_append_right (Nat.le_of_not_lt hk)] at h1
            exact List.getElem?_mem h1
        · right
          exact ⟨j + 1, p, Nat.succ_lt_succ hj, by simpa using hp, hc⟩

/-- When the traversal stops before its bound, the queue ran empty: the
output holds the initial queue and is closed under children. -/
theorem bfs_closed (kids : Nat → List Nat) (f : Nat) (q : List Nat)
    (h : (bfs kids f q).length < f) :
    (∀ u ∈ q, u ∈ bfs kids f q) ∧ ∀ u ∈ bfs kids f q, ∀ c ∈ kids u, c ∈ bfs kids f q := by
  induction f generalizing q with
  | zero => simp at h
  | succ f ih =>
    cases q with
    | nil => simp [bfs]
    | cons u rest =>
      simp only [bfs, List.length_cons, Nat.add_lt_add_iff_right] at h
      obtain ⟨h1, h2⟩ := ih (rest ++ kids u) h
      simp only [bfs]
      constructor
      · intro v hv
        rcases List.mem_cons.1 hv with rfl | hv
        · exact List.mem_cons_self _ _
        · exact List.mem_cons_of_mem _ (h1 v (List.mem_append_left _ hv))
      · intro v hv c hc
        rcases List.mem_cons.1 hv with rfl | hv
        · exact List.mem_cons_of_mem _ (h1 c (List.mem_append_right _ hc))
        · exact List.mem_cons_of_mem _ (h2 v hv c hc)

/-- When the queue holds a node from which the traversal can go on for ever,
the bound is what stops it. -/
theorem bfs_length_of_live (kids : Nat → List Nat) (P : Nat → Prop)
    (hP : ∀ u, P u → ∃ c ∈ kids u, P c) (f : Nat) (q : List Nat)
    (hq : ∃ u ∈ q, P u) : (bfs kids f q).length = f := by
  induction f generalizing q with
  | zero => simp [bfs]
  | succ f ih =>
    cases q with
    | nil => obtain ⟨u, hu, _⟩ := hq; simp at hu
    | cons u rest =>
      simp only [bfs, List.length_cons, Nat.add_right_cancel_iff]
      apply ih
      obtain ⟨v, hv, hPv⟩ := hq
      rcases List.mem_cons.1 hv with rfl | hv
      · obtain ⟨c, hc, hPc⟩ := hP v hPv
        exact ⟨c, List.mem_append_right _ hc, hPc⟩
      · exact ⟨v, List.mem_append_left _ hv, hPv⟩

theorem bfs_head (kids : Nat → List Nat) (f : Nat) (u : Nat) (rest : List Nat) :
    bfs kids (f + 1) (u :: rest) = u :: bfs kids f (rest ++ kids u) := rfl

/-! ## The Skeleton traversal is that traversal -/

theorem getChildNodes_eq_kidsAt (ns : List BodyNodeDynamics) (hv : ChildrenValid ns)
    (i : Nat) (node : BodyNodeDynamics) (hi : ns[i]? = some node) :
    node.getChildNodes = (kidsAt ns i).map some := by
  have hcj : childJointsAt ns i = node.childJoints := by simp [childJointsAt, hi]
  have hv' := hv i
  rw [hcj] at hv'
  simp only [BodyNodeDynamics.getChildNodes, kidsAt, hcj]
  generalize node.childJoints = l at hv'
  induction l with
  | nil => rfl
  | cons J rest ih =>
    obtain ⟨c, hc, _⟩ := hv' J (List.mem_cons_self _ _)
    simp only [List.map_cons, List.filterMap_cons, hc]
    rw [ih (fun J' hJ' => hv' J' (List.mem_cons_of_mem _ hJ'))]

theorem kidsAt_lt (ns : List BodyNodeDynamics) (hv : ChildrenValid ns) (i c : Nat)
    (hc : c ∈ kidsAt ns i) : c < ns.length := by
  simp only [kidsAt, List.mem_filterMap] at hc
  obtain ⟨J, hJ, e⟩ := hc
  obtain ⟨c', e', hlt⟩ := hv i J hJ
  rw [e] at e'
  cases e'
  exact hlt

theorem pushParentsFirst_eq_bfs (self : DartLoader) (hv : ChildrenValid self.mNodes)
    (f : Nat) (q : List Nat) (hq : ∀ u ∈ q, u < self.mNodes.length)
    (numIter : Nat) (sk : SkeletonDynamics) :
    self.pushParentsFirst f (q.map some) numIter sk
      = Except.ok ({ sk with nodes := sk.nodes ++ (bfs (kidsAt self.mNodes) f q).map NodePtr.link },
          numIter + (bfs (kidsAt self.mNodes) f q).length) := by
  induction f generalizing q numIter sk with
  | zero => simp [pushParentsFirst, bfs]
  | succ f ih =>
    cases q with
    | nil => simp [pushParentsFirst, bfs]
    | cons u rest =>
      have hu : u < self.mNodes.length := hq u (List.mem_cons_self _ _)
      have hd : self.mNodes[u]? = some self.mNodes[u] := List.getElem?_eq_getElem hu
      simp only [List.map_cons, pushParentsFirst, deref, hd]
      rw [getChildNodes_eq_kidsAt _ hv u _ hd, ← List.map_append, ih]
      · simp [bfs, SkeletonDynamics.addNode, NodePtr.ofLookup, Nat.add_comm, Nat.add_left_comm]
      · intro v hv'
        rcases List.mem_append.1 hv' with h | h
        · exact hq v (List.mem_cons_of_mem _ h)
        · exact kidsAt_lt _ hv _ _ h

/-! ## The node list as a graph over the model's joints -/

theorem getNodeFrom_lt (nm : String) (ns : List BodyNodeDynamics) (i : Nat)
    (h : getNodeFrom nm ns 0 = some i) : i < ns.length := by
  obtain ⟨nd, h1, _⟩ := getNodeFrom_some nm ns i h
  exact (List.getElem?_eq_some.1 h1).1

theorem EdgesSound.valid {m : urdf.ModelInterface} {ns : List BodyNodeDynamics}
    (h : EdgesSound m ns) : ChildrenValid ns := by
  intro i J hJ
  obtain ⟨jt, _, c, _, hc, rfl⟩ := h i J hJ
  exact ⟨c, rfl, getNodeFrom_lt _ _ _ hc⟩

theorem EdgesSound.kids {m : urdf.ModelInterface} {ns : List BodyNodeDynamics}
    (h : EdgesSound m ns) (i c : Nat) (hc : c ∈ kidsAt ns i) :
    ∃ jt ∈ m.joints_, getNodeFrom jt.2.parent_link_name ns 0 = some i
      ∧ getNodeFrom jt.2.child_link_name ns 0 = some c := by
  simp only [kidsAt, List.mem_filterMap] at hc
  obtain ⟨J, hJ, e⟩ := hc
  obtain ⟨jt, hjt, c', hp, hc', rfl⟩ := h i J hJ
  simp only [Joint.getChildNode, Option.some.injEq] at e
  subst e
  exact ⟨jt, hjt, hp, hc'⟩

theorem afterNodes_names (self : DartLoader) (m : urdf.ModelInterface) :
    (self.afterNodes m).mNodes.map BodyNodeDynamics.getName = m.linkNames :=
  createNodes_names m

theorem afterNodes_resolves (self : DartLoader) (m : urdf.ModelInterface)
    (hE : m.EndpointsResolve) :
    ∀ jt ∈ m.joints_, ∃ J, (self.afterNodes m).resolveJoint jt.2 = some J := by
  intro jt hjt
  obtain ⟨h1, h2⟩ := hE jt hjt
  exact resolveJoint_isSome _ _ (by rw [afterNodes_names]; exact h1)
    (by rw [afterNodes_names]; exact h2)

/-- The eager joint loop of the Skeleton and Object builders on a model whose
joint endpoints resolve. -/
theorem convertJoints_afterNodes (self : DartLoader) (m : urdf.ModelInterface)
    (hE : m.EndpointsResolve) :
    ∃ ns, (self.afterNodes m).convertJoints m.joints_
        = Except.ok { mNodes := ns,
                      mJoints := m.joints_.filterMap (fun jt => (self.afterNodes m).resolveJoint jt.2),
                      debug := self.debug }
      ∧ ns.map BodyNodeDynamics.getName = m.linkNames
      ∧ EdgesSound m ns ∧ EdgesComplete m ns := by
  obtain ⟨ns, e1, e2, e3⟩ := convertJoints_spec m.joints_ (self.afterNodes m)
    (afterNodes_resolves self m hE)
  have hnames : ns.map BodyNodeDynamics.getName
      = (self.afterNodes m).mNodes.map BodyNodeDynamics.getName := e2
  have hget : ∀ nm, (self.afterNodes m).getNode nm = getNodeFrom nm ns 0 :=
    fun nm => getNodeFrom_congr nm _ _ 0 hnames.symm
  have hcj : ∀ i, childJointsAt ns i
      = (m.joints_.filterMap (fun jt => (self.afterNodes m).resolveJoint jt.2)).filter
          (Joint.hasParent i) := by
    intro i
    rw [e3 i]
    simp [afterNodes, createNodes_childJointsAt]
  refine ⟨ns, ?_, e2.trans (afterNodes_names self m), ?_, ?_⟩
  · rw [e1]; simp [afterNodes]
  · intro i J hJ
    rw [hcj i, List.mem_filter, List.mem_filterMap] at hJ
    obtain ⟨⟨jt, hjt, hres⟩, hpar⟩ := hJ
    obtain ⟨p, c, hp, hc, rfl⟩ := resolveJoint_some _ _ _ hres
    simp only [Joint.hasParent, decide_eq_true_eq] at hpar
    subst hpar
    exact ⟨jt, hjt, c, by rw [← hget]; exact hp, by rw [← hget]; exact hc, rfl⟩
  · intro jt hjt p c hp hc
    simp only [kidsAt, List.mem_filterMap]
    refine ⟨Joint.converted jt.2.name p c, ?_, rfl⟩
    rw [hcj p, List.mem_filter, List.mem_filterMap]
    refine ⟨⟨jt, hjt, ?_⟩, by simp [Joint.hasParent]⟩
    simp [resolveJoint, hget, hp, hc]

/-- What `modelInterfaceToSkeleton` computes on a model whose joint endpoints
resolve and whose root name resolves. -/
theorem modelInterfaceToSkeleton_run (self : DartLoader) (m : urdf.ModelInterface)
    (hE : m.EndpointsResolve) (hR : m.RootResolves) :
    ∃ ns r,
      self.modelInterfaceToSkeleton m
        = Except.ok ({ mNodes := ns,
                       mJoints := m.joints_.filterMap
                           (fun jt => (self.afterNodes m).resolveJoint jt.2)
                         ++ [Joint.rootJoint m.root_link_.name false NodePtr.null
                                          (NodePtr.link r)],
                       debug := self.debug },
                     { mName := "",
                       nodes := (bfs (kidsAt ns) ns.length [r]).map NodePtr.link,
                       initialised := true })
      ∧ ns.map BodyNodeDynamics.getName = m.linkNames
      ∧ getNodeFrom m.root_link_.name ns 0 = some r
      ∧ EdgesSound m ns ∧ EdgesComplete m ns := by
  obtain ⟨ns, e1, e2, e3, e4⟩ := convertJoints_afterNodes self m hE
  obtain ⟨r, hr⟩ := getNodeFrom_isSome m.root_link_.name ns (by rw [e2]; exact hR)
  refine ⟨ns, r, ?_, e2, hr, e3, e4⟩
  have hq : ∀ u ∈ [r], u < ns.length := by
    intro u hu
    simp only [List.mem_singleton] at hu
    subst hu
    exact getNodeFrom_lt _ _ _ hr
  have hloop := pushParentsFirst_eq_bfs
    { mNodes := ns,
      mJoints := m.joints_.filterMap (fun jt => (self.afterNodes m).resolveJoint jt.2)
        ++ [Joint.rootJoint m.root_link_.name false NodePtr.null (NodePtr.link r)],
      debug := self.debug } e3.valid ns.length [r] hq 0 SkeletonDynamics.new
  simp only [List.map_cons, List.map_nil, afterNodes, SkeletonDynamics.new] at hloop e1
  unfold modelInterfaceToSkeleton
  simp only [e1, urdf.ModelInterface.getRoot, getNode, hr, createDartRootJoint,
    NodePtr.ofLookup, afterNodes, SkeletonDynamics.new, Bool.false_eq_true, if_false]
  rw [hloop]
  simp [SkeletonDynamics.initSkel]

end DartLoader

namespace urdf.ModelInterface

/-- In a well-formed model every link is reachable from the root. -/
theorem WellFormed.all_reachable {m : ModelInterface} (h : m.WellFormed) :
    ∀ x ∈ m.linkNames, m.Reachable m.root_link_.name x := by
  classical
  let r : {x // x ∈ m.linkNames} → {x // x ∈ m.linkNames} → Prop :=
    fun a b => m.Descendant a.1 b.1
  haveI : IsTrans {x // x ∈ m.linkNames} r :=
    ⟨fun _ _ _ hab hbc => Relation.TransGen.trans hab hbc⟩
  haveI : IsIrrefl {x // x ∈ m.linkNames} r := ⟨fun a => h.acyclic a.1⟩
  have wf : WellFounded r := Finite.wellFounded_of_trans_of_irrefl r
  intro x hx
  refine wf.induction (C := fun s => m.Reachable m.root_link_.name s.1) ⟨x, hx⟩ ?_
  rintro ⟨y, hy⟩ ih
  by_cases hroot : y = m.root_link_.name
  · subst hroot
    exact Relation.ReflTransGen.refl
  · have hex : ∃ jt ∈ m.joints_, jt.2.child_link_name = y := by
      by_contra hno
      push_neg at hno
      exact hroot ((h.singleRoot y hy).2 hno)
    obtain ⟨jt, hjt, hc⟩ := hex
    have hp := (h.endpointsResolve jt hjt).1
    have e : m.JointEdge jt.2.parent_link_name y := ⟨jt, hjt, rfl, hc⟩
    exact Relation.ReflTransGen.tail (ih ⟨jt.2.parent_link_name, hp⟩ (Relation.TransGen.single e)) e

/-- In a well-formed model two joint records with the same child link have
the same parent link. -/
theorem WellFormed.parent_unique {m : ModelInterface} (h : m.WellFormed)
    (jt1 jt2 : String × Joint) (h1 : jt1 ∈ m.joints_) (h2 : jt2 ∈ m.joints_)
    (e : jt1.2.child_link_name = jt2.2.child_link_name) : jt1 = jt2 :=
  List.inj_on_of_nodup_map h.singleParent h1 h2 e

end urdf.ModelInterface

namespace DartLoader
open dynamics kinematics

theorem nodeNameAt_links (ns : List BodyNodeDynamics) (js : List Joint) (d : Bool)
    (nm : String) (out : List Nat) (b : Bool) (k : Nat) :
    nodeNameAt { mNodes := ns, mJoints := js, debug := d }
        { mName := nm, nodes := out.map NodePtr.link, initialised := b } k
      = (out[k]?).bind (fun i => (ns[i]?).map BodyNodeDynamics.getName) := by
  simp only [nodeNameAt, List.getElem?_map]
  cases out[k]? <;> simp [nameOf]

theorem nameAt_of_getNodeFrom (nm : String) (ns : List BodyNodeDynamics) (i : Nat)
    (h : getNodeFrom nm ns 0 = some i) : (ns[i]?).map BodyNodeDynamics.getName = some nm := by
  obtain ⟨nd, h1, h2⟩ := getNodeFrom_some nm ns i h
  simp [h1, h2]

/-- The nodes of everything reachable from the root are dequeued when the
traversal stops before its bound. -/
theorem bfs_reaches (m : urdf.ModelInterface) (ns : List BodyNodeDynamics)
    (hnames : ns.map BodyNodeDynamics.getName = m.linkNames)
    (hE : m.EndpointsResolve) (hC : EdgesComplete m ns) (r : Nat)
    (hr : getNodeFrom m.root_link_.name ns 0 = some r) (f : Nat)
    (hlt : (bfs (kidsAt ns) f [r]).length < f) (x : String)
    (hx : m.Reachable m.root_link_.name x) (i : Nat) (hi : getNodeFrom x ns 0 = some i) :
    i ∈ bfs (kidsAt ns) f [r] := by
  obtain ⟨h1, h2⟩ := bfs_closed (kidsAt ns) f [r] hlt
  induction hx generalizing i with
  | refl =>
    rw [hr] at hi
    cases hi
    exact h1 r (List.mem_singleton_self _)
  | tail _ hbc ih =>
    obtain ⟨jt, hjt, hp, hc⟩ := hbc
    subst hp hc
    obtain ⟨p, hp⟩ := getNodeFrom_isSome jt.2.parent_link_name ns
      (by rw [hnames]; exact (hE jt hjt).1)
    exact h2 p (ih p hp) i (hC jt hjt p i hp hi)

/-- On a well-formed model the traversal dequeues exactly as many nodes as
there are links. -/
theorem bfs_length_wellFormed (m : urdf.ModelInterface) (h : m.WellFormed)
    (ns : List BodyNodeDynamics) (hnames : ns.map BodyNodeDynamics.getName = m.linkNames)
    (hC : EdgesComplete m ns) (r : Nat) (hr : getNodeFrom m.root_link_.name ns 0 = some r) :
    (bfs (kidsAt ns) ns.length [r]).length = ns.length := by
  by_contra hne
  have hlt : (bfs (kidsAt ns) ns.length [r]).length < ns.length :=
    lt_of_le_of_ne (bfs_length_le _ _ _) hne
  have hnd : (ns.map BodyNodeDynamics.getName).Nodup := by rw [hnames]; exact h.noDuplicateNames
  have hsub : List.range ns.length ⊆ bfs (kidsAt ns) ns.length [r] := by
    intro i hi
    have hil : i < ns.length := List.mem_range.1 hi
    have hget : ns[i]? = some ns[i] := List.getElem?_eq_getElem hil
    have hmem : ns[i].getName ∈ m.linkNames := by
      rw [← hnames]
      exact List.mem_map.2 ⟨ns[i], List.getElem_mem _, rfl⟩
    exact bfs_reaches m ns hnames h.endpointsResolve hC r hr _ hlt _
      (h.all_reachable _ hmem) i (getNodeFrom_self ns hnd i _ hget)
  have := (List.Nodup.subperm (List.nodup_range _) hsub).length_le
  simp only [List.length_range] at this
  omega

end DartLoader

namespace urdf.ModelInterface

/-- A rank that grows along every joint rules out cycles. -/
theorem acyclic_of_rank (m : ModelInterface) (rank : String → Nat)
    (h : ∀ jt ∈ m.joints_, rank jt.2.parent_link_name < rank jt.2.child_link_name) :
    ∀ x, ¬ m.Descendant x x := by
  have key : ∀ a b, m.Descendant a b → rank a < rank b := by
    intro a b hab
    induction hab with
    | single e =>
      obtain ⟨jt, hjt, hp, hc⟩ := e
      subst hp hc
      exact h jt hjt
    | tail _ e ih =>
      obtain ⟨jt, hjt, hp, hc⟩ := e
      subst hp hc
      exact lt_trans ih (h jt hjt)
  intro x hx
  exact lt_irrefl _ (key x x hx)

end urdf.ModelInterface

theorem armModel_wellFormed : armModel.WellFormed where
  noDuplicateNames := by decide
  rootPresent := by decide
  endpointsResolve := by decide
  singleRoot := by decide
  singleParent := by decide
  acyclic := by
    refine armModel.acyclic_of_rank
      (fun s => if s = "base" then 0 else if s = "arm1" then 1 else 2) ?_
    decide

namespace DartLoader
open dynamics kinematics

/-- C1. On a well-formed flat model `modelInterfaceToSkeleton` returns a
structure whose node sequence has as many entries as there are input links,
every entry being a link node, and in which every non-root node has a parent
joint and is preceded by the node of its parent link. -/
theorem modelInterfaceToSkeleton_parents_first (self : DartLoader) (m : urdf.ModelInterface)
    (h : m.WellFormed) :
    ∃ l t, self.modelInterfaceToSkeleton m = Except.ok (l, t)
      ∧ t.nodes.length = m.links_.length
      ∧ (∀ k, k < t.nodes.length → ∃ x ∈ m.linkNames, l.nodeNameAt t k = some x)
      ∧ ∀ k x, l.nodeNameAt t k = some x → x ≠ m.root_link_.name →
          (∃ jt ∈ m.joints_, jt.2.child_link_name = x)
          ∧ ∀ jt ∈ m.joints_, jt.2.child_link_name = x →
              ∃ j, j < k ∧ l.nodeNameAt t j = some jt.2.parent_link_name := by
  obtain ⟨ns, r, hrun, hnames, hr, hS, hC⟩ :=
    modelInterfaceToSkeleton_run self m h.endpointsResolve h.rootPresent
  have hlen : ns.length = m.links_.length := by
    have := congrArg List.length hnames
    simpa [urdf.ModelInterface.linkNames] using this
  refine ⟨_, _, hrun, ?_, ?_, ?_⟩
  · simp only [List.length_map]
    rw [bfs_length_wellFormed m h ns hnames hC r hr, hlen]
  · intro k hk
    simp only [List.length_map] at hk
    rw [nodeNameAt_links]
    have hmem : (bfs (kidsAt ns) ns.length [r])[k] ∈ bfs (kidsAt ns) ns.length [r] :=
      List.getElem_mem _
    have hlt : (bfs (kidsAt ns) ns.length [r])[k] < ns.length := by
      refine bfs_mem_closed (kidsAt ns) (fun u => u < ns.length)
        (fun u _ c hc => kidsAt_lt ns hS.valid u c hc) ns.length [r] ?_ _ hmem
      intro u hu
      simp only [List.mem_singleton] at hu
      subst hu
      exact getNodeFrom_lt _ _ _ hr
    refine ⟨ns[(bfs (kidsAt ns) ns.length [r])[k]].getName, ?_, ?_⟩
    · rw [← hnames]
      exact List.mem_map.2 ⟨_, List.getElem_mem _, rfl⟩
    · simp [List.getElem?_eq_getElem hk, List.getElem?_eq_getElem hlt]
  · intro k x hk hx
    rw [nodeNameAt_links] at hk
    cases hc : (bfs (kidsAt ns) ns.length [r])[k]? with
    | none => simp [hc] at hk
    | some c =>
      simp only [hc, Option.some_bind] at hk
      rcases bfs_parent_before (kidsAt ns) ns.length [r] k c hc with h0 | ⟨j, p, hj, hp, hcp⟩
      · exfalso
        cases k with
        | zero =>
          simp only [List.getElem?_cons_zero, Option.some.injEq] at h0
          subst h0
          rw [nameAt_of_getNodeFrom _ _ _ hr] at hk
          exact hx (Option.some.inj hk).symm
        | succ k0 => simp at h0
      · obtain ⟨jt0, hjt0, hp0, hc0⟩ := hS.kids p c hcp
        have hcx : jt0.2.child_link_name = x := by
          rw [nameAt_of_getNodeFrom _ _ _ hc0] at hk
          exact Option.some.inj hk
        refine ⟨⟨jt0, hjt0, hcx⟩, ?_⟩
        intro jt hjt hjc
        have : jt = jt0 := h.parent_unique jt jt0 hjt hjt0 (hjc.trans hcx.symm)
        subst this
        refine ⟨j, hj, ?_⟩
        rw [nodeNameAt_links, hp]
        simpa using nameAt_of_getNodeFrom _ _ _ hp0

/-- C1, on the specification's example: the three-link arm is well formed,
so its skeleton has three nodes, parents first. -/
theorem modelInterfaceToSkeleton_parents_first_witness :
    armModel.WellFormed
      ∧ ∃ l t, DartLoader.fresh.modelInterfaceToSkeleton armModel = Except.ok (l, t)
        ∧ t.nodes.length = armModel.links_.length
        ∧ (∀ k, k < t.nodes.length → ∃ x ∈ armModel.linkNames, l.nodeNameAt t k = some x)
        ∧ ∀ k x, l.nodeNameAt t k = some x → x ≠ armModel.root_link_.name →
            (∃ jt ∈ armModel.joints_, jt.2.child_link_name = x)
            ∧ ∀ jt ∈ armModel.joints_, jt.2.child_link_name = x →
                ∃ j, j < k ∧ l.nodeNameAt t j = some jt.2.parent_link_name :=
  ⟨armModel_wellFormed,
    modelInterfaceToSkeleton_parents_first DartLoader.fresh armModel armModel_wellFormed⟩

/-- The node names of the example skeleton, in order: base, arm1, arm2. -/
theorem armModel_skeleton_nodes :
    (DartLoader.fresh.modelInterfaceToSkeleton armModel).map
        (fun r => (List.range r.2.nodes.length).map (r.1.nodeNameAt r.2))
      = Except.ok [some "base", some "arm1", some "arm2"] := by
  rfl

/-! ## The Object builder -/

theorem addTheRest_eq (rootNode : Option Nat) (ns : List BodyNodeDynamics) (i : Nat)
    (sk : SkeletonDynamics) :
    addTheRest rootNode ns i sk
      = { mName := sk.mName,
          nodes := sk.nodes ++ List.map NodePtr.link
            ((List.range' i ns.length).filter (fun j => decide (some j ≠ rootNode))),
          initialised := sk.initialised } := by
  induction ns generalizing i sk with
  | nil => simp [addTheRest]
  | cons node rest ih =>
    simp only [addTheRest, List.length_cons, List.range'_succ, List.filter_cons]
    by_cases h : some i ≠ rootNode
    · simp [h, ih, SkeletonDynamics.addNode, NodePtr.ofLookup]
    · simp [h, ih]

/-- The nodes other than the root node, in the order of `mNodes`. -/
theorem theRest_some (r n : Nat) :
    (List.range' 0 n).filter (fun j => decide (some j ≠ some r)) = theRest n r := by
  rw [theRest, List.range_eq_range']
  congr 1
  funext j
  simp

/-- What `modelInterfaceToObject` computes on a model whose joint endpoints
resolve and whose root name resolves. -/
theorem modelInterfaceToObject_run (self : DartLoader) (m : urdf.ModelInterface)
    (hE : m.EndpointsResolve) (hR : m.RootResolves) :
    ∃ ns r,
      self.modelInterfaceToObject m
        = Except.ok ({ mNodes := ns,
                       mJoints := m.joints_.filterMap
                           (fun jt => (self.afterNodes m).resolveJoint jt.2)
                         ++ [Joint.rootJoint m.root_link_.name true NodePtr.defaultRoot
                              (NodePtr.link r)],
                       debug := self.debug },
                     { mName := m.name_,
                       nodes := NodePtr.defaultRoot :: NodePtr.link r
                         :: (theRest ns.length r).map NodePtr.link,
                       initialised := true })
      ∧ ns.map BodyNodeDynamics.getName = m.linkNames
      ∧ getNodeFrom m.root_link_.name ns 0 = some r
      ∧ EdgesSound m ns ∧ EdgesComplete m ns := by
  obtain ⟨ns, e1, e2, e3, e4⟩ := convertJoints_afterNodes self m hE
  obtain ⟨r, hr⟩ := getNodeFrom_isSome m.root_link_.name ns (by rw [e2]; exact hR)
  refine ⟨ns, r, ?_, e2, hr, e3, e4⟩
  simp only [afterNodes] at e1
  unfold modelInterfaceToObject
  simp only [e1, urdf.ModelInterface.getRoot, getNode, hr, createDartRootJoint,
    NodePtr.ofLookup, afterNodes, SkeletonDynamics.new, addTheRest_eq, theRest_some,
    if_true]
  simp [SkeletonDynamics.initSkel, SkeletonDynamics.update, SkeletonDynamics.addNode,
    SkeletonDynamics.addDefaultRootNode, SkeletonDynamics.setName, NodePtr.ofLookup,
    urdf.ModelInterface.getName]

/-- A joint record with an absent name does not resolve after the body-node
loop. -/
theorem afterNodes_unresolved (self : DartLoader) (m : urdf.ModelInterface)
    (jt : String × urdf.Joint)
    (h : jt.2.parent_link_name ∉ m.linkNames ∨ jt.2.child_link_name ∉ m.linkNames) :
    (self.afterNodes m).resolveJoint jt.2 = none :=
  resolveJoint_none _ _ (by rw [afterNodes_names]; exact h)

theorem afterNodes_resolveJoint_none (self : DartLoader) (m : urdf.ModelInterface)
    (jt : urdf.Joint) (h : (self.afterNodes m).resolveJoint jt = none) :
    jt.parent_link_name ∉ m.linkNames ∨ jt.child_link_name ∉ m.linkNames := by
  by_contra hcon
  push_neg at hcon
  obtain ⟨J, hJ⟩ := resolveJoint_isSome (self.afterNodes m) jt
    (by rw [afterNodes_names]; exact hcon.1) (by rw [afterNodes_names]; exact hcon.2)
  rw [hJ] at h
  cases h

/-- The Skeleton builder fails at the first joint record with an absent name. -/
theorem modelInterfaceToSkeleton_unresolved (self : DartLoader) (m : urdf.ModelInterface)
    (h : ∃ jt ∈ m.joints_,
      jt.2.parent_link_name ∉ m.linkNames ∨ jt.2.child_link_name ∉ m.linkNames) :
    ∃ jt ∈ m.joints_,
      (jt.2.parent_link_name ∉ m.linkNames ∨ jt.2.child_link_name ∉ m.linkNames)
      ∧ self.modelInterfaceToSkeleton m
          = Except.error (LoadError.UnresolvedJointEndpoint jt.2.name) := by
  obtain ⟨jt, hjt, habs⟩ := h
  obtain ⟨j, hj, hn, e⟩ := convertJoints_error m.joints_ (self.afterNodes m)
    ⟨jt, hjt, afterNodes_unresolved self m jt habs⟩
  refine ⟨j, hj, afterNodes_resolveJoint_none self m j.2 hn, ?_⟩
  simp only [afterNodes] at e
  unfold modelInterfaceToSkeleton
  simp only [e]

/-- The Object builder fails at the first joint record with an absent name. -/
theorem modelInterfaceToObject_unresolved (self : DartLoader) (m : urdf.ModelInterface)
    (h : ∃ jt ∈ m.joints_,
      jt.2.parent_link_name ∉ m.linkNames ∨ jt.2.child_link_name ∉ m.linkNames) :
    ∃ jt ∈ m.joints_,
      (jt.2.parent_link_name ∉ m.linkNames ∨ jt.2.child_link_name ∉ m.linkNames)
      ∧ self.modelInterfaceToObject m
          = Except.error (LoadError.UnresolvedJointEndpoint jt.2.name) := by
  obtain ⟨jt, hjt, habs⟩ := h
  obtain ⟨j, hj, hn, e⟩ := convertJoints_error m.joints_ (self.afterNodes m)
    ⟨jt, hjt, afterNodes_unresolved self m jt habs⟩
  refine ⟨j, hj, afterNodes_resolveJoint_none self m j.2 hn, ?_⟩
  simp only [afterNodes] at e
  unfold modelInterfaceToObject
  simp only [e]

theorem endpointsResolve_of_not_unresolved (m : urdf.ModelInterface)
    (h : ¬ ∃ jt ∈ m.joints_,
      jt.2.parent_link_name ∉ m.linkNames ∨ jt.2.child_link_name ∉ m.linkNames) :
    m.EndpointsResolve := by
  intro jt hjt
  by_contra hcon
  apply h
  refine ⟨jt, hjt, ?_⟩
  by_contra hc2
  push_neg at hc2
  exact hcon hc2

/-- When the Skeleton builder returns a structure, all joint endpoints resolve. -/
theorem endpointsResolve_of_skeleton_ok (self : DartLoader) (m : urdf.ModelInterface)
    (l : DartLoader) (t : SkeletonDynamics)
    (h : self.modelInterfaceToSkeleton m = Except.ok (l, t)) : m.EndpointsResolve := by
  apply endpointsResolve_of_not_unresolved
  intro hex
  obtain ⟨_, _, _, e⟩ := modelInterfaceToSkeleton_unresolved self m hex
  rw [h] at e
  cases e

/-- When the Object builder returns a structure, all joint endpoints resolve. -/
theorem endpointsResolve_of_object_ok (self : DartLoader) (m : urdf.ModelInterface)
    (l : DartLoader) (t : SkeletonDynamics)
    (h : self.modelInterfaceToObject m = Except.ok (l, t)) : m.EndpointsResolve := by
  apply endpointsResolve_of_not_unresolved
  intro hex
  obtain ⟨_, _, _, e⟩ := modelInterfaceToObject_unresolved self m hex
  rw [h] at e
  cases e

end DartLoader

namespace urdf.ModelInterface

/-- A link reachable from `a` is `a` itself or the child of some joint. -/
theorem Reachable.cases_child {m : ModelInterface} {a b : String} (h : m.Reachable a b) :
    a = b ∨ ∃ jt ∈ m.joints_, jt.2.child_link_name = b := by
  induction h with
  | refl => exact Or.inl rfl
  | tail _ e _ =>
    obtain ⟨jt, hjt, _, hc⟩ := e
    exact Or.inr ⟨jt, hjt, hc⟩

/-- A descendant is the child of some joint. -/
theorem Descendant.is_child {m : ModelInterface} {a b : String} (h : m.Descendant a b) :
    ∃ jt ∈ m.joints_, jt.2.child_link_name = b := by
  cases h with
  | single e =>
    obtain ⟨jt, hjt, _, hc⟩ := e
    exact ⟨jt, hjt, hc⟩
  | tail _ e =>
    obtain ⟨jt, hjt, _, hc⟩ := e
    exact ⟨jt, hjt, hc⟩

end urdf.ModelInterface

theorem reversedArmModel_wellFormed : reversedArmModel.WellFormed where
  noDuplicateNames := by decide
  rootPresent := by decide
  endpointsResolve := by decide
  singleRoot := by decide
  singleParent := by decide
  acyclic := by
    refine reversedArmModel.acyclic_of_rank
      (fun s => if s = "base" then 0 else if s = "arm2" then 1 else 2) ?_
    decide

namespace DartLoader
open dynamics kinematics

/-! ## The node sequence of the Object builder -/

theorem nodeNameAt_object_zero (ns : List BodyNodeDynamics) (js : List Joint) (d : Bool)
    (nm : String) (rest : List NodePtr) (b : Bool) :
    nodeNameAt { mNodes := ns, mJoints := js, debug := d }
        { mName := nm, nodes := NodePtr.defaultRoot :: rest, initialised := b } 0 = none := by
  simp [nodeNameAt, nameOf]

theorem nodeNameAt_object_succ (ns : List BodyNodeDynamics) (js : List Joint) (d : Bool)
    (nm : String) (r : Nat) (out : List Nat) (b : Bool) (k : Nat) :
    nodeNameAt { mNodes := ns, mJoints := js, debug := d }
        { mName := nm, nodes := NodePtr.defaultRoot :: NodePtr.link r :: out.map NodePtr.link,
          initialised := b } (k + 1)
      = ((r :: out)[k]?).bind (fun i => (ns[i]?).map BodyNodeDynamics.getName) := by
  have := nodeNameAt_links ns js d nm (r :: out) b k
  simp only [nodeNameAt, List.map_cons, List.getElem?_cons_succ] at this ⊢
  exact this

/-- A node other than the root node sits behind position 1 of the Object
node sequence. -/
theorem mem_theRest (n r c : Nat) : c ∈ theRest n r ↔ c < n ∧ c ≠ r := by
  simp [theRest, List.mem_filter]

theorem theRest_position (n r c : Nat) (hc : c < n) (hne : c ≠ r) :
    ∃ k : Nat, (theRest n r)[k]? = some c := by
  have hmem : c ∈ theRest n r := (mem_theRest n r c).2 ⟨hc, hne⟩
  obtain ⟨k, hk⟩ := List.mem_iff_getElem?.1 hmem
  exact ⟨k, hk⟩

theorem theRest_mem (n r c k : Nat) (h : (theRest n r)[k]? = some c) : c < n ∧ c ≠ r :=
  (mem_theRest n r c).1 (List.getElem?_mem h)

/-- C2 fails as stated: on the well-formed chain base, arm2, arm1 the Object
builder puts arm1 at position 2 and its parent arm2 at position 3, so not
every node precedes its descendants. -/
theorem modelInterfaceToObject_not_parents_first :
    reversedArmModel.WellFormed
      ∧ ∃ l t, DartLoader.fresh.modelInterfaceToObject reversedArmModel = Except.ok (l, t)
        ∧ ¬ ∀ a b, reversedArmModel.Descendant a b → ∀ i j,
            l.nodeNameAt t i = some a → l.nodeNameAt t j = some b → i < j := by
  refine ⟨reversedArmModel_wellFormed, _, _, rfl, ?_⟩
  intro h
  have hd : reversedArmModel.Descendant "arm2" "arm1" :=
    Relation.TransGen.single ⟨("j2", ⟨"j2", "arm2", "arm1"⟩), by decide, rfl, rfl⟩
  exact absurd (h "arm2" "arm1" hd 3 2 rfl rfl) (by decide)

/-- C2, amended: on a well-formed flat model the Object builder returns a
structure in which the root link's node (at position 1, behind the default
root node) precedes every one of its descendants, each of which is present. -/
theorem modelInterfaceToObject_root_first (self : DartLoader) (m : urdf.ModelInterface)
    (h : m.WellFormed) :
    ∃ l t, self.modelInterfaceToObject m = Except.ok (l, t)
      ∧ l.nodeNameAt t 1 = some m.root_link_.name
      ∧ (∀ b, m.Descendant m.root_link_.name b → ∃ j, l.nodeNameAt t j = some b)
      ∧ ∀ b, m.Descendant m.root_link_.name b → ∀ i j,
          l.nodeNameAt t i = some m.root_link_.name → l.nodeNameAt t j = some b → i < j := by
  obtain ⟨ns, r, hrun, hnames, hr, _, _⟩ :=
    modelInterfaceToObject_run self m h.endpointsResolve h.rootPresent
  have hnd : (ns.map BodyNodeDynamics.getName).Nodup := by rw [hnames]; exact h.noDuplicateNames
  have hroot1 : ∀ out : List Nat, ((r :: out)[0]?).bind
      (fun i => (ns[i]?).map BodyNodeDynamics.getName) = some m.root_link_.name := by
    intro out
    simpa using nameAt_of_getNodeFrom _ _ _ hr
  -- a position behind 1 never holds the root's name
  have hlate : ∀ k x, ((r :: theRest ns.length r)[k + 1]?).bind
      (fun i => (ns[i]?).map BodyNodeDynamics.getName) = some x → x ≠ m.root_link_.name := by
    intro k x hk hx
    simp only [List.getElem?_cons_succ] at hk
    cases hc : (theRest ns.length r)[k]? with
    | none => simp [hc] at hk
    | some c =>
      simp only [hc, Option.some_bind] at hk
      obtain ⟨hcn, hcr⟩ := theRest_mem _ _ _ _ hc
      have hget : ns[c]? = some ns[c] := List.getElem?_eq_getElem hcn
      rw [hget] at hk
      simp only [Option.map_some', Option.some.injEq] at hk
      have := getNodeFrom_self ns hnd c _ hget
      rw [hk, hx, hr] at this
      exact hcr (Option.some.inj this).symm
  have hne : ∀ b, m.Descendant m.root_link_.name b → b ≠ m.root_link_.name := by
    intro b hb e
    rw [e] at hb
    exact h.acyclic _ hb
  refine ⟨_, _, hrun, ?_, ?_, ?_⟩
  · rw [nodeNameAt_object_succ]
    exact hroot1 _
  · intro b hb
    obtain ⟨jt, hjt, hc⟩ := hb.is_child
    have hmem : b ∈ ns.map BodyNodeDynamics.getName := by
      rw [hnames, ← hc]
      exact (h.endpointsResolve jt hjt).2
    obtain ⟨c, hc'⟩ := getNodeFrom_isSome b ns hmem
    have hcr : c ≠ r := by
      intro e
      subst e
      have h1 := nameAt_of_getNodeFrom _ _ _ hc'
      rw [nameAt_of_getNodeFrom _ _ _ hr] at h1
      exact hne b hb (Option.some.inj h1).symm
    obtain ⟨k, hk⟩ := theRest_position ns.length r c (getNodeFrom_lt _ _ _ hc') hcr
    refine ⟨k + 2, ?_⟩
    rw [nodeNameAt_object_succ]
    simp only [List.getElem?_cons_succ, hk, Option.some_bind]
    exact nameAt_of_getNodeFrom _ _ _ hc'
  · intro b hb i j hi hj
    have hj2 : 2 ≤ j := by
      rcases j with _ | _ | j
      · rw [nodeNameAt_object_zero] at hj; cases hj
      · rw [nodeNameAt_object_succ, hroot1] at hj
        exact absurd (Option.some.inj hj).symm (hne b hb)
      · omega
    have hi1 : i ≤ 1 := by
      rcases i with _ | _ | i
      · omega
      · omega
      · rw [nodeNameAt_object_succ] at hi
        exact absurd rfl (hlate i _ hi)
    omega

/-- C2, amended, on the chain base, arm2, arm1. -/
theorem modelInterfaceToObject_root_first_witness :
    reversedArmModel.WellFormed
      ∧ ∃ l t, DartLoader.fresh.modelInterfaceToObject reversedArmModel = Except.ok (l, t)
        ∧ l.nodeNameAt t 1 = some reversedArmModel.root_link_.name
        ∧ (∀ b, reversedArmModel.Descendant reversedArmModel.root_link_.name b →
            ∃ j, l.nodeNameAt t j = some b)
        ∧ ∀ b, reversedArmModel.Descendant reversedArmModel.root_link_.name b → ∀ i j,
            l.nodeNameAt t i = some reversedArmModel.root_link_.name →
            l.nodeNameAt t j = some b → i < j :=
  ⟨reversedArmModel_wellFormed,
    modelInterfaceToObject_root_first DartLoader.fresh reversedArmModel reversedArmModel_wellFormed⟩

theorem link_injective : Function.Injective NodePtr.link := by
  intro a b h
  cases h
  rfl

/-- The node names of the example object, in order: the default root node
(no link name), base, arm1, arm2, loose. -/
theorem looseModel_object_nodes :
    (DartLoader.fresh.modelInterfaceToObject looseModel).map
        (fun r => (List.range r.2.nodes.length).map (r.1.nodeNameAt r.2))
      = Except.ok [none, some "base", some "arm1", some "arm2", some "loose"] := by
  rfl

/-- C9 fails as stated: in this model the link "anchor" is unreachable from
the root and "arm1" is reachable, yet the Object builder puts "anchor" at
position 2 and "arm1" behind it at position 3. -/
theorem modelInterfaceToObject_unreachable_not_last :
    anchorModel.RootResolves
      ∧ ∃ l t, DartLoader.fresh.modelInterfaceToObject anchorModel = Except.ok (l, t)
        ∧ ¬ ∀ u v, ¬ anchorModel.Reachable anchorModel.root_link_.name u →
            anchorModel.Reachable anchorModel.root_link_.name v → ∀ i j,
            l.nodeNameAt t i = some u → l.nodeNameAt t j = some v → j < i := by
  refine ⟨by decide, _, _, rfl, ?_⟩
  intro h
  have hu : ¬ anchorModel.Reachable anchorModel.root_link_.name "anchor" := by
    intro hr
    rcases hr.cases_child with e | ⟨jt, hjt, hc⟩
    · exact absurd e (by decide)
    · revert jt
      decide
  have hv : anchorModel.Reachable anchorModel.root_link_.name "arm1" :=
    Relation.ReflTransGen.single ⟨("j1", ⟨"j1", "base", "arm1"⟩), by decide, rfl, rfl⟩
  exact absurd (h "anchor" "arm1" hu hv 2 3 rfl rfl) (by decide)

/-- C9, amended: for a flat model whose root resolves, whenever the Object
builder returns a structure, the root link's node is at position 1 of its
node sequence and the node of every link that is unreachable from the root
appears at a later position; the builder does return when the joint
endpoints resolve. -/
theorem modelInterfaceToObject_unreachable_after_root (self : DartLoader)
    (m : urdf.ModelInterface) (hR : m.RootResolves) :
    (∀ l t, self.modelInterfaceToObject m = Except.ok (l, t) →
        ∃ r, l.getNode m.root_link_.name = some r
          ∧ t.nodes[1]? = some (NodePtr.link r)
          ∧ ∀ c x, l.nameOf (NodePtr.link c) = some x → ¬ m.Reachable m.root_link_.name x →
              ∃ j, 1 < j ∧ t.nodes[j]? = some (NodePtr.link c))
    ∧ (m.EndpointsResolve → ∃ l t, self.modelInterfaceToObject m = Except.ok (l, t)) := by
  constructor
  · intro l t hok
    have hE := endpointsResolve_of_object_ok self m l t hok
    obtain ⟨ns, r, hrun, hnames, hr, _, _⟩ := modelInterfaceToObject_run self m hE hR
    rw [hrun] at hok
    cases hok
    refine ⟨r, hr, by simp, ?_⟩
    intro c x hcx hun
    simp only [nameOf] at hcx
    have hcn : c < ns.length := by
      by_contra hge
      rw [List.getElem?_eq_none (Nat.le_of_not_lt hge)] at hcx
      cases hcx
    have hcr : c ≠ r := by
      intro e
      subst e
      rw [nameAt_of_getNodeFrom _ _ _ hr] at hcx
      cases hcx
      exact hun Relation.ReflTransGen.refl
    obtain ⟨k, hk⟩ := theRest_position ns.length r c hcn hcr
    refine ⟨k + 2, by omega, ?_⟩
    simp [List.getElem?_map, hk]
  · intro hE
    obtain ⟨_, _, hrun, _⟩ := modelInterfaceToObject_run self m hE hR
    exact ⟨_, _, hrun⟩

/-- C9, amended, on the example with the unreferenced link "anchor": the
builder returns, with the root link's node at position 1 and the nodes of
unreachable links behind it. -/
theorem modelInterfaceToObject_unreachable_after_root_witness :
    anchorModel.RootResolves ∧ anchorModel.EndpointsResolve
      ∧ ∃ l t, DartLoader.fresh.modelInterfaceToObject anchorModel = Except.ok (l, t)
        ∧ ∃ r, l.getNode anchorModel.root_link_.name = some r
          ∧ t.nodes[1]? = some (NodePtr.link r)
          ∧ ∀ c x, l.nameOf (NodePtr.link c) = some x →
              ¬ anchorModel.Reachable anchorModel.root_link_.name x →
              ∃ j, 1 < j ∧ t.nodes[j]? = some (NodePtr.link c) :=
  have h := modelInterfaceToObject_unreachable_after_root DartLoader.fresh anchorModel
    (by decide)
  match h.2 (by decide) with
  | ⟨l, t, hok⟩ => ⟨by decide, by decide, l, t, hok, h.1 l t hok⟩

/-! ## The Robot traversal -/

theorem getNodeFrom_eq_lookupLink (m : urdf.ModelInterface) (ns : List BodyNodeDynamics)
    (hn : ns.map BodyNodeDynamics.getName = m.linkNames) (nm : String) :
    getNodeFrom nm ns 0 = lookupLink m nm :=
  getNodeFrom_congr nm _ _ 0 (hn.trans (createNodes_names m).symm)

theorem lookupLink_some (m : urdf.ModelInterface) (nm : String) (i : Nat)
    (h : lookupLink m nm = some i) : i < m.links_.length ∧ m.linkNames[i]? = some nm := by
  have h1 := getNodeFrom_lt _ _ _ h
  have h2 := nameAt_of_getNodeFrom _ _ _ h
  rw [createNodes_length] at h1
  rw [← List.getElem?_map, createNodes_names] at h2
  exact ⟨h1, h2⟩

theorem lookupLink_isSome (m : urdf.ModelInterface) (nm : String) (h : nm ∈ m.linkNames) :
    ∃ i, lookupLink m nm = some i :=
  getNodeFrom_isSome nm _ (by rw [createNodes_names]; exact h)

theorem lookupLink_none (m : urdf.ModelInterface) (nm : String) (h : nm ∉ m.linkNames) :
    lookupLink m nm = none :=
  getNodeFrom_none nm _ (by rw [createNodes_names]; exact h)

/-- The lazy joint loop of the Robot traversal is the eager loop on the
records whose parent is the dequeued node's name. -/
theorem convertJointsOf_eq (uName : String) (self : DartLoader)
    (js : List (String × urdf.Joint)) :
    convertJointsOf uName self js
      = self.convertJoints (js.filter (fun jt => decide (jt.2.parent_link_name = uName))) := by
  induction js generalizing self with
  | nil => rfl
  | cons jt rest ih =>
    by_cases h : jt.2.parent_link_name = uName
    · simp only [convertJointsOf, h, if_true, List.filter_cons, decide_True, convertJoints]
      cases self.createDartJoint jt.2 with
      | error e => rfl
      | ok r => exact ih _
    · simp only [convertJointsOf, h, if_false, List.filter_cons, decide_False]
      exact ih _

/-- Converting joint records of the model keeps the stored edges sound. -/
theorem convertJoints_sound (m : urdf.ModelInterface) (js : List (String × urdf.Joint))
    (hjs : ∀ jt ∈ js, jt ∈ m.joints_) (self : DartLoader)
    (hS : EdgesSound m self.mNodes)
    (h : ∀ jt ∈ js, ∃ J, self.resolveJoint jt.2 = some J) :
    ∃ s1, self.convertJoints js = Except.ok s1
      ∧ s1.mNodes.map BodyNodeDynamics.getName = self.mNodes.map BodyNodeDynamics.getName
      ∧ s1.debug = self.debug
      ∧ s1.mJoints = self.mJoints ++ js.filterMap (fun jt => self.resolveJoint jt.2)
      ∧ EdgesSound m s1.mNodes := by
  obtain ⟨ns, e1, e2, e3⟩ := convertJoints_spec js self h
  refine ⟨_, e1, e2, rfl, rfl, ?_⟩
  intro i J hJ
  have hget : ∀ nm, getNodeFrom nm ns 0 = getNodeFrom nm self.mNodes 0 :=
    fun nm => getNodeFrom_congr nm _ _ 0 e2
  simp only [e3 i, List.mem_append, List.mem_filter, List.mem_filterMap] at hJ
  rcases hJ with hJ | ⟨⟨jt, hjt, hres⟩, hpar⟩
  · obtain ⟨jt, hjt, c, hp, hc, e⟩ := hS i J hJ
    exact ⟨jt, hjt, c, by rw [hget]; exact hp, by rw [hget]; exact hc, e⟩
  · obtain ⟨p, c, hp, hc, rfl⟩ := resolveJoint_some _ _ _ hres
    simp only [Joint.hasParent, decide_eq_true_eq] at hpar
    subst hpar
    exact ⟨jt, hjs jt hjt, c, by rw [hget]; exact hp, by rw [hget]; exact hc, rfl⟩

theorem length_of_names (m : urdf.ModelInterface) (ns : List BodyNodeDynamics)
    (hn : ns.map BodyNodeDynamics.getName = m.linkNames) : ns.length = m.links_.length := by
  have := congrArg List.length hn
  simpa [urdf.ModelInterface.linkNames] using this

theorem linkNames_getElem? (m : urdf.ModelInterface) (ns : List BodyNodeDynamics)
    (hn : ns.map BodyNodeDynamics.getName = m.linkNames) (i : Nat) :
    m.linkNames[i]? = (ns[i]?).map BodyNodeDynamics.getName := by
  rw [← hn, List.getElem?_map]

/-- The Robot traversal from a queue of valid node pointers: either a joint
record whose parent node was dequeued has an absent child link, and the
traversal stops with `UnresolvedJointEndpoint`; or it returns, having
appended the dequeued nodes. -/
theorem robotLoop_cases (m : urdf.ModelInterface) (f : Nat) (self : DartLoader) (q : List Nat)
    (numIter : Nat) (sk : SkeletonDynamics)
    (hn : self.mNodes.map BodyNodeDynamics.getName = m.linkNames)
    (hS : EdgesSound m self.mNodes)
    (hq : ∀ u ∈ q, u < m.links_.length) :
    (∃ jt ∈ m.joints_, jt.2.child_link_name ∉ m.linkNames
        ∧ robotLoop m f self (q.map some) numIter sk
            = Except.error (LoadError.UnresolvedJointEndpoint jt.2.name))
    ∨ ∃ (s1 : DartLoader) (out : List Nat), robotLoop m f self (q.map some) numIter sk
          = Except.ok (s1, { mName := sk.mName, nodes := sk.nodes ++ out.map NodePtr.link,
                             initialised := sk.initialised }, numIter + out.length)
        ∧ s1.mNodes.map BodyNodeDynamics.getName = m.linkNames
        ∧ EdgesSound m s1.mNodes
        ∧ s1.debug = self.debug
        ∧ (∃ ext, s1.mJoints = self.mJoints ++ ext)
        ∧ out.length ≤ f
        ∧ (0 < f → out.head? = q.head?)
        ∧ (∀ x ∈ out, x < m.links_.length ∧ ∀ jt ∈ m.joints_,
            m.linkNames[x]? = some jt.2.parent_link_name → jt.2.child_link_name ∈ m.linkNames)
        ∧ ∀ P : Nat → Prop,
            (∀ jt ∈ m.joints_, ∀ p c, lookupLink m jt.2.parent_link_name = some p →
              lookupLink m jt.2.child_link_name = some c → P p → P c) →
            (∀ u ∈ q, P u) → ∀ x ∈ out, P x := by
  induction f generalizing self q numIter sk with
  | zero =>
    right
    exact ⟨self, [], by simp [robotLoop], hn, hS, rfl, ⟨[], by simp⟩, by simp, by simp,
      by simp, by simp⟩
  | succ f ih =>
    cases q with
    | nil =>
      right
      exact ⟨self, [], by simp [robotLoop], hn, hS, rfl, ⟨[], by simp⟩, by simp, by simp,
        by simp, by simp⟩
    | cons u rest =>
      have hlen : self.mNodes.length = m.links_.length := length_of_names m _ hn
      have hu : u < self.mNodes.length := by
        rw [hlen]; exact hq u (List.mem_cons_self _ _)
      have hd : self.mNodes[u]? = some self.mNodes[u] := List.getElem?_eq_getElem hu
      have hname : m.linkNames[u]? = some self.mNodes[u].getName := by
        rw [linkNames_getElem? m _ hn, hd]; rfl
      have hself : self.mNodes[u].getName ∈ m.linkNames := List.getElem?_mem hname
      simp only [List.map_cons, robotLoop, deref, hd, convertJointsOf_eq]
      by_cases hall : ∀ jt ∈ m.joints_.filter
          (fun jt => decide (jt.2.parent_link_name = self.mNodes[u].getName)),
          ∃ J, self.resolveJoint jt.2 = some J
      · obtain ⟨s1, e1, en, ed, ej, hS1⟩ := convertJoints_sound m _
          (fun jt hjt => (List.mem_filter.1 hjt).1) self hS hall
        have hn1 : s1.mNodes.map BodyNodeDynamics.getName = m.linkNames := en.trans hn
        have hlen1 : s1.mNodes.length = m.links_.length := length_of_names m _ hn1
        have hu1 : u < s1.mNodes.length := by rw [hlen1, ← hlen]; exact hu
        have hd1 : s1.mNodes[u]? = some s1.mNodes[u] := List.getElem?_eq_getElem hu1
        have hq1 : ∀ v ∈ rest ++ kidsAt s1.mNodes u, v < m.links_.length := by
          intro v hv
          rcases List.mem_append.1 hv with h | h
          · exact hq v (List.mem_cons_of_mem _ h)
          · rw [← hlen1]; exact kidsAt_lt _ hS1.valid _ _ h
        simp only [e1, hd1]
        rw [getChildNodes_eq_kidsAt _ hS1.valid u _ hd1, ← List.map_append]
        rcases ih s1 (rest ++ kidsAt s1.mNodes u) (numIter + 1) (sk.addNode (some u)) hn1 hS1 hq1
          with ⟨jt, hjt, habs, e⟩ | ⟨s2, out, e, hn2, hS2, hd2, ⟨ext, hext⟩, hle, hhead, hres, hclos⟩
        · left
          exact ⟨jt, hjt, habs, e⟩
        · right
          refine ⟨s2, u :: out, ?_, hn2, hS2, hd2.trans ed, ?_, ?_, ?_, ?_, ?_⟩
          · rw [e]
            simp [SkeletonDynamics.addNode, NodePtr.ofLookup, Nat.add_comm, Nat.add_left_comm]
          · exact ⟨(m.joints_.filter (fun jt => decide
                (jt.2.parent_link_name = self.mNodes[u].getName))).filterMap
                (fun jt => self.resolveJoint jt.2) ++ ext,
              by rw [hext, ej, List.append_assoc]⟩
          · simp only [List.length_cons]; omega
          · intro _; rfl
          · intro x hx
            rcases List.mem_cons.1 hx with rfl | hx
            · refine ⟨hq _ (List.mem_cons_self _ _), ?_⟩
              intro jt hjt hpar
              rw [hname] at hpar
              have hmem : jt ∈ m.joints_.filter
                  (fun jt => decide (jt.2.parent_link_name = self.mNodes[x].getName)) := by
                simp only [List.mem_filter, decide_eq_true_eq]
                exact ⟨hjt, (Option.some.inj hpar).symm⟩
              obtain ⟨J, hJ⟩ := hall jt hmem
              obtain ⟨p, c, _, hc, _⟩ := resolveJoint_some _ _ _ hJ
              rw [← hn]
              obtain ⟨nd, h1, h2⟩ := getNodeFrom_some _ _ _ hc
              rw [← h2]
              exact List.mem_map.2 ⟨nd, List.getElem?_mem h1, rfl⟩
            · exact hres x hx
          · intro P hP hPq x hx
            rcases List.mem_cons.1 hx with rfl | hx
            · exact hPq _ (List.mem_cons_self _ _)
            · refine hclos P hP ?_ x hx
              intro v hv
              rcases List.mem_append.1 hv with h | h
              · exact hPq v (List.mem_cons_of_mem _ h)
              · obtain ⟨jt, hjt, hp, hc⟩ := hS1.kids u v h
                rw [getNodeFrom_eq_lookupLink m _ hn1] at hp hc
                exact hP jt hjt u v hp hc (hPq _ (List.mem_cons_self _ _))
      · left
        push_neg at hall
        obtain ⟨jt0, hjt0, hnone0⟩ := hall
        have hnone0' : self.resolveJoint jt0.2 = none := by
          cases hres : self.resolveJoint jt0.2 with
          | none => rfl
          | some J => exact absurd hres (hnone0 J)
        obtain ⟨jt, hjt, hnone, e⟩ := convertJoints_error _ self ⟨jt0, hjt0, hnone0'⟩
        obtain ⟨hjm, hjp⟩ := List.mem_filter.1 hjt
        simp only [decide_eq_true_eq] at hjp
        refine ⟨jt, hjm, ?_, by simp only [e]⟩
        intro hchild
        obtain ⟨J, hJ⟩ := resolveJoint_isSome self jt.2
          (by rw [hn, hjp]; exact hself) (by rw [hn]; exact hchild)
        rw [hJ] at hnone
        cases hnone

theorem createNodes_edgesSound (m : urdf.ModelInterface) :
    EdgesSound m (createNodes m.links_) := by
  intro i J hJ
  rw [createNodes_childJointsAt] at hJ
  cases hJ

theorem nodeNameAt_robot_zero (l : DartLoader) (nm : String) (rest : List NodePtr) (b : Bool) :
    l.nodeNameAt { mName := nm, nodes := NodePtr.defaultRoot :: rest, initialised := b } 0
      = none := by
  simp [nodeNameAt, nameOf]

theorem nodeNameAt_robot_succ (l : DartLoader) (m : urdf.ModelInterface)
    (hn : l.mNodes.map BodyNodeDynamics.getName = m.linkNames)
    (nm : String) (out : List Nat) (b : Bool) (k : Nat) :
    l.nodeNameAt { mName := nm, nodes := NodePtr.defaultRoot :: out.map NodePtr.link,
                   initialised := b } (k + 1)
      = (out[k]?).bind (fun i => m.linkNames[i]?) := by
  simp only [nodeNameAt, List.getElem?_cons_succ, List.getElem?_map]
  cases out[k]? with
  | none => rfl
  | some i => simp [nameOf, linkNames_getElem? m _ hn]

/-- What `modelInterfaceToRobot` does on a model whose root name resolves:
it stops with `UnresolvedJointEndpoint` at a joint record whose child link is
absent, or it returns a structure that holds the default root node and then
the nodes the traversal dequeued, the root link's node first. -/
theorem modelInterfaceToRobot_cases (self : DartLoader) (m : urdf.ModelInterface)
    (hR : m.RootResolves) :
    (∃ jt ∈ m.joints_, jt.2.child_link_name ∉ m.linkNames
        ∧ self.modelInterfaceToRobot m
            = Except.error (LoadError.UnresolvedJointEndpoint jt.2.name))
    ∨ ∃ (l : DartLoader) (out : List Nat) (r : Nat) (ext : List Joint),
        self.modelInterfaceToRobot m
          = Except.ok (l, { mName := m.name_,
                            nodes := NodePtr.defaultRoot :: out.map NodePtr.link,
                            initialised := true })
        ∧ robotLoop m m.links_.length
            { mNodes := createNodes m.links_,
              mJoints := [Joint.rootJoint m.root_link_.name true NodePtr.defaultRoot
                (NodePtr.link r)],
              debug := self.debug } [some r] 0
            { mName := m.name_, nodes := [NodePtr.defaultRoot], initialised := false }
          = Except.ok (l, { mName := m.name_,
                            nodes := NodePtr.defaultRoot :: out.map NodePtr.link,
                            initialised := false }, out.length)
        ∧ l.mNodes.map BodyNodeDynamics.getName = m.linkNames
        ∧ EdgesSound m l.mNodes
        ∧ l.debug = self.debug
        ∧ lookupLink m m.root_link_.name = some r
        ∧ l.mJoints = Joint.rootJoint m.root_link_.name true NodePtr.defaultRoot
            (NodePtr.link r) :: ext
        ∧ out.length ≤ m.links_.length
        ∧ out.head? = some r
        ∧ (∀ x ∈ out, x < m.links_.length ∧ ∀ jt ∈ m.joints_,
            m.linkNames[x]? = some jt.2.parent_link_name → jt.2.child_link_name ∈ m.linkNames)
        ∧ ∀ P : Nat → Prop,
            (∀ jt ∈ m.joints_, ∀ p c, lookupLink m jt.2.parent_link_name = some p →
              lookupLink m jt.2.child_link_name = some c → P p → P c) →
            P r → ∀ x ∈ out, P x := by
  obtain ⟨r, hr⟩ := lookupLink_isSome m _ hR
  have hrlt : r < m.links_.length := (lookupLink_some m _ r hr).1
  have hpos : 0 < m.links_.length := by omega
  have hq : ∀ u ∈ [r], u < m.links_.length := by
    intro u hu
    simp only [List.mem_singleton] at hu
    subst hu
    exact hrlt
  have hcases := robotLoop_cases m (createNodes m.links_).length
    { mNodes := createNodes m.links_,
      mJoints := [Joint.rootJoint m.root_link_.name true NodePtr.defaultRoot (NodePtr.link r)],
      debug := self.debug } [r] 0
    { mName := m.name_, nodes := [NodePtr.defaultRoot], initialised := false }
    (createNodes_names m) (createNodes_edgesSound m) hq
  have hunf : self.modelInterfaceToRobot m
      = Except.map (fun res => (res.1, res.2.1.initSkel.update))
          (robotLoop m (createNodes m.links_).length
            { mNodes := createNodes m.links_,
              mJoints := [Joint.rootJoint m.root_link_.name true NodePtr.defaultRoot
                (NodePtr.link r)],
              debug := self.debug } [some r] 0
            { mName := m.name_, nodes := [NodePtr.defaultRoot], initialised := false }) := by
    unfold modelInterfaceToRobot
    have hr' : getNodeFrom m.root_link_.name (createNodes m.links_) 0 = some r := hr
    simp only [getNode, urdf.ModelInterface.getRoot, hr', createDartRootJoint, NodePtr.ofLookup,
      SkeletonDynamics.new, SkeletonDynamics.addDefaultRootNode, SkeletonDynamics.setName,
      urdf.ModelInterface.getName, Option.isNone_some, Bool.and_false, Bool.false_eq_true,
      if_false, if_true, List.nil_append]
    generalize robotLoop m _ _ _ _ _ = X
    rcases X with e | ⟨s, sk, n⟩ <;> rfl
  simp only [List.map_cons, List.map_nil] at hcases
  rcases hcases with ⟨jt, hjt, habs, e⟩ | ⟨s1, out, e, hn1, hS1, hd1, ⟨ext, hext⟩, hle, hhead,
    hres, hclos⟩
  · left
    refine ⟨jt, hjt, habs, ?_⟩
    rw [hunf, e]
    rfl
  · right
    refine ⟨s1, out, r, ext, ?_, ?_, hn1, hS1, hd1, hr, by simpa using hext, ?_, ?_, hres, ?_⟩
    · rw [hunf, e]
      simp [Except.map, SkeletonDynamics.initSkel, SkeletonDynamics.update]
    · rw [createNodes_length] at e
      rw [e]
      simp
    · rw [createNodes_length] at hle
      exact hle
    · rw [createNodes_length] at hhead
      simpa using hhead hpos
    · intro P hP hPr x hx
      refine hclos P hP ?_ x hx
      intro u hu
      simp only [List.mem_singleton] at hu
      subst hu
      exact hPr

/-! ## Unresolved joint endpoints -/

/-- C3 fails as stated: the joint of this model names the absent parent link
"ghost", and the Robot builder returns a structure all the same; the joint
is never converted, so `mJoints` holds the root joint only. -/
theorem modelInterfaceToRobot_skips_dangling_parent :
    (∃ jt ∈ danglingParentModel.joints_,
        jt.2.parent_link_name ∉ danglingParentModel.linkNames)
      ∧ ∃ l t, DartLoader.fresh.modelInterfaceToRobot danglingParentModel = Except.ok (l, t)
        ∧ l.mJoints.length = 1 :=
  ⟨⟨("j1", ⟨"j1", "ghost", "base"⟩), by decide, by decide⟩, _, _, rfl, rfl⟩

/-- C3, amended: when some joint names an absent parent or child link, the
Skeleton builder, which converts every joint record, fails with
`UnresolvedJointEndpoint` and returns no structure. The Robot builder
converts a joint record only when a node with the record's parent name is
dequeued: when the root resolves, it either fails with
`UnresolvedJointEndpoint` at a joint whose child link is absent, or returns a
structure none of whose nodes is the parent of such a joint; it does fail
when such a joint hangs off the root link. -/
theorem unresolvedJointEndpoint_reported (self : DartLoader) (m : urdf.ModelInterface)
    (h : ∃ jt ∈ m.joints_,
      jt.2.parent_link_name ∉ m.linkNames ∨ jt.2.child_link_name ∉ m.linkNames) :
    (∃ jt ∈ m.joints_,
        (jt.2.parent_link_name ∉ m.linkNames ∨ jt.2.child_link_name ∉ m.linkNames)
        ∧ self.modelInterfaceToSkeleton m
            = Except.error (LoadError.UnresolvedJointEndpoint jt.2.name))
    ∧ (m.RootResolves →
        ((∃ jt ∈ m.joints_, jt.2.child_link_name ∉ m.linkNames
            ∧ self.modelInterfaceToRobot m
                = Except.error (LoadError.UnresolvedJointEndpoint jt.2.name))
          ∨ ∃ l t, self.modelInterfaceToRobot m = Except.ok (l, t)
              ∧ ∀ jt ∈ m.joints_, jt.2.child_link_name ∉ m.linkNames →
                  ∀ k, l.nodeNameAt t k ≠ some jt.2.parent_link_name)
        ∧ ((∃ jt ∈ m.joints_, jt.2.parent_link_name = m.root_link_.name
              ∧ jt.2.child_link_name ∉ m.linkNames) →
            ∃ jt ∈ m.joints_, jt.2.child_link_name ∉ m.linkNames
              ∧ self.modelInterfaceToRobot m
                  = Except.error (LoadError.UnresolvedJointEndpoint jt.2.name))) := by
  refine ⟨modelInterfaceToSkeleton_unresolved self m h, fun hR => ?_⟩
  rcases modelInterfaceToRobot_cases self m hR with hl | ⟨l, out, r, ext, e, _, hn, _, _, hr, _,
    _, hhead, hres, _⟩
  · exact ⟨Or.inl hl, fun _ => hl⟩
  · constructor
    · right
      refine ⟨_, _, e, ?_⟩
      intro jt hjt habs k hk
      cases k with
      | zero => rw [nodeNameAt_robot_zero] at hk; cases hk
      | succ k =>
        rw [nodeNameAt_robot_succ l m hn] at hk
        cases hx : out[k]? with
        | none => simp [hx] at hk
        | some x =>
          simp only [hx, Option.some_bind] at hk
          exact habs ((hres x (List.getElem?_mem hx)).2 jt hjt hk)
    · rintro ⟨jt, hjt, hpar, habs⟩
      exfalso
      have hrmem : r ∈ out := List.mem_of_mem_head? hhead
      have hname := (lookupLink_some m _ r hr).2
      rw [← hpar] at hname
      exact habs ((hres r hrmem).2 jt hjt hname)

/-- C3, amended, on a model whose single joint hangs off the root link and
names the absent child link "ghost": both builders fail with
`UnresolvedJointEndpoint`. -/
theorem unresolvedJointEndpoint_reported_witness :
    (∃ jt ∈ danglingChildModel.joints_,
        jt.2.parent_link_name ∉ danglingChildModel.linkNames
          ∨ jt.2.child_link_name ∉ danglingChildModel.linkNames)
    ∧ danglingChildModel.RootResolves
    ∧ (∃ jt ∈ danglingChildModel.joints_,
        (jt.2.parent_link_name ∉ danglingChildModel.linkNames
          ∨ jt.2.child_link_name ∉ danglingChildModel.linkNames)
        ∧ DartLoader.fresh.modelInterfaceToSkeleton danglingChildModel
            = Except.error (LoadError.UnresolvedJointEndpoint jt.2.name))
    ∧ ∃ jt ∈ danglingChildModel.joints_,
        jt.2.child_link_name ∉ danglingChildModel.linkNames
        ∧ DartLoader.fresh.modelInterfaceToRobot danglingChildModel
            = Except.error (LoadError.UnresolvedJointEndpoint jt.2.name) :=
  have hyp : ∃ jt ∈ danglingChildModel.joints_,
      jt.2.parent_link_name ∉ danglingChildModel.linkNames
        ∨ jt.2.child_link_name ∉ danglingChildModel.linkNames :=
    ⟨("j1", ⟨"j1", "base", "ghost"⟩), by decide, Or.inr (by decide)⟩
  have h := unresolvedJointEndpoint_reported DartLoader.fresh danglingChildModel hyp
  ⟨hyp, by decide, h.1,
    (h.2 (by decide)).2 ⟨("j1", ⟨"j1", "base", "ghost"⟩), by decide, rfl, by decide⟩⟩

/-! ## An unknown root link -/

/-- C4, the code at a failing input: with no links at all the declared root
"base" is not in the link set, `getNode` yields `NULL`, and all three
builders return a structure instead of reporting the unknown root: an empty
skeleton, a robot holding only its default root node, and an object to which
the `NULL` root node has been added. -/
theorem unknown_root_returns_structure :
    ¬ noLinksModel.RootResolves
      ∧ (∃ l, DartLoader.fresh.modelInterfaceToSkeleton noLinksModel
          = Except.ok (l, { mName := "", nodes := [], initialised := true }))
      ∧ (∃ l, DartLoader.fresh.modelInterfaceToRobot noLinksModel
          = Except.ok (l, { mName := "noLinks", nodes := [NodePtr.defaultRoot],
                            initialised := true }))
      ∧ (∃ l, DartLoader.fresh.modelInterfaceToObject noLinksModel
          = Except.ok (l, { mName := "noLinks",
                            nodes := [NodePtr.defaultRoot, NodePtr.null],
                            initialised := true })) :=
  ⟨by decide, ⟨_, rfl⟩, ⟨_, rfl⟩, ⟨_, rfl⟩⟩

/-- C4, a second failing input: with the one link "arm1" and the declared root
"base", the Skeleton and Robot traversals dereference the `NULL` root node,
and the Object builder adds the `NULL` node and then "arm1". -/
theorem unknown_root_null_dereference :
    ¬ missingRootModel.RootResolves
      ∧ DartLoader.fresh.modelInterfaceToSkeleton missingRootModel
          = Except.error LoadError.NullDereference
      ∧ DartLoader.fresh.modelInterfaceToRobot missingRootModel
          = Except.error LoadError.NullDereference
      ∧ (∃ l, DartLoader.fresh.modelInterfaceToObject missingRootModel
          = Except.ok (l, { mName := "missingRoot",
                            nodes := [NodePtr.defaultRoot, NodePtr.null, NodePtr.link 0],
                            initialised := true })) :=
  ⟨by decide, rfl, rfl, ⟨_, rfl⟩⟩

/-! ## Unreachable links -/

/-- Reachability from the root passes from the parent node of a joint record
to its child node. -/
theorem reachable_step (m : urdf.ModelInterface) :
    ∀ jt ∈ m.joints_, ∀ p c, lookupLink m jt.2.parent_link_name = some p →
      lookupLink m jt.2.child_link_name = some c →
      (∃ a, m.linkNames[p]? = some a ∧ m.Reachable m.root_link_.name a) →
      ∃ a, m.linkNames[c]? = some a ∧ m.Reachable m.root_link_.name a := by
  rintro jt hjt p c hp hc ⟨a, ha, hreach⟩
  have h1 := (lookupLink_some m _ p hp).2
  rw [ha] at h1
  cases h1
  exact ⟨jt.2.child_link_name, (lookupLink_some m _ c hc).2,
    Relation.ReflTransGen.tail hreach ⟨jt, hjt, rfl, rfl⟩⟩

theorem reachable_root (m : urdf.ModelInterface) (r : Nat)
    (hr : lookupLink m m.root_link_.name = some r) :
    ∃ a, m.linkNames[r]? = some a ∧ m.Reachable m.root_link_.name a :=
  ⟨_, (lookupLink_some m _ r hr).2, Relation.ReflTransGen.refl⟩

/-- Everything the Skeleton traversal dequeues is reachable from the root. -/
theorem bfs_reachable (m : urdf.ModelInterface) (ns : List BodyNodeDynamics)
    (hn : ns.map BodyNodeDynamics.getName = m.linkNames) (hS : EdgesSound m ns) (r : Nat)
    (hr : getNodeFrom m.root_link_.name ns 0 = some r) (f : Nat) :
    ∀ x ∈ bfs (kidsAt ns) f [r],
      ∃ a, m.linkNames[x]? = some a ∧ m.Reachable m.root_link_.name a := by
  rw [getNodeFrom_eq_lookupLink m ns hn] at hr
  refine bfs_mem_closed (kidsAt ns)
    (fun x => ∃ a, m.linkNames[x]? = some a ∧ m.Reachable m.root_link_.name a) ?_ f [r] ?_
  · intro u hu c hc
    obtain ⟨jt, hjt, hp, hc'⟩ := hS.kids u c hc
    rw [getNodeFrom_eq_lookupLink m ns hn] at hp hc'
    exact reachable_step m jt hjt u c hp hc' hu
  · intro u hu
    simp only [List.mem_singleton] at hu
    subst hu
    exact reachable_root m u hr

theorem nodeNameAt_skeleton (l : DartLoader) (m : urdf.ModelInterface)
    (hn : l.mNodes.map BodyNodeDynamics.getName = m.linkNames)
    (nm : String) (out : List Nat) (b : Bool) (k : Nat) :
    l.nodeNameAt { mName := nm, nodes := out.map NodePtr.link, initialised := b } k
      = (out[k]?).bind (fun i => m.linkNames[i]?) := by
  simp only [nodeNameAt, List.getElem?_map]
  cases out[k]? with
  | none => rfl
  | some i => simp [nameOf, linkNames_getElem? m _ hn]

/-- The Robot builder returns a structure when root and joint endpoints
resolve. -/
theorem modelInterfaceToRobot_run (self : DartLoader) (m : urdf.ModelInterface)
    (hR : m.RootResolves) (hE : m.EndpointsResolve) :
    ∃ (l : DartLoader) (out : List Nat) (r : Nat) (ext : List Joint),
        self.modelInterfaceToRobot m
          = Except.ok (l, { mName := m.name_,
                            nodes := NodePtr.defaultRoot :: out.map NodePtr.link,
                            initialised := true })
        ∧ robotLoop m m.links_.length
            { mNodes := createNodes m.links_,
              mJoints := [Joint.rootJoint m.root_link_.name true NodePtr.defaultRoot
                (NodePtr.link r)],
              debug := self.debug } [some r] 0
            { mName := m.name_, nodes := [NodePtr.defaultRoot], initialised := false }
          = Except.ok (l, { mName := m.name_,
                            nodes := NodePtr.defaultRoot :: out.map NodePtr.link,
                            initialised := false }, out.length)
        ∧ l.mNodes.map BodyNodeDynamics.getName = m.linkNames
        ∧ lookupLink m m.root_link_.name = some r
        ∧ l.mJoints = Joint.rootJoint m.root_link_.name true NodePtr.defaultRoot
            (NodePtr.link r) :: ext
        ∧ out.length ≤ m.links_.length
        ∧ out.head? = some r
        ∧ ∀ x ∈ out, ∃ a, m.linkNames[x]? = some a ∧ m.Reachable m.root_link_.name a := by
  rcases modelInterfaceToRobot_cases self m hR with ⟨jt, hjt, habs, _⟩ | ⟨l, out, r, ext, e, e2,
    hn, _, _, hr, hj, hle, hhead, _, hclos⟩
  · exact absurd (hE jt hjt).2 habs
  · exact ⟨l, out, r, ext, e, e2, hn, hr, hj, hle, hhead,
      hclos _ (reachable_step m) (reachable_root m r hr)⟩

/-- C5 fails as stated: the link "loose" of this model is unreachable from
the root, and both builders return a structure all the same, with the three
reachable link nodes only. -/
theorem unreachable_link_not_reported :
    looseModel.RootResolves ∧ looseModel.EndpointsResolve
      ∧ "loose" ∈ looseModel.linkNames
      ∧ ¬ looseModel.Reachable looseModel.root_link_.name "loose"
      ∧ (∃ l t, DartLoader.fresh.modelInterfaceToSkeleton looseModel = Except.ok (l, t)
          ∧ t.nodes = [NodePtr.link 2, NodePtr.link 0, NodePtr.link 1])
      ∧ ∃ l t, DartLoader.fresh.modelInterfaceToRobot looseModel = Except.ok (l, t)
          ∧ t.nodes = [NodePtr.defaultRoot, NodePtr.link 2, NodePtr.link 0, NodePtr.link 1] := by
  refine ⟨by decide, by decide, by decide, ?_, ⟨_, _, rfl, rfl⟩, ⟨_, _, rfl, rfl⟩⟩
  intro hr
  rcases hr.cases_child with e | ⟨jt, hjt, hc⟩
  · exact absurd e (by decide)
  · revert jt
    decide

/-- C5, amended: for a flat model whose root and joint endpoints resolve, the
Skeleton and Robot builders report no error; they return a structure every
link node of which is reachable from the root, so a link that is not
reachable has no node in it. -/
theorem unreachable_links_left_out (self : DartLoader) (m : urdf.ModelInterface)
    (hR : m.RootResolves) (hE : m.EndpointsResolve) :
    (∃ l t, self.modelInterfaceToSkeleton m = Except.ok (l, t)
        ∧ (∀ k, k < t.nodes.length →
            ∃ x, l.nodeNameAt t k = some x ∧ m.Reachable m.root_link_.name x)
        ∧ ∀ x, ¬ m.Reachable m.root_link_.name x → ∀ k, l.nodeNameAt t k ≠ some x)
    ∧ ∃ l t, self.modelInterfaceToRobot m = Except.ok (l, t)
        ∧ t.nodes[0]? = some NodePtr.defaultRoot
        ∧ (∀ k, 0 < k → k < t.nodes.length →
            ∃ x, l.nodeNameAt t k = some x ∧ m.Reachable m.root_link_.name x)
        ∧ ∀ x, ¬ m.Reachable m.root_link_.name x → ∀ k, l.nodeNameAt t k ≠ some x := by
  constructor
  · obtain ⟨ns, r, hrun, hnames, hr, hS, _⟩ := modelInterfaceToSkeleton_run self m hE hR
    have hreach := bfs_reachable m ns hnames hS r hr ns.length
    have key : ∀ k x, nodeNameAt
        { mNodes := ns,
          mJoints := m.joints_.filterMap (fun jt => (self.afterNodes m).resolveJoint jt.2)
            ++ [Joint.rootJoint m.root_link_.name false NodePtr.null (NodePtr.link r)],
          debug := self.debug }
        { mName := "", nodes := (bfs (kidsAt ns) ns.length [r]).map NodePtr.link,
          initialised := true } k = some x → m.Reachable m.root_link_.name x := by
      intro k x hk
      rw [nodeNameAt_skeleton _ m hnames] at hk
      cases hc : (bfs (kidsAt ns) ns.length [r])[k]? with
      | none => simp [hc] at hk
      | some c =>
        simp only [hc, Option.some_bind] at hk
        obtain ⟨a, ha, hra⟩ := hreach c (List.getElem?_mem hc)
        rw [ha] at hk
        cases hk
        exact hra
    refine ⟨_, _, hrun, ?_, fun x hx k hk => hx (key k x hk)⟩
    intro k hk
    simp only [List.length_map] at hk
    obtain ⟨a, ha, hra⟩ := hreach _ (List.getElem_mem hk)
    refine ⟨a, ?_, hra⟩
    rw [nodeNameAt_skeleton _ m hnames]
    simp [List.getElem?_eq_getElem hk, ha]
  · obtain ⟨l, out, r, ext, e, _, hn, _, _, _, _, hreach⟩ := modelInterfaceToRobot_run self m hR hE
    have key : ∀ k x, l.nodeNameAt
        { mName := m.name_, nodes := NodePtr.defaultRoot :: out.map NodePtr.link,
          initialised := true } k = some x → m.Reachable m.root_link_.name x := by
      intro k x hk
      cases k with
      | zero => rw [nodeNameAt_robot_zero] at hk; cases hk
      | succ k =>
        rw [nodeNameAt_robot_succ l m hn] at hk
        cases hc : out[k]? with
        | none => simp [hc] at hk
        | some c =>
          simp only [hc, Option.some_bind] at hk
          obtain ⟨a, ha, hra⟩ := hreach c (List.getElem?_mem hc)
          rw [ha] at hk
          cases hk
          exact hra
    refine ⟨_, _, e, by simp, ?_, fun x hx k hk => hx (key k x hk)⟩
    intro k hk0 hk
    obtain ⟨k, rfl⟩ := Nat.exists_eq_succ_of_ne_zero (Nat.pos_iff_ne_zero.1 hk0)
    simp only [List.length_cons, List.length_map, Nat.succ_eq_add_one,
      Nat.add_lt_add_iff_right] at hk
    obtain ⟨a, ha, hra⟩ := hreach _ (List.getElem_mem hk)
    refine ⟨a, ?_, hra⟩
    rw [nodeNameAt_robot_succ l m hn]
    simp [List.getElem?_eq_getElem hk, ha]

/-- C5, amended, on the example with the unreferenced link "loose". -/
theorem unreachable_links_left_out_witness :
    looseModel.RootResolves ∧ looseModel.EndpointsResolve
    ∧ (∃ l t, DartLoader.fresh.modelInterfaceToSkeleton looseModel = Except.ok (l, t)
        ∧ (∀ k, k < t.nodes.length →
            ∃ x, l.nodeNameAt t k = some x ∧ looseModel.Reachable looseModel.root_link_.name x)
        ∧ ∀ x, ¬ looseModel.Reachable looseModel.root_link_.name x →
            ∀ k, l.nodeNameAt t k ≠ some x)
    ∧ ∃ l t, DartLoader.fresh.modelInterfaceToRobot looseModel = Except.ok (l, t)
        ∧ t.nodes[0]? = some NodePtr.defaultRoot
        ∧ (∀ k, 0 < k → k < t.nodes.length →
            ∃ x, l.nodeNameAt t k = some x ∧ looseModel.Reachable looseModel.root_link_.name x)
        ∧ ∀ x, ¬ looseModel.Reachable looseModel.root_link_.name x →
            ∀ k, l.nodeNameAt t k ≠ some x :=
  ⟨by decide, by decide,
    unreachable_links_left_out DartLoader.fresh looseModel (by decide) (by decide)⟩

/-! ## Termination bound -/

/-- C6. For a flat model whose root and joint endpoints resolve, whatever the
shape of its joint graph, the traversal loops of the Skeleton and the Robot
builders return with a final `numIter` of at most the number of links, and
the builders return structures with exactly `numIter` appended nodes (the
Robot's behind its default root node). -/
theorem traversal_bounded (self : DartLoader) (m : urdf.ModelInterface)
    (hR : m.RootResolves) (hE : m.EndpointsResolve) :
    (∃ l t sk numIter, self.modelInterfaceToSkeleton m = Except.ok (l, t)
        ∧ l.pushParentsFirst l.mNodes.length [l.getNode m.root_link_.name] 0
            SkeletonDynamics.new = Except.ok (sk, numIter)
        ∧ l.mNodes.length = m.links_.length
        ∧ t.nodes = sk.nodes
        ∧ t.nodes.length = numIter
        ∧ numIter ≤ m.links_.length)
    ∧ ∃ l t sk numIter r, self.modelInterfaceToRobot m = Except.ok (l, t)
        ∧ lookupLink m m.root_link_.name = some r
        ∧ robotLoop m m.links_.length
            { mNodes := createNodes m.links_,
              mJoints := [Joint.rootJoint m.root_link_.name true NodePtr.defaultRoot
                (NodePtr.link r)],
              debug := self.debug } [some r] 0
            { mName := m.name_, nodes := [NodePtr.defaultRoot], initialised := false }
          = Except.ok (l, sk, numIter)
        ∧ t.nodes = sk.nodes
        ∧ t.nodes.length = numIter + 1
        ∧ numIter ≤ m.links_.length := by
  constructor
  · obtain ⟨ns, r, hrun, hnames, hr, hS, _⟩ := modelInterfaceToSkeleton_run self m hE hR
    have hq : ∀ u ∈ [r], u < ns.length := by
      intro u hu
      simp only [List.mem_singleton] at hu
      subst hu
      exact getNodeFrom_lt _ _ _ hr
    have hloop := pushParentsFirst_eq_bfs
      { mNodes := ns,
        mJoints := m.joints_.filterMap (fun jt => (self.afterNodes m).resolveJoint jt.2)
          ++ [Joint.rootJoint m.root_link_.name false NodePtr.null (NodePtr.link r)],
        debug := self.debug } hS.valid ns.length [r] hq 0 SkeletonDynamics.new
    refine ⟨_, _,
      { mName := SkeletonDynamics.new.mName,
        nodes := SkeletonDynamics.new.nodes
          ++ (bfs (kidsAt ns) ns.length [r]).map NodePtr.link,
        initialised := SkeletonDynamics.new.initialised },
      0 + (bfs (kidsAt ns) ns.length [r]).length, hrun, ?_, length_of_names m ns hnames,
      ?_, ?_, ?_⟩
    · simp only [getNode, hr]
      exact hloop
    · simp [SkeletonDynamics.new]
    · simp
    · have h1 := bfs_length_le (kidsAt ns) ns.length [r]
      have h2 := length_of_names m ns hnames
      simp only [Nat.zero_add]
      omega
  · obtain ⟨l, out, r, ext, e, e2, _, hr, _, hle, _, _⟩ := modelInterfaceToRobot_run self m hR hE
    exact ⟨_, _, _, _, r, e, hr, e2, rfl, by simp, hle⟩

/-- C6, on the cyclic example, whose root and joint endpoints resolve. -/
theorem traversal_bounded_witness :
    cyclicModel.RootResolves ∧ cyclicModel.EndpointsResolve
    ∧ (∃ l t sk numIter, DartLoader.fresh.modelInterfaceToSkeleton cyclicModel = Except.ok (l, t)
        ∧ l.pushParentsFirst l.mNodes.length [l.getNode cyclicModel.root_link_.name] 0
            SkeletonDynamics.new = Except.ok (sk, numIter)
        ∧ l.mNodes.length = cyclicModel.links_.length
        ∧ t.nodes = sk.nodes
        ∧ t.nodes.length = numIter
        ∧ numIter ≤ cyclicModel.links_.length)
    ∧ ∃ l t sk numIter r, DartLoader.fresh.modelInterfaceToRobot cyclicModel = Except.ok (l, t)
        ∧ lookupLink cyclicModel cyclicModel.root_link_.name = some r
        ∧ robotLoop cyclicModel cyclicModel.links_.length
            { mNodes := createNodes cyclicModel.links_,
              mJoints := [Joint.rootJoint cyclicModel.root_link_.name true NodePtr.defaultRoot
                (NodePtr.link r)],
              debug := DartLoader.fresh.debug } [some r] 0
            { mName := cyclicModel.name_, nodes := [NodePtr.defaultRoot], initialised := false }
          = Except.ok (l, sk, numIter)
        ∧ t.nodes = sk.nodes
        ∧ t.nodes.length = numIter + 1
        ∧ numIter ≤ cyclicModel.links_.length :=
  ⟨by decide, by decide,
    traversal_bounded DartLoader.fresh cyclicModel (by decide) (by decide)⟩

/-! ## Cycles -/

/-- C7 fails as stated: in this model the cycle arm1, arm2, arm1 is reachable
from the root, and the Skeleton builder returns a structure. -/
theorem cyclic_model_not_rejected :
    cyclicModel.RootResolves ∧ cyclicModel.EndpointsResolve
      ∧ (∃ y, cyclicModel.Reachable cyclicModel.root_link_.name y ∧ cyclicModel.Descendant y y)
      ∧ ∃ l t, DartLoader.fresh.modelInterfaceToSkeleton cyclicModel = Except.ok (l, t)
          ∧ t.nodes = [NodePtr.link 2, NodePtr.link 0, NodePtr.link 1] := by
  refine ⟨by decide, by decide, ⟨"arm1", ?_, ?_⟩, _, _, rfl, rfl⟩
  · exact Relation.ReflTransGen.single ⟨("j1", ⟨"j1", "base", "arm1"⟩), by decide, rfl, rfl⟩
  · exact Relation.TransGen.tail
      (Relation.TransGen.single ⟨("j2", ⟨"j2", "arm1", "arm2"⟩), by decide, rfl, rfl⟩)
      ⟨("j3", ⟨"j3", "arm2", "arm1"⟩), by decide, rfl, rfl⟩

/-- A link from which a cycle can be reached has a child link from which a
cycle can be reached. -/
theorem cycle_ahead_step (m : urdf.ModelInterface) (a : String)
    (h : ∃ y, m.Reachable a y ∧ m.Descendant y y) :
    ∃ b, m.JointEdge a b ∧ ∃ y, m.Reachable b y ∧ m.Descendant y y := by
  obtain ⟨y, hay, hyy⟩ := h
  rcases Relation.ReflTransGen.cases_head hay with e | ⟨b, hab, hby⟩
  · subst e
    obtain ⟨b, hab, hba⟩ := (Relation.TransGen.head'_iff).1 hyy
    exact ⟨b, hab, a, hba, hyy⟩
  · exact ⟨b, hab, y, hby, hyy⟩

/-- C7, amended: for a flat model whose root and joint endpoints resolve and
whose joint graph has a cycle reachable from the root, the Skeleton builder
terminates and returns a structure, without an error: the queue never runs
empty, the iteration bound stops the loop, and the node sequence has exactly
as many entries as there are links. -/
theorem cyclic_model_returns_structure (self : DartLoader) (m : urdf.ModelInterface)
    (hR : m.RootResolves) (hE : m.EndpointsResolve)
    (hcyc : ∃ y, m.Reachable m.root_link_.name y ∧ m.Descendant y y) :
    ∃ l t, self.modelInterfaceToSkeleton m = Except.ok (l, t)
      ∧ t.nodes.length = m.links_.length := by
  obtain ⟨ns, r, hrun, hnames, hr, _, hC⟩ := modelInterfaceToSkeleton_run self m hE hR
  refine ⟨_, _, hrun, ?_⟩
  simp only [List.length_map]
  rw [← length_of_names m ns hnames]
  refine bfs_length_of_live (kidsAt ns)
    (fun i => ∃ a, getNodeFrom a ns 0 = some i ∧ ∃ y, m.Reachable a y ∧ m.Descendant y y)
    ?_ ns.length [r] ⟨r, List.mem_singleton_self _, m.root_link_.name, hr, hcyc⟩
  rintro i ⟨a, ha, hahead⟩
  obtain ⟨b, ⟨jt, hjt, hp, hc⟩, hb⟩ := cycle_ahead_step m a hahead
  subst hp hc
  obtain ⟨c, hc⟩ := getNodeFrom_isSome jt.2.child_link_name ns
    (by rw [hnames]; exact (hE jt hjt).2)
  exact ⟨c, hC jt hjt i c ha hc, jt.2.child_link_name, hc, hb⟩

/-- C7, amended, on the cyclic example. -/
theorem cyclic_model_returns_structure_witness :
    cyclicModel.RootResolves ∧ cyclicModel.EndpointsResolve
      ∧ (∃ y, cyclicModel.Reachable cyclicModel.root_link_.name y ∧ cyclicModel.Descendant y y)
      ∧ ∃ l t, DartLoader.fresh.modelInterfaceToSkeleton cyclicModel = Except.ok (l, t)
          ∧ t.nodes.length = cyclicModel.links_.length :=
  have hcyc : ∃ y, cyclicModel.Reachable cyclicModel.root_link_.name y
      ∧ cyclicModel.Descendant y y :=
    ⟨"arm1",
      Relation.ReflTransGen.single ⟨("j1", ⟨"j1", "base", "arm1"⟩), by decide, rfl, rfl⟩,
      Relation.TransGen.tail
        (Relation.TransGen.single ⟨("j2", ⟨"j2", "arm1", "arm2"⟩), by decide, rfl, rfl⟩)
        ⟨("j3", ⟨"j3", "arm2", "arm1"⟩), by decide, rfl, rfl⟩⟩
  ⟨by decide, by decide, hcyc,
    cyclic_model_returns_structure DartLoader.fresh cyclicModel (by decide) (by decide) hcyc⟩

/-! ## The root variants -/

theorem bfs_head? (kids : Nat → List Nat) (f r : Nat) (hf : 0 < f) :
    (bfs kids f [r]).head? = some r := by
  cases f with
  | zero => omega
  | succ f => rfl

theorem defaultRoot_not_mem_links (out : List Nat) :
    NodePtr.defaultRoot ∉ out.map NodePtr.link := by
  simp

theorem nameOf_link (l : DartLoader) (m : urdf.ModelInterface)
    (hn : l.mNodes.map BodyNodeDynamics.getName = m.linkNames) (i : Nat) :
    l.nameOf (NodePtr.link i) = m.linkNames[i]? := by
  simp [nameOf, linkNames_getElem? m _ hn]

/-- C10. For a flat model whose root resolves, say to node `r`: whenever the
Skeleton builder returns, the first node of its structure is `r` itself,
there is no default root node, and the root joint was synthesized with the
flag false, attached to the world; whenever the Robot or the Object builder
returns, its structure starts with the default root node followed by `r` as
the first link node, and the root joint was synthesized with the flag true,
with the default root node as its parent. All three builders do return when
the joint endpoints resolve. -/
theorem root_variants (self : DartLoader) (m : urdf.ModelInterface) (hR : m.RootResolves) :
    ∃ r, lookupLink m m.root_link_.name = some r
      ∧ (∀ l t, self.modelInterfaceToSkeleton m = Except.ok (l, t) →
          l.nameOf (NodePtr.link r) = some m.root_link_.name
          ∧ t.nodes.head? = some (NodePtr.link r)
          ∧ NodePtr.defaultRoot ∉ t.nodes
          ∧ l.mJoints.getLast? = some (Joint.rootJoint m.root_link_.name false
              NodePtr.null (NodePtr.link r)))
      ∧ (∀ l t, self.modelInterfaceToRobot m = Except.ok (l, t) →
          l.nameOf (NodePtr.link r) = some m.root_link_.name
          ∧ (∃ rest, t.nodes = NodePtr.defaultRoot :: NodePtr.link r :: rest
              ∧ NodePtr.defaultRoot ∉ rest)
          ∧ l.mJoints.head? = some (Joint.rootJoint m.root_link_.name true
              NodePtr.defaultRoot (NodePtr.link r)))
      ∧ (∀ l t, self.modelInterfaceToObject m = Except.ok (l, t) →
          l.nameOf (NodePtr.link r) = some m.root_link_.name
          ∧ (∃ rest, t.nodes = NodePtr.defaultRoot :: NodePtr.link r :: rest
              ∧ NodePtr.defaultRoot ∉ rest)
          ∧ l.mJoints.getLast? = some (Joint.rootJoint m.root_link_.name true
              NodePtr.defaultRoot (NodePtr.link r)))
      ∧ (m.EndpointsResolve →
          (∃ l t, self.modelInterfaceToSkeleton m = Except.ok (l, t))
          ∧ (∃ l t, self.modelInterfaceToRobot m = Except.ok (l, t))
          ∧ ∃ l t, self.modelInterfaceToObject m = Except.ok (l, t)) := by
  obtain ⟨r, hr⟩ := lookupLink_isSome m _ hR
  have hrname := (lookupLink_some m _ r hr).2
  refine ⟨r, hr, ?_, ?_, ?_, ?_⟩
  · intro l t hok
    have hE := endpointsResolve_of_skeleton_ok self m l t hok
    obtain ⟨ns, r', hrun, hnames, hr', _, _⟩ := modelInterfaceToSkeleton_run self m hE hR
    rw [getNodeFrom_eq_lookupLink m ns hnames, hr] at hr'
    cases hr'
    rw [hrun] at hok
    cases hok
    refine ⟨?_, ?_, defaultRoot_not_mem_links _, by simp⟩
    · rw [nameOf_link _ m hnames]; exact hrname
    · have hpos : 0 < ns.length := by
        have := (lookupLink_some m _ r hr).1
        rw [length_of_names m ns hnames]
        omega
      simp [bfs_head? (kidsAt ns) ns.length r hpos]
  · intro l t hok
    rcases modelInterfaceToRobot_cases self m hR with ⟨_, _, _, e⟩ | ⟨l', out, r', ext, e, _, hn,
      _, _, hr', hj, _, hhead, _, _⟩
    · rw [hok] at e; cases e
    · rw [hr] at hr'
      cases hr'
      rw [hok] at e
      cases e
      refine ⟨?_, ?_, by rw [hj]; rfl⟩
      · rw [nameOf_link _ m hn]; exact hrname
      · cases out with
        | nil => simp at hhead
        | cons x rest =>
          simp only [List.head?_cons, Option.some.injEq] at hhead
          subst hhead
          exact ⟨rest.map NodePtr.link, rfl, defaultRoot_not_mem_links _⟩
  · intro l t hok
    have hE := endpointsResolve_of_object_ok self m l t hok
    obtain ⟨ns, r', hrun, hnames, hr', _, _⟩ := modelInterfaceToObject_run self m hE hR
    rw [getNodeFrom_eq_lookupLink m ns hnames, hr] at hr'
    cases hr'
    rw [hrun] at hok
    cases hok
    refine ⟨?_, ⟨_, rfl, defaultRoot_not_mem_links _⟩, by simp⟩
    rw [nameOf_link _ m hnames]; exact hrname
  · intro hE
    obtain ⟨_, _, h1, _⟩ := modelInterfaceToSkeleton_run self m hE hR
    obtain ⟨_, _, _, _, h2, _⟩ := modelInterfaceToRobot_run self m hR hE
    obtain ⟨_, _, h3, _⟩ := modelInterfaceToObject_run self m hE hR
    exact ⟨⟨_, _, h1⟩, ⟨_, _, h2⟩, ⟨_, _, h3⟩⟩

/-- C10, on the specification's example arm, whose root and joint endpoints
resolve: all three builders return, with the node sequences and root joints
described. -/
theorem root_variants_witness :
    armModel.RootResolves ∧ armModel.EndpointsResolve
    ∧ ∃ r, lookupLink armModel armModel.root_link_.name = some r
      ∧ (∀ l t, DartLoader.fresh.modelInterfaceToSkeleton armModel = Except.ok (l, t) →
          l.nameOf (NodePtr.link r) = some armModel.root_link_.name
          ∧ t.nodes.head? = some (NodePtr.link r)
          ∧ NodePtr.defaultRoot ∉ t.nodes
          ∧ l.mJoints.getLast? = some (Joint.rootJoint armModel.root_link_.name false
              NodePtr.null (NodePtr.link r)))
      ∧ (∀ l t, DartLoader.fresh.modelInterfaceToRobot armModel = Except.ok (l, t) →
          l.nameOf (NodePtr.link r) = some armModel.root_link_.name
          ∧ (∃ rest, t.nodes = NodePtr.defaultRoot :: NodePtr.link r :: rest
              ∧ NodePtr.defaultRoot ∉ rest)
          ∧ l.mJoints.head? = some (Joint.rootJoint armModel.root_link_.name true
              NodePtr.defaultRoot (NodePtr.link r)))
      ∧ (∀ l t, DartLoader.fresh.modelInterfaceToObject armModel = Except.ok (l, t) →
          l.nameOf (NodePtr.link r) = some armModel.root_link_.name
          ∧ (∃ rest, t.nodes = NodePtr.defaultRoot :: NodePtr.link r :: rest
              ∧ NodePtr.defaultRoot ∉ rest)
          ∧ l.mJoints.getLast? = some (Joint.rootJoint armModel.root_link_.name true
              NodePtr.defaultRoot (NodePtr.link r)))
      ∧ (∃ l t, DartLoader.fresh.modelInterfaceToSkeleton armModel = Except.ok (l, t))
      ∧ (∃ l t, DartLoader.fresh.modelInterfaceToRobot armModel = Except.ok (l, t))
      ∧ ∃ l t, DartLoader.fresh.modelInterfaceToObject armModel = Except.ok (l, t) :=
  match root_variants DartLoader.fresh armModel (by decide) with
  | ⟨r, hr, h1, h2, h3, h4⟩ => ⟨by decide, by decide, r, hr, h1, h2, h3, h4 (by decide)⟩

/-! ## Independence of the prior loader state -/

theorem modelInterfaceToSkeleton_prior (self other : DartLoader) (m : urdf.ModelInterface)
    (hd : self.debug = other.debug) :
    self.modelInterfaceToSkeleton m = other.modelInterfaceToSkeleton m := by
  unfold modelInterfaceToSkeleton
  simp only [hd]

theorem modelInterfaceToRobot_prior (self other : DartLoader) (m : urdf.ModelInterface)
    (hd : self.debug = other.debug) :
    self.modelInterfaceToRobot m = other.modelInterfaceToRobot m := by
  unfold modelInterfaceToRobot
  simp only [hd]

theorem modelInterfaceToObject_prior (self other : DartLoader) (m : urdf.ModelInterface)
    (hd : self.debug = other.debug) :
    self.modelInterfaceToObject m = other.modelInterfaceToObject m := by
  unfold modelInterfaceToObject
  simp only [hd]

theorem createDartJoint_debug (self s : DartLoader) (jt : urdf.Joint) (J : Joint)
    (h : self.createDartJoint jt = Except.ok (s, J)) : s.debug = self.debug := by
  unfold createDartJoint at h
  split at h
  · cases h; rfl
  · cases h

theorem convertJoints_debug (js : List (String × urdf.Joint)) (self s : DartLoader)
    (h : self.convertJoints js = Except.ok s) : s.debug = self.debug := by
  induction js generalizing self with
  | nil =>
    simp only [convertJoints] at h
    cases h
    rfl
  | cons jt rest ih =>
    simp only [convertJoints] at h
    cases hc : self.createDartJoint jt.2 with
    | error e => rw [hc] at h; cases h
    | ok r =>
      obtain ⟨s1, J⟩ := r
      rw [hc] at h
      have := ih _ h
      simpa [createDartJoint_debug self s1 jt.2 J hc] using this

theorem robotLoop_debug (m : urdf.ModelInterface) (f : Nat) (self : DartLoader)
    (q : List (Option Nat)) (numIter : Nat) (sk : SkeletonDynamics)
    (s : DartLoader) (sk1 : SkeletonDynamics) (n : Nat)
    (h : robotLoop m f self q numIter sk = Except.ok (s, sk1, n)) : s.debug = self.debug := by
  induction f generalizing self q numIter sk with
  | zero =>
    simp only [robotLoop] at h
    cases h
    rfl
  | succ f ih =>
    cases q with
    | nil =>
      simp only [robotLoop] at h
      cases h
      rfl
    | cons u rest =>
      simp only [robotLoop] at h
      cases hd : self.deref u with
      | none => rw [hd] at h; cases h
      | some node =>
        rw [hd] at h
        simp only [convertJointsOf_eq] at h
        cases hc : self.convertJoints
            (m.joints_.filter (fun jt => decide (jt.2.parent_link_name = node.getName))) with
        | error e => rw [hc] at h; cases h
        | ok s1 =>
          rw [hc] at h
          simp only at h
          cases hd1 : s1.deref u with
          | none => rw [hd1] at h; cases h
          | some node1 =>
            rw [hd1] at h
            exact (ih _ _ _ _ h).trans (convertJoints_debug _ _ _ hc)

theorem modelInterfaceToSkeleton_debug (self l : DartLoader) (m : urdf.ModelInterface)
    (t : SkeletonDynamics) (h : self.modelInterfaceToSkeleton m = Except.ok (l, t)) :
    l.debug = self.debug := by
  unfold modelInterfaceToSkeleton at h
  simp only at h
  split at h
  · cases h
  · rename_i s hs
    split at h
    · cases h
    · cases h
      exact convertJoints_debug m.joints_
        { mNodes := createNodes m.links_, mJoints := [], debug := self.debug } s hs

theorem modelInterfaceToObject_debug (self l : DartLoader) (m : urdf.ModelInterface)
    (t : SkeletonDynamics) (h : self.modelInterfaceToObject m = Except.ok (l, t)) :
    l.debug = self.debug := by
  unfold modelInterfaceToObject at h
  simp only at h
  split at h
  · cases h
  · rename_i s hs
    cases h
    exact convertJoints_debug m.joints_
      { mNodes := createNodes m.links_, mJoints := [], debug := self.debug } s hs

theorem modelInterfaceToRobot_debug (self l : DartLoader) (m : urdf.ModelInterface)
    (t : SkeletonDynamics) (h : self.modelInterfaceToRobot m = Except.ok (l, t)) :
    l.debug = self.debug := by
  unfold modelInterfaceToRobot at h
  simp only at h
  split at h
  · cases h
  · split at h
    · cases h
    · rename_i s sk n hs
      cases h
      have hdbg := robotLoop_debug _ _ _ _ _ _ _ _ _ hs
      exact hdbg

/-- C11. The result of each builder does not depend on the contents of
`mNodes` and `mJoints` before the call: two loaders with the same `debug`
flag give the same result (the same error, or the same node sequence and the
same joint sequence), and running a builder again on the loader a first run
has left gives the first run's result again. -/
theorem conversion_idempotent (m : urdf.ModelInterface) (debug : Bool)
    (mNodes1 mNodes2 : List BodyNodeDynamics) (mJoints1 mJoints2 : List Joint) :
    (modelInterfaceToSkeleton { mNodes := mNodes1, mJoints := mJoints1, debug := debug } m
        = modelInterfaceToSkeleton { mNodes := mNodes2, mJoints := mJoints2, debug := debug } m
      ∧ modelInterfaceToRobot { mNodes := mNodes1, mJoints := mJoints1, debug := debug } m
        = modelInterfaceToRobot { mNodes := mNodes2, mJoints := mJoints2, debug := debug } m
      ∧ modelInterfaceToObject { mNodes := mNodes1, mJoints := mJoints1, debug := debug } m
        = modelInterfaceToObject { mNodes := mNodes2, mJoints := mJoints2, debug := debug } m)
    ∧ (∀ l t,
        modelInterfaceToSkeleton { mNodes := mNodes1, mJoints := mJoints1, debug := debug } m
          = Except.ok (l, t) →
        l.modelInterfaceToSkeleton m = Except.ok (l, t))
    ∧ (∀ l t,
        modelInterfaceToRobot { mNodes := mNodes1, mJoints := mJoints1, debug := debug } m
          = Except.ok (l, t) →
        l.modelInterfaceToRobot m = Except.ok (l, t))
    ∧ ∀ l t,
        modelInterfaceToObject { mNodes := mNodes1, mJoints := mJoints1, debug := debug } m
          = Except.ok (l, t) →
        l.modelInterfaceToObject m = Except.ok (l, t) := by
  refine ⟨⟨modelInterfaceToSkeleton_prior _ _ m rfl, modelInterfaceToRobot_prior _ _ m rfl,
    modelInterfaceToObject_prior _ _ m rfl⟩, ?_, ?_, ?_⟩
  · intro l t h
    rw [modelInterfaceToSkeleton_prior l _ m (modelInterfaceToSkeleton_debug _ _ _ _ h)]
    exact h
  · intro l t h
    rw [modelInterfaceToRobot_prior l _ m (modelInterfaceToRobot_debug _ _ _ _ h)]
    exact h
  · intro l t h
    rw [modelInterfaceToObject_prior l _ m (modelInterfaceToObject_debug _ _ _ _ h)]
    exact h

/-! ## Name lookup -/

/-- C18. `getNode` returns the node of lowest index in `mNodes` whose name is
the given name, and `NULL` exactly when no node of `mNodes` has that name. It
only reads `mNodes`: it is a function of the loader that yields no new
loader. -/
theorem getNode_first_match (self : DartLoader) (_nodeName : String) :
    (∀ i, self.getNode _nodeName = some i →
        ∃ node, self.mNodes[i]? = some node ∧ node.getName = _nodeName
          ∧ ∀ j node1, self.mNodes[j]? = some node1 → node1.getName = _nodeName → i ≤ j)
    ∧ (self.getNode _nodeName = none ↔ ∀ node ∈ self.mNodes, node.getName ≠ _nodeName)
    ∧ ((∃ node ∈ self.mNodes, node.getName = _nodeName) →
        ∃ i, self.getNode _nodeName = some i) := by
  refine ⟨?_, ?_, ?_⟩
  · intro i h
    obtain ⟨node, h1, h2⟩ := getNodeFrom_some _ _ _ h
    exact ⟨node, h1, h2, fun j node1 hj hn => getNodeFrom_first _ _ _ _ h node1 hj hn⟩
  · constructor
    · intro h node hmem hn
      obtain ⟨i, hi⟩ := getNodeFrom_isSome _nodeName self.mNodes
        (List.mem_map.2 ⟨node, hmem, hn⟩)
      rw [getNode] at h
      rw [h] at hi
      cases hi
    · intro h
      apply getNodeFrom_none
      intro hmem
      obtain ⟨node, hnode, hn⟩ := List.mem_map.1 hmem
      exact h node hnode hn
  · rintro ⟨node, hmem, hn⟩
    exact getNodeFrom_isSome _nodeName self.mNodes (List.mem_map.2 ⟨node, hmem, hn⟩)

/-! ## The joint sequence of the Skeleton builder -/

theorem filterMap_all_some {α β : Type} (f : α → Option β) (l : List α)
    (h : ∀ x ∈ l, ∃ y, f x = some y) :
    (l.filterMap f).length = l.length
      ∧ ∀ (i : Nat) (x : α), l[i]? = some x → ∃ y, f x = some y ∧ (l.filterMap f)[i]? = some y := by
  induction l with
  | nil => simp
  | cons a rest ih =>
    obtain ⟨b, hb⟩ := h a (List.mem_cons_self _ _)
    obtain ⟨h1, h2⟩ := ih (fun x hx => h x (List.mem_cons_of_mem _ hx))
    refine ⟨by simp [List.filterMap_cons, hb, h1], ?_⟩
    intro i x hx
    cases i with
    | zero =>
      simp only [List.getElem?_cons_zero, Option.some.injEq] at hx
      subst hx
      exact ⟨b, hb, by simp [List.filterMap_cons, hb]⟩
    | succ i =>
      simp only [List.getElem?_cons_succ] at hx
      obtain ⟨y, hy, hy2⟩ := h2 i x hx
      exact ⟨y, hy, by simpa [List.filterMap_cons, hb] using hy2⟩

theorem afterNodes_resolveJoint_some (self : DartLoader) (m : urdf.ModelInterface)
    (jt : urdf.Joint) (J : Joint) (h : (self.afterNodes m).resolveJoint jt = some J) :
    ∃ p c, lookupLink m jt.parent_link_name = some p ∧ lookupLink m jt.child_link_name = some c
      ∧ J = Joint.converted jt.name p c :=
  resolveJoint_some _ _ _ h

/-- C13. For a flat model whose root resolves: whenever the Skeleton builder
returns, `mJoints` holds one converted joint per joint record, in joint-map
order, each with the nodes its two names resolve to, followed by the one
root joint synthesized for the root link, so its length is the number of
joint records plus one; the builder does return when the joint endpoints
resolve. -/
theorem modelInterfaceToSkeleton_keeps_joints (self : DartLoader) (m : urdf.ModelInterface)
    (hR : m.RootResolves) :
    (∀ l t, self.modelInterfaceToSkeleton m = Except.ok (l, t) →
        ∃ r js, lookupLink m m.root_link_.name = some r
          ∧ l.mJoints = js ++ [Joint.rootJoint m.root_link_.name false NodePtr.null
              (NodePtr.link r)]
          ∧ js.length = m.joints_.length
          ∧ l.mJoints.length = m.joints_.length + 1
          ∧ ∀ (i : Nat) (jt : String × urdf.Joint), m.joints_[i]? = some jt →
              ∃ p c, lookupLink m jt.2.parent_link_name = some p
                ∧ lookupLink m jt.2.child_link_name = some c
                ∧ js[i]? = some (Joint.converted jt.2.name p c))
    ∧ (m.EndpointsResolve → ∃ l t, self.modelInterfaceToSkeleton m = Except.ok (l, t)) := by
  constructor
  · intro l t hok
    have hE := endpointsResolve_of_skeleton_ok self m l t hok
    obtain ⟨ns, r, hrun, hnames, hr, _, _⟩ := modelInterfaceToSkeleton_run self m hE hR
    rw [hrun] at hok
    cases hok
    rw [getNodeFrom_eq_lookupLink m ns hnames] at hr
    obtain ⟨h1, h2⟩ := filterMap_all_some (fun jt => (self.afterNodes m).resolveJoint jt.2)
      m.joints_ (afterNodes_resolves self m hE)
    refine ⟨r, _, hr, rfl, h1, by simp [h1], ?_⟩
    intro i jt hjt
    obtain ⟨J, hJ, hJi⟩ := h2 i jt hjt
    obtain ⟨p, c, hp, hc, rfl⟩ := afterNodes_resolveJoint_some self m jt.2 J hJ
    exact ⟨p, c, hp, hc, hJi⟩
  · intro hE
    obtain ⟨_, _, hrun, _⟩ := modelInterfaceToSkeleton_run self m hE hR
    exact ⟨_, _, hrun⟩

/-- C13, on the specification's example arm: `mJoints` is j1, j2 and the root
joint on base. -/
theorem modelInterfaceToSkeleton_keeps_joints_witness :
    armModel.RootResolves ∧ armModel.EndpointsResolve
    ∧ ∃ l t, DartLoader.fresh.modelInterfaceToSkeleton armModel = Except.ok (l, t)
      ∧ l.mJoints = [Joint.converted "j1" 2 0, Joint.converted "j2" 0 1,
          Joint.rootJoint "base" false NodePtr.null (NodePtr.link 2)]
      ∧ ∃ r js, lookupLink armModel armModel.root_link_.name = some r
        ∧ l.mJoints = js ++ [Joint.rootJoint armModel.root_link_.name false NodePtr.null
            (NodePtr.link r)]
        ∧ js.length = armModel.joints_.length
        ∧ l.mJoints.length = armModel.joints_.length + 1
        ∧ ∀ (i : Nat) (jt : String × urdf.Joint), armModel.joints_[i]? = some jt →
            ∃ p c, lookupLink armModel jt.2.parent_link_name = some p
              ∧ lookupLink armModel jt.2.child_link_name = some c
              ∧ js[i]? = some (Joint.converted jt.2.name p c) :=
  have h := modelInterfaceToSkeleton_keeps_joints DartLoader.fresh armModel (by decide)
  ⟨by decide, by decide, _, _, rfl, rfl, h.1 _ _ rfl⟩

/-! ## The joint graph of a model, by node index -/

theorem resolveJoint_eq_resolveIn (s : DartLoader) (m : urdf.ModelInterface)
    (hn : s.mNodes.map BodyNodeDynamics.getName = m.linkNames) (jt : urdf.Joint) :
    s.resolveJoint jt = resolveIn m jt :=
  resolveJoint_congr _ _ (hn.trans (createNodes_names m).symm) jt

theorem resolveIn_some (m : urdf.ModelInterface) (jt : urdf.Joint) (J : Joint)
    (h : resolveIn m jt = some J) :
    ∃ p c, lookupLink m jt.parent_link_name = some p ∧ lookupLink m jt.child_link_name = some c
      ∧ J = Joint.converted jt.name p c :=
  resolveJoint_some _ _ _ h

theorem resolveIn_of_lookup (m : urdf.ModelInterface) (jt : urdf.Joint) (p c : Nat)
    (hp : lookupLink m jt.parent_link_name = some p)
    (hc : lookupLink m jt.child_link_name = some c) :
    resolveIn m jt = some (Joint.converted jt.name p c) := by
  have hp' : getNodeFrom jt.parent_link_name (createNodes m.links_) 0 = some p := hp
  have hc' : getNodeFrom jt.child_link_name (createNodes m.links_) 0 = some c := hc
  simp [resolveIn, resolveJoint, getNode, hp', hc']

theorem resolveIn_isSome (m : urdf.ModelInterface) (hE : m.EndpointsResolve)
    (jt : String × urdf.Joint) (hjt : jt ∈ m.joints_) : ∃ J, resolveIn m jt.2 = some J := by
  obtain ⟨p, hp⟩ := lookupLink_isSome m _ (hE jt hjt).1
  obtain ⟨c, hc⟩ := lookupLink_isSome m _ (hE jt hjt).2
  exact ⟨_, resolveIn_of_lookup m jt.2 p c hp hc⟩

theorem mem_jointsOfNode (m : urdf.ModelInterface) (i : Nat) (J : Joint) :
    J ∈ jointsOfNode m i ↔ ∃ jt ∈ m.joints_, ∃ c,
      lookupLink m jt.2.parent_link_name = some i
        ∧ lookupLink m jt.2.child_link_name = some c ∧ J = Joint.converted jt.2.name i c := by
  simp only [jointsOfNode, convertedJoints, List.mem_filter, List.mem_filterMap]
  constructor
  · rintro ⟨⟨jt, hjt, hres⟩, hpar⟩
    obtain ⟨p, c, hp, hc, rfl⟩ := resolveIn_some m jt.2 J hres
    simp only [Joint.hasParent, decide_eq_true_eq] at hpar
    subst hpar
    exact ⟨jt, hjt, c, hp, hc, rfl⟩
  · rintro ⟨jt, hjt, c, hp, hc, rfl⟩
    exact ⟨⟨jt, hjt, resolveIn_of_lookup m jt.2 i c hp hc⟩, by simp [Joint.hasParent]⟩

theorem mem_childrenOf (m : urdf.ModelInterface) (i c : Nat) :
    c ∈ childrenOf m i ↔ ∃ jt ∈ m.joints_,
      lookupLink m jt.2.parent_link_name = some i
        ∧ lookupLink m jt.2.child_link_name = some c := by
  simp only [childrenOf, List.mem_filterMap]
  constructor
  · rintro ⟨J, hJ, hc⟩
    obtain ⟨jt, hjt, c', hp, hc', rfl⟩ := (mem_jointsOfNode m i J).1 hJ
    simp only [Joint.getChildNode, Option.some.injEq] at hc
    subst hc
    exact ⟨jt, hjt, hp, hc'⟩
  · rintro ⟨jt, hjt, hp, hc⟩
    exact ⟨Joint.converted jt.2.name i c, (mem_jointsOfNode m i _).2 ⟨jt, hjt, c, hp, hc, rfl⟩, rfl⟩

theorem childrenOf_lt (m : urdf.ModelInterface) (i c : Nat) (h : c ∈ childrenOf m i) :
    c < m.links_.length := by
  obtain ⟨jt, _, _, hc⟩ := (mem_childrenOf m i c).1 h
  exact (lookupLink_some m _ c hc).1

/-- The eager joint loop leaves in every node the child-joint list
`jointsOfNode`. -/
theorem convertJoints_afterNodes_exact (self : DartLoader) (m : urdf.ModelInterface)
    (hE : m.EndpointsResolve) (ns : List BodyNodeDynamics) (js : List Joint) (d : Bool)
    (h : (self.afterNodes m).convertJoints m.joints_
      = Except.ok { mNodes := ns, mJoints := js, debug := d }) :
    js = convertedJoints m ∧ ∀ i, childJointsAt ns i = jointsOfNode m i := by
  obtain ⟨ns1, e1, _, e3⟩ := convertJoints_spec m.joints_ (self.afterNodes m)
    (afterNodes_resolves self m hE)
  rw [e1] at h
  cases h
  have hres : (fun jt : String × urdf.Joint => (self.afterNodes m).resolveJoint jt.2)
      = fun jt => resolveIn m jt.2 := by
    funext jt
    exact resolveJoint_eq_resolveIn _ m (afterNodes_names self m) jt.2
  constructor
  · simp [afterNodes, convertedJoints, resolveIn]
    congr 1
  · intro i
    rw [e3 i, hres]
    simp [afterNodes, createNodes_childJointsAt, jointsOfNode, convertedJoints]

theorem modelInterfaceToSkeleton_ok_convertJoints (self l : DartLoader)
    (m : urdf.ModelInterface) (t : SkeletonDynamics)
    (h : self.modelInterfaceToSkeleton m = Except.ok (l, t)) :
    ∃ js, (self.afterNodes m).convertJoints m.joints_
      = Except.ok { mNodes := l.mNodes, mJoints := js, debug := l.debug } := by
  unfold modelInterfaceToSkeleton at h
  simp only at h
  split at h
  · cases h
  · rename_i s hs
    split at h
    · cases h
    · cases h
      exact ⟨s.mJoints, hs⟩

theorem kidsAt_eq_childrenOf (m : urdf.ModelInterface) (ns : List BodyNodeDynamics)
    (h : ∀ i, childJointsAt ns i = jointsOfNode m i) : kidsAt ns = childrenOf m := by
  funext i
  simp [kidsAt, childrenOf, h i]

theorem afterNodes_filterMap (self : DartLoader) (m : urdf.ModelInterface) :
    m.joints_.filterMap (fun jt => (self.afterNodes m).resolveJoint jt.2) = convertedJoints m := by
  have hres : (fun jt : String × urdf.Joint => (self.afterNodes m).resolveJoint jt.2)
      = fun jt => resolveIn m jt.2 := by
    funext jt
    exact resolveJoint_eq_resolveIn _ m (afterNodes_names self m) jt.2
  rw [hres, convertedJoints]

/-- What `modelInterfaceToSkeleton` computes, in terms of the joint graph of
the model. -/
theorem modelInterfaceToSkeleton_graph (self : DartLoader) (m : urdf.ModelInterface)
    (hE : m.EndpointsResolve) (hR : m.RootResolves) :
    ∃ ns r,
      self.modelInterfaceToSkeleton m
        = Except.ok ({ mNodes := ns,
                       mJoints := convertedJoints m
                         ++ [Joint.rootJoint m.root_link_.name false NodePtr.null
                              (NodePtr.link r)],
                       debug := self.debug },
                     { mName := "",
                       nodes := (bfs (childrenOf m) m.links_.length [r]).map NodePtr.link,
                       initialised := true })
      ∧ ns.map BodyNodeDynamics.getName = m.linkNames
      ∧ lookupLink m m.root_link_.name = some r
      ∧ ∀ i, childJointsAt ns i = jointsOfNode m i := by
  obtain ⟨ns, r, hrun, hnames, hr, _, _⟩ := modelInterfaceToSkeleton_run self m hE hR
  obtain ⟨js, hjs⟩ := modelInterfaceToSkeleton_ok_convertJoints self _ m _ hrun
  obtain ⟨_, hcj⟩ := convertJoints_afterNodes_exact self m hE _ _ _ hjs
  refine ⟨ns, r, ?_, hnames, by rw [← getNodeFrom_eq_lookupLink m ns hnames]; exact hr, hcj⟩
  rw [hrun, afterNodes_filterMap, kidsAt_eq_childrenOf m ns hcj, length_of_names m ns hnames]

/-- What `modelInterfaceToObject` computes, in terms of the joint graph of the
model. -/
theorem modelInterfaceToObject_graph (self : DartLoader) (m : urdf.ModelInterface)
    (hE : m.EndpointsResolve) (hR : m.RootResolves) :
    ∃ ns r,
      self.modelInterfaceToObject m
        = Except.ok ({ mNodes := ns,
                       mJoints := convertedJoints m
                         ++ [Joint.rootJoint m.root_link_.name true NodePtr.defaultRoot
                              (NodePtr.link r)],
                       debug := self.debug },
                     { mName := m.name_,
                       nodes := NodePtr.defaultRoot :: NodePtr.link r
                         :: (theRest m.links_.length r).map NodePtr.link,
                       initialised := true })
      ∧ ns.map BodyNodeDynamics.getName = m.linkNames
      ∧ lookupLink m m.root_link_.name = some r := by
  obtain ⟨ns, r, hrun, hnames, hr, _, _⟩ := modelInterfaceToObject_run self m hE hR
  refine ⟨ns, r, ?_, hnames, by rw [← getNodeFrom_eq_lookupLink m ns hnames]; exact hr⟩
  rw [hrun, afterNodes_filterMap, length_of_names m ns hnames]

/-! ## Trees, by node index -/

theorem lookupLink_inj (m : urdf.ModelInterface) (a b : String) (c : Nat)
    (ha : lookupLink m a = some c) (hb : lookupLink m b = some c) : a = b := by
  have h1 := (lookupLink_some m a c ha).2
  have h2 := (lookupLink_some m b c hb).2
  rw [h1] at h2
  exact Option.some.inj h2

theorem lookupLink_self (m : urdf.ModelInterface) (hnd : m.linkNames.Nodup) (i : Nat) (a : String)
    (h : m.linkNames[i]? = some a) : lookupLink m a = some i := by
  have hnd' : ((createNodes m.links_).map BodyNodeDynamics.getName).Nodup := by
    rw [createNodes_names]; exact hnd
  rw [← createNodes_names m, List.getElem?_map] at h
  cases hnode : (createNodes m.links_)[i]? with
  | none => rw [hnode] at h; cases h
  | some node =>
    rw [hnode] at h
    simp only [Option.map_some', Option.some.injEq] at h
    rw [← h]
    exact getNodeFrom_self _ hnd' i node hnode

theorem nodup_filterMap_of_key {α β γ : Type} (k : α → γ) (f : α → Option β) (l : List α)
    (hk : (l.map k).Nodup)
    (hf : ∀ a ∈ l, ∀ a' ∈ l, ∀ b, f a = some b → f a' = some b → k a = k a') :
    (l.filterMap f).Nodup := by
  induction l with
  | nil => simp
  | cons a rest ih =>
    simp only [List.map_cons, List.nodup_cons] at hk
    have ih' := ih hk.2 (fun x hx y hy b h1 h2 =>
      hf x (List.mem_cons_of_mem _ hx) y (List.mem_cons_of_mem _ hy) b h1 h2)
    cases hfa : f a with
    | none => simpa [List.filterMap_cons, hfa] using ih'
    | some b =>
      simp only [List.filterMap_cons, hfa, List.nodup_cons]
      refine ⟨?_, ih'⟩
      intro hb
      obtain ⟨a', ha', hfa'⟩ := List.mem_filterMap.1 hb
      have := hf a (List.mem_cons_self _ _) a' (List.mem_cons_of_mem _ ha') b hfa hfa'
      exact hk.1 (by rw [this]; exact List.mem_map.2 ⟨a', ha', rfl⟩)

theorem childrenOf_eq_filterMap (m : urdf.ModelInterface) (i : Nat) :
    childrenOf m i = m.joints_.filterMap (fun jt =>
      (Option.filter (Joint.hasParent i) (resolveIn m jt.2)).bind Joint.getChildNode) := by
  simp only [childrenOf, jointsOfNode, convertedJoints, List.filter_filterMap,
    List.filterMap_filterMap]

theorem childrenOf_entry (m : urdf.ModelInterface) (i c : Nat) (jt : urdf.Joint)
    (h : (Option.filter (Joint.hasParent i) (resolveIn m jt)).bind Joint.getChildNode = some c) :
    lookupLink m jt.parent_link_name = some i ∧ lookupLink m jt.child_link_name = some c := by
  cases hres : resolveIn m jt with
  | none => simp [hres] at h
  | some J =>
    obtain ⟨p, c', hp, hc, rfl⟩ := resolveIn_some m jt J hres
    rw [hres] at h
    by_cases hpar : p = i
    · subst hpar
      simp [Option.filter, Joint.hasParent, Joint.getChildNode] at h
      subst h
      exact ⟨hp, hc⟩
    · simp [Option.filter, Joint.hasParent, hpar] at h

/-- In a well-formed model no node is twice a child of the same node. -/
theorem childrenOf_nodup (m : urdf.ModelInterface) (h : m.WellFormed) (i : Nat) :
    (childrenOf m i).Nodup := by
  rw [childrenOf_eq_filterMap]
  refine nodup_filterMap_of_key (fun jt => jt.2.child_link_name) _ m.joints_ h.singleParent ?_
  intro a _ a' _ c h1 h2
  exact lookupLink_inj m _ _ c (childrenOf_entry m i c a.2 h1).2 (childrenOf_entry m i c a'.2 h2).2

/-- In a well-formed model a node is the child of one node only. -/
theorem childrenOf_parent_unique (m : urdf.ModelInterface) (h : m.WellFormed) (p1 p2 c : Nat)
    (h1 : c ∈ childrenOf m p1) (h2 : c ∈ childrenOf m p2) : p1 = p2 := by
  obtain ⟨jt1, hjt1, hp1, hc1⟩ := (mem_childrenOf m p1 c).1 h1
  obtain ⟨jt2, hjt2, hp2, hc2⟩ := (mem_childrenOf m p2 c).1 h2
  have hjt : jt1 = jt2 := h.parent_unique jt1 jt2 hjt1 hjt2 (lookupLink_inj m _ _ c hc1 hc2)
  subst hjt
  rw [hp1] at hp2
  exact Option.some.inj hp2

/-- In a well-formed model the root node is no node's child. -/
theorem root_not_child (m : urdf.ModelInterface) (h : m.WellFormed) (r p : Nat)
    (hr : lookupLink m m.root_link_.name = some r) : r ∉ childrenOf m p := by
  intro hmem
  obtain ⟨jt, hjt, _, hc⟩ := (mem_childrenOf m p r).1 hmem
  have : jt.2.child_link_name = m.root_link_.name := lookupLink_inj m _ _ r hc hr
  exact (h.singleRoot _ h.rootPresent).1 rfl jt hjt this

/-! ## Breadth-first traversal of a tree -/

theorem treeInv_init (kids : Nat → List Nat) (r : Nat) (hroot : ∀ p, r ∉ kids p) :
    TreeInv kids [] [r] := by
  refine ⟨by simp, ?_⟩
  intro c hc p hcp
  simp only [List.nil_append, List.mem_singleton] at hc
  subst hc
  exact absurd hcp (hroot p)

theorem treeInv_step (kids : Nat → List Nat) (hnd : ∀ u, (kids u).Nodup)
    (huniq : ∀ p1 p2 c, c ∈ kids p1 → c ∈ kids p2 → p1 = p2)
    (vis rest : List Nat) (u : Nat) (h : TreeInv kids vis (u :: rest)) :
    TreeInv kids (vis ++ [u]) (rest ++ kids u) := by
  obtain ⟨h1, h2⟩ := h
  have hu : u ∉ vis := by
    intro hv
    rw [List.nodup_append] at h1
    exact h1.2.2 hv (List.mem_cons_self _ _)
  constructor
  · have e : (vis ++ [u]) ++ (rest ++ kids u) = (vis ++ u :: rest) ++ kids u := by simp
    rw [e, List.nodup_append]
    refine ⟨h1, hnd u, ?_⟩
    intro c hc hck
    exact hu (h2 c hc u hck)
  · intro c hc p hcp
    have e : (vis ++ [u]) ++ (rest ++ kids u) = (vis ++ u :: rest) ++ kids u := by simp
    rw [e] at hc
    rcases List.mem_append.1 hc with hc | hc
    · exact List.mem_append_left _ (h2 c hc p hcp)
    · have : p = u := huniq p u c hcp hc
      subst this
      simp

/-- The traversal of a tree dequeues no node twice. -/
theorem bfs_nodup_of_treeInv (kids : Nat → List Nat) (hnd : ∀ u, (kids u).Nodup)
    (huniq : ∀ p1 p2 c, c ∈ kids p1 → c ∈ kids p2 → p1 = p2)
    (f : Nat) (vis q : List Nat) (h : TreeInv kids vis q) :
    (vis ++ bfs kids f q).Nodup := by
  induction f generalizing vis q with
  | zero =>
    simp only [bfs, List.append_nil]
    exact (List.nodup_append.1 h.1).1
  | succ f ih =>
    cases q with
    | nil =>
      simp only [bfs, List.append_nil]
      exact (List.nodup_append.1 h.1).1
    | cons u rest =>
      have := ih (vis ++ [u]) (rest ++ kids u) (treeInv_step kids hnd huniq vis rest u h)
      simpa [bfs] using this

/-- On a well-formed model the traversal dequeues every node exactly once. -/
theorem bfs_perm_range (m : urdf.ModelInterface) (h : m.WellFormed) (r : Nat)
    (hr : lookupLink m m.root_link_.name = some r) (f : Nat) :
    (bfs (childrenOf m) f [r]).Nodup
      ∧ (∀ x ∈ bfs (childrenOf m) f [r], x < m.links_.length)
      ∧ (bfs (childrenOf m) f [r]).length ≤ m.links_.length := by
  have hnd : (bfs (childrenOf m) f [r]).Nodup := by
    have := bfs_nodup_of_treeInv (childrenOf m) (childrenOf_nodup m h)
      (childrenOf_parent_unique m h) f [] [r]
      (treeInv_init _ r (fun p => root_not_child m h r p hr))
    simpa using this
  have hlt : ∀ x ∈ bfs (childrenOf m) f [r], x < m.links_.length := by
    refine bfs_mem_closed (childrenOf m) (fun x => x < m.links_.length)
      (fun u _ c hc => childrenOf_lt m u c hc) f [r] ?_
    intro u hu
    simp only [List.mem_singleton] at hu
    subst hu
    exact (lookupLink_some m _ u hr).1
  refine ⟨hnd, hlt, ?_⟩
  have hsub : bfs (childrenOf m) f [r] ⊆ List.range m.links_.length :=
    fun x hx => List.mem_range.2 (hlt x hx)
  have := (List.Nodup.subperm hnd hsub).length_le
  simpa using this

/-! ## Each node once -/

theorem getElem?_inj_of_nodup {α : Type} (l : List α) (hnd : l.Nodup) (i j : Nat) (a : α)
    (hi : l[i]? = some a) (hj : l[j]? = some a) : i = j := by
  obtain ⟨hil, ei⟩ := List.getElem?_eq_some.1 hi
  obtain ⟨hjl, ej⟩ := List.getElem?_eq_some.1 hj
  exact (List.Nodup.getElem_inj_iff hnd).1 (ei.trans ej.symm)

/-- C14 fails as stated: the root and the joint endpoints of this model
resolve, its joint graph has the cycle arm1, arm1, and the Skeleton
traversal appends the node of arm1 twice. -/
theorem traversal_repeats_node_on_cycle :
    selfLoopModel.RootResolves ∧ selfLoopModel.EndpointsResolve
      ∧ ∃ l t, DartLoader.fresh.modelInterfaceToSkeleton selfLoopModel = Except.ok (l, t)
        ∧ t.nodes = [NodePtr.link 1, NodePtr.link 0, NodePtr.link 0]
        ∧ ¬ t.nodes.Nodup :=
  ⟨by decide, by decide, _, _, rfl, rfl, by decide⟩

/-- C14, amended: on a well-formed flat model the node sequence appended by
the Skeleton traversal contains no body node more than once and holds the
node of every link, so every link name occurs at exactly one position. -/
theorem traversal_visits_once (self : DartLoader) (m : urdf.ModelInterface)
    (h : m.WellFormed) :
    ∃ l t, self.modelInterfaceToSkeleton m = Except.ok (l, t)
      ∧ t.nodes.Nodup
      ∧ (∀ i, i < m.links_.length → NodePtr.link i ∈ t.nodes)
      ∧ (∀ x ∈ m.linkNames, ∃ k, l.nodeNameAt t k = some x)
      ∧ ∀ j k x, l.nodeNameAt t j = some x → l.nodeNameAt t k = some x → j = k := by
  obtain ⟨ns, r, hrun, hnames, hr, hcj⟩ :=
    modelInterfaceToSkeleton_graph self m h.endpointsResolve h.rootPresent
  obtain ⟨hnd, hlt, hle⟩ := bfs_perm_range m h r hr m.links_.length
  -- the traversal has as many entries as there are links
  have hlen : (bfs (childrenOf m) m.links_.length [r]).length = m.links_.length := by
    obtain ⟨ns', r', hrun', hnames', hr', _, hC'⟩ :=
      modelInterfaceToSkeleton_run self m h.endpointsResolve h.rootPresent
    have := bfs_length_wellFormed m h ns' hnames' hC' r' hr'
    rw [hrun] at hrun'
    have hnodes := congrArg (fun res => res.map (fun p => p.2.nodes.length)) hrun'
    simp only [Except.map, List.length_map] at hnodes
    have hn' := length_of_names m ns' hnames'
    have e := Except.ok.inj hnodes
    omega
  have hperm : (bfs (childrenOf m) m.links_.length [r]).Perm (List.range m.links_.length) :=
    (List.Nodup.subperm hnd (fun x hx => List.mem_range.2 (hlt x hx))).perm_of_length_le
      (by simp [hlen])
  refine ⟨_, _, hrun, List.Nodup.map link_injective hnd, ?_, ?_, ?_⟩
  · intro i hi
    exact List.mem_map.2 ⟨i, hperm.mem_iff.2 (List.mem_range.2 hi), rfl⟩
  · intro x hx
    obtain ⟨c, hc⟩ := lookupLink_isSome m x hx
    have hcl := lookupLink_some m x c hc
    have hmem : c ∈ bfs (childrenOf m) m.links_.length [r] :=
      hperm.mem_iff.2 (List.mem_range.2 hcl.1)
    obtain ⟨k, hk⟩ := List.mem_iff_getElem?.1 hmem
    refine ⟨k, ?_⟩
    rw [nodeNameAt_skeleton _ m hnames, hk]
    exact hcl.2
  · intro j k x hj hk
    rw [nodeNameAt_skeleton _ m hnames] at hj hk
    cases hcj' : (bfs (childrenOf m) m.links_.length [r])[j]? with
    | none => simp [hcj'] at hj
    | some cj =>
      cases hck : (bfs (childrenOf m) m.links_.length [r])[k]? with
      | none => simp [hck] at hk
      | some ck =>
        simp only [hcj', hck, Option.some_bind] at hj hk
        have : cj = ck := getElem?_inj_of_nodup _ h.noDuplicateNames cj ck x hj hk
        subst this
        exact getElem?_inj_of_nodup _ hnd j k cj hcj' hck

/-- C14, amended, on the specification's example arm. -/
theorem traversal_visits_once_witness :
    armModel.WellFormed
      ∧ ∃ l t, DartLoader.fresh.modelInterfaceToSkeleton armModel = Except.ok (l, t)
        ∧ t.nodes.Nodup
        ∧ (∀ i, i < armModel.links_.length → NodePtr.link i ∈ t.nodes)
        ∧ (∀ x ∈ armModel.linkNames, ∃ k, l.nodeNameAt t k = some x)
        ∧ ∀ j k x, l.nodeNameAt t j = some x → l.nodeNameAt t k = some x → j = k :=
  ⟨armModel_wellFormed, traversal_visits_once DartLoader.fresh armModel armModel_wellFormed⟩

/-! ## The Robot traversal: which joint records are converted -/

theorem edgesComplete_of_exact (m : urdf.ModelInterface) (ns : List BodyNodeDynamics)
    (hn : ns.map BodyNodeDynamics.getName = m.linkNames)
    (hcj : ∀ i, childJointsAt ns i = jointsOfNode m i) : EdgesComplete m ns := by
  intro jt hjt p c hp hc
  rw [getNodeFrom_eq_lookupLink m ns hn] at hp hc
  rw [kidsAt_eq_childrenOf m ns hcj]
  exact (mem_childrenOf m p c).2 ⟨jt, hjt, hp, hc⟩

/-- On a well-formed model the traversal over the joint graph dequeues every
node exactly once. -/
theorem bfs_childrenOf_perm (m : urdf.ModelInterface) (h : m.WellFormed) (r : Nat)
    (hr : lookupLink m m.root_link_.name = some r) :
    (bfs (childrenOf m) m.links_.length [r]).Perm (List.range m.links_.length) := by
  obtain ⟨ns, r', _, hnames, hr', hcj⟩ :=
    modelInterfaceToSkeleton_graph DartLoader.fresh m h.endpointsResolve h.rootPresent
  rw [hr] at hr'
  cases hr'
  obtain ⟨hnd, hlt, _⟩ := bfs_perm_range m h r hr m.links_.length
  have hlen := bfs_length_wellFormed m h ns hnames (edgesComplete_of_exact m ns hnames hcj) r
    (by rw [getNodeFrom_eq_lookupLink m ns hnames]; exact hr)
  rw [kidsAt_eq_childrenOf m ns hcj, length_of_names m ns hnames] at hlen
  exact (List.Nodup.subperm hnd (fun x hx => List.mem_range.2 (hlt x hx))).perm_of_length_le
    (by simp [hlen])

theorem convertJoints_of_ok (js : List (String × urdf.Joint)) (self s : DartLoader)
    (h : self.convertJoints js = Except.ok s) :
    ∀ jt ∈ js, ∃ J, self.resolveJoint jt.2 = some J := by
  intro jt hjt
  cases hres : self.resolveJoint jt.2 with
  | some J => exact ⟨J, rfl⟩
  | none =>
    obtain ⟨_, _, _, e⟩ := convertJoints_error js self ⟨jt, hjt, hres⟩
    rw [h] at e
    cases e

/-- What a returning eager joint loop has done. -/
theorem convertJoints_ok_spec (js : List (String × urdf.Joint)) (self s : DartLoader)
    (h : self.convertJoints js = Except.ok s) :
    s.mNodes.map BodyNodeDynamics.getName = self.mNodes.map BodyNodeDynamics.getName
      ∧ s.mJoints = self.mJoints ++ js.filterMap (fun jt => self.resolveJoint jt.2)
      ∧ ∀ i, childJointsAt s.mNodes i = childJointsAt self.mNodes i
          ++ (js.filterMap (fun jt => self.resolveJoint jt.2)).filter (Joint.hasParent i) := by
  obtain ⟨ns, e1, e2, e3⟩ := convertJoints_spec js self (convertJoints_of_ok js self s h)
  rw [e1] at h
  cases h
  exact ⟨e2, rfl, e3⟩

theorem recordsOf_of_name (m : urdf.ModelInterface) (u : Nat) (a : String)
    (h : m.linkNames[u]? = some a) :
    recordsOf m u = m.joints_.filter (fun jt => decide (jt.2.parent_link_name = a)) := by
  simp [recordsOf, h]

theorem deref_some (self : DartLoader) (u : Option Nat) (node : BodyNodeDynamics)
    (h : self.deref u = some node) : ∃ i, u = some i ∧ self.mNodes[i]? = some node := by
  cases u with
  | none => simp [deref] at h
  | some i => exact ⟨i, rfl, h⟩

/-- Whenever the Robot traversal returns, it has appended a sequence of link
nodes, and has pushed to `mJoints`, for each appended node in turn, the
converted joints of the records whose parent name is that node's name. -/
theorem robotLoop_ok_joints (m : urdf.ModelInterface) (f : Nat) (self : DartLoader)
    (q : List (Option Nat)) (numIter : Nat) (sk : SkeletonDynamics)
    (s1 : DartLoader) (sk1 : SkeletonDynamics) (n1 : Nat)
    (hn : self.mNodes.map BodyNodeDynamics.getName = m.linkNames)
    (h : robotLoop m f self q numIter sk = Except.ok (s1, sk1, n1)) :
    ∃ out : List Nat, sk1.nodes = sk.nodes ++ out.map NodePtr.link
      ∧ (∀ x ∈ out, x < m.links_.length)
      ∧ s1.mJoints = self.mJoints
          ++ (out.flatMap (recordsOf m)).filterMap (fun jt => resolveIn m jt.2)
      ∧ ∀ jt ∈ out.flatMap (recordsOf m), ∃ J, resolveIn m jt.2 = some J := by
  induction f generalizing self q numIter sk with
  | zero =>
    simp only [robotLoop] at h
    cases h
    exact ⟨[], by simp, by simp, by simp, by simp⟩
  | succ f ih =>
    cases q with
    | nil =>
      simp only [robotLoop] at h
      cases h
      exact ⟨[], by simp, by simp, by simp, by simp⟩
    | cons u rest =>
      simp only [robotLoop] at h
      cases hd : self.deref u with
      | none => rw [hd] at h; cases h
      | some node =>
        rw [hd] at h
        simp only [convertJointsOf_eq] at h
        obtain ⟨i, rfl, hi⟩ := deref_some self u node hd
        have hname : m.linkNames[i]? = some node.getName := by
          rw [linkNames_getElem? m _ hn, hi]; rfl
        have hil : i < m.links_.length := by
          have := (List.getElem?_eq_some.1 hi).1
          rw [length_of_names m _ hn] at this
          exact this
        cases hc : self.convertJoints
            (m.joints_.filter (fun jt => decide (jt.2.parent_link_name = node.getName))) with
        | error e => rw [hc] at h; cases h
        | ok s2 =>
          rw [hc] at h
          simp only at h
          cases hd2 : s2.deref (some i) with
          | none => rw [hd2] at h; cases h
          | some node2 =>
            rw [hd2] at h
            obtain ⟨e1, e2, _⟩ := convertJoints_ok_spec _ _ _ hc
            have hres := convertJoints_of_ok _ _ _ hc
            have hn2 : s2.mNodes.map BodyNodeDynamics.getName = m.linkNames := e1.trans hn
            obtain ⟨out, h1, h2, h3, h4⟩ := ih s2 _ _ _ hn2 h
            have hfun : (fun jt : String × urdf.Joint => self.resolveJoint jt.2)
                = fun jt => resolveIn m jt.2 := by
              funext jt
              exact resolveJoint_eq_resolveIn self m hn jt.2
            refine ⟨i :: out, ?_, ?_, ?_, ?_⟩
            · rw [h1]
              simp [SkeletonDynamics.addNode, NodePtr.ofLookup]
            · intro x hx
              rcases List.mem_cons.1 hx with rfl | hx
              · exact hil
              · exact h2 x hx
            · rw [h3, e2, hfun]
              simp [List.flatMap_cons, recordsOf_of_name m i _ hname, List.filterMap_append]
            · intro jt hjt
              simp only [List.flatMap_cons, List.mem_append] at hjt
              rcases hjt with hjt | hjt
              · rw [recordsOf_of_name m i _ hname] at hjt
                obtain ⟨J, hJ⟩ := hres jt hjt
                exact ⟨J, by rw [← resolveJoint_eq_resolveIn self m hn]; exact hJ⟩
              · exact h4 jt hjt

/-! ## The Robot traversal on a tree -/

theorem filterMap_congr_mem {α β : Type} (f g : α → Option β) (l : List α)
    (h : ∀ x ∈ l, f x = g x) : l.filterMap f = l.filterMap g := by
  induction l with
  | nil => rfl
  | cons a rest ih =>
    simp only [List.filterMap_cons, h a (List.mem_cons_self _ _)]
    rw [ih (fun x hx => h x (List.mem_cons_of_mem _ hx))]

/-- With distinct link names, the records converted when node `u` is dequeued
are the records of the child-joint list of `u`. -/
theorem recordsOf_converted (m : urdf.ModelInterface) (hnd : m.linkNames.Nodup) (u : Nat)
    (a : String) (hu : m.linkNames[u]? = some a) :
    (recordsOf m u).filterMap (fun jt => resolveIn m jt.2) = jointsOfNode m u := by
  rw [recordsOf_of_name m u a hu, jointsOfNode, convertedJoints, List.filterMap_filter,
    List.filter_filterMap]
  apply filterMap_congr_mem
  intro jt _
  have hlu := lookupLink_self m hnd u a hu
  cases hres : resolveIn m jt.2 with
  | none => simp [Option.filter]
  | some J =>
    obtain ⟨p, c, hp, hc, rfl⟩ := resolveIn_some m jt.2 J hres
    by_cases hpa : jt.2.parent_link_name = a
    · have : p = u := by
        rw [hpa, hlu] at hp
        exact (Option.some.inj hp).symm
      subst this
      simp [hpa, Option.filter, Joint.hasParent]
    · have : ¬ p = u := by
        intro e
        subst e
        exact hpa (lookupLink_inj m _ _ p hp hlu)
      simp [hpa, Option.filter, Joint.hasParent, this]

theorem jointsOfNode_getChildNode (m : urdf.ModelInterface) (u : Nat) :
    (jointsOfNode m u).map Joint.getChildNode = (childrenOf m u).map some := by
  have hall : ∀ J ∈ jointsOfNode m u, ∃ c, J.getChildNode = some c := by
    intro J hJ
    obtain ⟨_, _, c, _, _, rfl⟩ := (mem_jointsOfNode m u J).1 hJ
    exact ⟨c, rfl⟩
  rw [childrenOf]
  generalize jointsOfNode m u = l at hall
  induction l with
  | nil => rfl
  | cons J rest ih =>
    obtain ⟨c, hc⟩ := hall J (List.mem_cons_self _ _)
    simp only [List.map_cons, List.filterMap_cons, hc]
    rw [ih (fun J' hJ' => hall J' (List.mem_cons_of_mem _ hJ'))]

theorem filter_hasParent_jointsOfNode (m : urdf.ModelInterface) (u i : Nat) :
    (jointsOfNode m u).filter (Joint.hasParent i) = if i = u then jointsOfNode m u else [] := by
  by_cases hiu : i = u
  · subst hiu
    simp [jointsOfNode]
  · simp only [hiu, if_false, List.filter_eq_nil_iff]
    intro J hJ
    obtain ⟨_, _, c, _, _, rfl⟩ := (mem_jointsOfNode m u J).1 hJ
    simp only [Joint.hasParent, decide_eq_true_eq]
    exact fun e => hiu e.symm

/-- On a well-formed model the Robot traversal, started with the child-joint
lists of all nodes not yet visited empty, dequeues the same nodes as the
traversal over the joint graph. -/
theorem robotLoop_tree (m : urdf.ModelInterface) (h : m.WellFormed) (f : Nat)
    (self : DartLoader) (vis q : List Nat) (numIter : Nat) (sk : SkeletonDynamics)
    (hn : self.mNodes.map BodyNodeDynamics.getName = m.linkNames)
    (hempty : ∀ i, i ∉ vis → childJointsAt self.mNodes i = [])
    (hT : TreeInv (childrenOf m) vis q)
    (hq : ∀ u ∈ q, u < m.links_.length) :
    ∃ s1, robotLoop m f self (q.map some) numIter sk
      = Except.ok (s1, { mName := sk.mName,
                         nodes := sk.nodes ++ (bfs (childrenOf m) f q).map NodePtr.link,
                         initialised := sk.initialised },
                   numIter + (bfs (childrenOf m) f q).length) := by
  induction f generalizing self vis q numIter sk with
  | zero => exact ⟨self, by simp [robotLoop, bfs]⟩
  | succ f ih =>
    cases q with
    | nil => exact ⟨self, by simp [robotLoop, bfs]⟩
    | cons u rest =>
      have hlen : self.mNodes.length = m.links_.length := length_of_names m _ hn
      have hu : u < self.mNodes.length := by
        rw [hlen]; exact hq u (List.mem_cons_self _ _)
      have hd : self.mNodes[u]? = some self.mNodes[u] := List.getElem?_eq_getElem hu
      have hname : m.linkNames[u]? = some self.mNodes[u].getName := by
        rw [linkNames_getElem? m _ hn, hd]; rfl
      have huvis : u ∉ vis := by
        intro hv
        exact (List.nodup_append.1 hT.1).2.2 hv (List.mem_cons_self _ _)
      have hall : ∀ jt ∈ m.joints_.filter
          (fun jt => decide (jt.2.parent_link_name = self.mNodes[u].getName)),
          ∃ J, self.resolveJoint jt.2 = some J := by
        intro jt hjt
        rw [resolveJoint_eq_resolveIn self m hn]
        exact resolveIn_isSome m h.endpointsResolve jt (List.mem_filter.1 hjt).1
      obtain ⟨ns2, e1, e2, e3⟩ := convertJoints_spec _ self hall
      have hfun : (fun jt : String × urdf.Joint => self.resolveJoint jt.2)
          = fun jt => resolveIn m jt.2 := by
        funext jt
        exact resolveJoint_eq_resolveIn self m hn jt.2
      have hconv : (m.joints_.filter
          (fun jt => decide (jt.2.parent_link_name = self.mNodes[u].getName))).filterMap
            (fun jt => self.resolveJoint jt.2) = jointsOfNode m u := by
        rw [hfun, ← recordsOf_of_name m u _ hname]
        exact recordsOf_converted m h.noDuplicateNames u _ hname
      have hcj2 : ∀ i, childJointsAt ns2 i
          = childJointsAt self.mNodes i ++ if i = u then jointsOfNode m u else [] := by
        intro i
        rw [e3 i, hconv, filter_hasParent_jointsOfNode]
      have hn2 : ns2.map BodyNodeDynamics.getName = m.linkNames := e2.trans hn
      have hu2 : u < ns2.length := by
        rw [length_of_names m _ hn2]; exact hq u (List.mem_cons_self _ _)
      have hd2 : ns2[u]? = some ns2[u] := List.getElem?_eq_getElem hu2
      have hkids : ns2[u].getChildNodes = (childrenOf m u).map some := by
        have hc := hcj2 u
        simp only [childJointsAt, hd2, hd, if_true] at hc
        have h0 := hempty u huvis
        simp only [childJointsAt, hd] at h0
        rw [h0, List.nil_append] at hc
        rw [BodyNodeDynamics.getChildNodes, hc, jointsOfNode_getChildNode]
      have hT2 := treeInv_step (childrenOf m) (childrenOf_nodup m h)
        (childrenOf_parent_unique m h) vis rest u hT
      have hq2 : ∀ v ∈ rest ++ childrenOf m u, v < m.links_.length := by
        intro v hv
        rcases List.mem_append.1 hv with hv | hv
        · exact hq v (List.mem_cons_of_mem _ hv)
        · exact childrenOf_lt m u v hv
      have hempty2 : ∀ i, i ∉ vis ++ [u] → childJointsAt ns2 i = [] := by
        intro i hi
        simp only [List.mem_append, List.mem_singleton, not_or] at hi
        rw [hcj2 i, hempty i hi.1]
        simp [hi.2]
      obtain ⟨s1, hs1⟩ := ih
        { mNodes := ns2,
          mJoints := self.mJoints ++ (m.joints_.filter
            (fun jt => decide (jt.2.parent_link_name = self.mNodes[u].getName))).filterMap
              (fun jt => self.resolveJoint jt.2),
          debug := self.debug }
        (vis ++ [u]) (rest ++ childrenOf m u) (numIter + 1) (sk.addNode (some u))
        hn2 hempty2 hT2 hq2
      refine ⟨s1, ?_⟩
      simp only [List.map_cons, robotLoop, deref, hd, convertJointsOf_eq, e1, hd2, hkids,
        ← List.map_append]
      rw [hs1]
      simp [bfs, SkeletonDynamics.addNode, NodePtr.ofLookup, Nat.add_comm, Nat.add_left_comm]

/-! ## The Robot builder on a well-formed model -/

/-- The Robot builder, once the root has been looked up, is its traversal
loop followed by `initSkel` and `update`. -/
theorem modelInterfaceToRobot_unfold (self : DartLoader) (m : urdf.ModelInterface) (r : Nat)
    (hr : lookupLink m m.root_link_.name = some r) :
    self.modelInterfaceToRobot m
      = Except.map (fun res => (res.1, res.2.1.initSkel.update))
          (robotLoop m (createNodes m.links_).length
            { mNodes := createNodes m.links_,
              mJoints := [Joint.rootJoint m.root_link_.name true NodePtr.defaultRoot
                (NodePtr.link r)],
              debug := self.debug } [some r] 0
            { mName := m.name_, nodes := [NodePtr.defaultRoot], initialised := false }) := by
  unfold modelInterfaceToRobot
  have hr' : getNodeFrom m.root_link_.name (createNodes m.links_) 0 = some r := hr
  simp only [getNode, urdf.ModelInterface.getRoot, hr', createDartRootJoint, NodePtr.ofLookup,
    SkeletonDynamics.new, SkeletonDynamics.addDefaultRootNode, SkeletonDynamics.setName,
    urdf.ModelInterface.getName, Option.isNone_some, Bool.and_false, Bool.false_eq_true,
    if_false, if_true, List.nil_append]
  generalize robotLoop m _ _ _ _ _ = X
  rcases X with e | ⟨s, sk, n⟩ <;> rfl

/-- Whenever the Robot builder returns on a model whose root resolves, its
node sequence is the default root node followed by link nodes, and `mJoints`
is the root joint followed, for each of these link nodes in turn, by the
converted joints of the records whose parent name is that node's name. -/
theorem modelInterfaceToRobot_ok_joints (self : DartLoader) (m : urdf.ModelInterface)
    (l : DartLoader) (t : SkeletonDynamics) (r : Nat)
    (hr : lookupLink m m.root_link_.name = some r)
    (h : self.modelInterfaceToRobot m = Except.ok (l, t)) :
    ∃ out : List Nat, t.nodes = NodePtr.defaultRoot :: out.map NodePtr.link
      ∧ (∀ x ∈ out, x < m.links_.length)
      ∧ l.mJoints = Joint.rootJoint m.root_link_.name true NodePtr.defaultRoot (NodePtr.link r)
          :: (out.flatMap (recordsOf m)).filterMap (fun jt => resolveIn m jt.2)
      ∧ ∀ jt ∈ out.flatMap (recordsOf m), ∃ J, resolveIn m jt.2 = some J := by
  rw [modelInterfaceToRobot_unfold self m r hr] at h
  cases hloop : robotLoop m (createNodes m.links_).length
      { mNodes := createNodes m.links_,
        mJoints := [Joint.rootJoint m.root_link_.name true NodePtr.defaultRoot (NodePtr.link r)],
        debug := self.debug } [some r] 0
      { mName := m.name_, nodes := [NodePtr.defaultRoot], initialised := false } with
  | error e => rw [hloop] at h; cases h
  | ok res =>
    obtain ⟨s1, sk1, n1⟩ := res
    rw [hloop] at h
    simp only [Except.map] at h
    cases h
    obtain ⟨out, h1, h2, h3, h4⟩ := robotLoop_ok_joints m _ _ _ _ _ _ _ _ (createNodes_names m) hloop
    exact ⟨out, by simpa [SkeletonDynamics.initSkel, SkeletonDynamics.update] using h1, h2,
      by simpa using h3, h4⟩

/-- On a well-formed model the Robot builder returns the default root node
followed by the nodes of the traversal over the joint graph. -/
theorem modelInterfaceToRobot_graph (self : DartLoader) (m : urdf.ModelInterface)
    (h : m.WellFormed) :
    ∃ l r, self.modelInterfaceToRobot m
        = Except.ok (l, { mName := m.name_,
                          nodes := NodePtr.defaultRoot
                            :: (bfs (childrenOf m) m.links_.length [r]).map NodePtr.link,
                          initialised := true })
      ∧ lookupLink m m.root_link_.name = some r := by
  obtain ⟨r, hr⟩ := lookupLink_isSome m _ h.rootPresent
  have hq : ∀ u ∈ [r], u < m.links_.length := by
    intro u hu
    simp only [List.mem_singleton] at hu
    subst hu
    exact (lookupLink_some m _ u hr).1
  obtain ⟨s1, hs1⟩ := robotLoop_tree m h (createNodes m.links_).length
    { mNodes := createNodes m.links_,
      mJoints := [Joint.rootJoint m.root_link_.name true NodePtr.defaultRoot (NodePtr.link r)],
      debug := self.debug } [] [r] 0
    { mName := m.name_, nodes := [NodePtr.defaultRoot], initialised := false }
    (createNodes_names m) (fun i _ => createNodes_childJointsAt m.links_ i)
    (treeInv_init _ r (fun p => root_not_child m h r p hr)) hq
  refine ⟨s1, r, ?_, hr⟩
  simp only [List.map_cons, List.map_nil] at hs1
  rw [modelInterfaceToRobot_unfold self m r hr, hs1, createNodes_length]
  simp [Except.map, SkeletonDynamics.initSkel, SkeletonDynamics.update]

/-! ## Every joint record once -/

theorem flatMap_insert_perm {α β : Type} [DecidableEq α] (names : List α) (hnd : names.Nodup)
    (a0 : α) (ha : a0 ∈ names) (g : α → List β) (x : β) :
    (names.flatMap (fun a => if a0 = a then x :: g a else g a)).Perm
      (x :: names.flatMap g) := by
  induction names with
  | nil => simp at ha
  | cons b rest ih =>
    simp only [List.nodup_cons] at hnd
    simp only [List.flatMap_cons]
    by_cases hb : a0 = b
    · subst hb
      have hrest : rest.flatMap (fun a => if a0 = a then x :: g a else g a) = rest.flatMap g := by
        have : ∀ a ∈ rest, (if a0 = a then x :: g a else g a) = g a := by
          intro a ha'
          have : a0 ≠ a := fun e => hnd.1 (e ▸ ha')
          simp [this]
        clear ih ha hnd
        induction rest with
        | nil => rfl
        | cons c rest' ih' =>
          simp only [List.flatMap_cons, this c (List.mem_cons_self _ _)]
          rw [ih' (fun a ha' => this a (List.mem_cons_of_mem _ ha'))]
      simp [hrest]
    · have hmem : a0 ∈ rest := by
        rcases List.mem_cons.1 ha with e | e
        · exact absurd e hb
        · exact e
      simp only [hb, if_false]
      exact (List.Perm.append_left (g b) (ih hnd.2 hmem)).trans List.perm_middle

theorem flatMap_filter_perm {α β : Type} [DecidableEq α] (names : List α) (hnd : names.Nodup)
    (key : β → α) (js : List β) (hjs : ∀ jt ∈ js, key jt ∈ names) :
    (names.flatMap (fun a => js.filter (fun jt => decide (key jt = a)))).Perm js := by
  induction js with
  | nil =>
    have : names.flatMap (fun _ => ([] : List β)) = [] := by
      induction names with
      | nil => rfl
      | cons b rest ih => simp
    simp [this]
  | cons jt rest ih =>
    have hfun : (fun a => (jt :: rest).filter (fun j => decide (key j = a)))
        = fun a => if key jt = a then jt :: rest.filter (fun j => decide (key j = a))
            else rest.filter (fun j => decide (key j = a)) := by
      funext a
      by_cases hk : key jt = a <;> simp [List.filter_cons, hk]
    rw [hfun]
    exact (flatMap_insert_perm names hnd (key jt) (hjs jt (List.mem_cons_self _ _)) _ jt).trans
      (List.Perm.cons jt (ih (fun j hj => hjs j (List.mem_cons_of_mem _ hj))))

theorem range_flatMap_getElem? {α β : Type} (l : List α) (g : α → List β) :
    (List.range l.length).flatMap (fun i => ((l[i]?).map g).getD []) = l.flatMap g := by
  induction l with
  | nil => rfl
  | cons a rest ih =>
    rw [List.length_cons, List.range_succ_eq_map, List.flatMap_cons, List.flatMap_map]
    simp only [List.getElem?_cons_zero, Nat.succ_eq_add_one, List.getElem?_cons_succ,
      List.flatMap_cons, Option.map_some', Option.getD_some]
    rw [ih]

/-- On a model with distinct link names whose joint parents resolve, the
records converted over all nodes are all joint records, each once. -/
theorem recordsOf_range_perm (m : urdf.ModelInterface) (hnd : m.linkNames.Nodup)
    (hE : m.EndpointsResolve) :
    ((List.range m.links_.length).flatMap (recordsOf m)).Perm m.joints_ := by
  have hlen : m.links_.length = m.linkNames.length := by simp [urdf.ModelInterface.linkNames]
  have hfun : recordsOf m = fun i => ((m.linkNames[i]?).map
      (fun a => m.joints_.filter (fun jt => decide (jt.2.parent_link_name = a)))).getD [] := by
    funext i
    unfold recordsOf
    cases m.linkNames[i]? <;> rfl
  rw [hlen, hfun, range_flatMap_getElem? m.linkNames
    (fun a => m.joints_.filter (fun jt => decide (jt.2.parent_link_name = a)))]
  exact flatMap_filter_perm m.linkNames hnd (fun jt => jt.2.parent_link_name) m.joints_
    (fun jt hjt => (hE jt hjt).1)

/-! ## Skeleton and Robot -/

/-- C16. On a well-formed flat model the Skeleton and the Robot builders both
return, and the node sequence of the robot is the default root node followed
by exactly the node sequence of the skeleton. -/
theorem skeleton_robot_traversals_agree (self : DartLoader) (m : urdf.ModelInterface)
    (h : m.WellFormed) :
    ∃ lS tS lR tR, self.modelInterfaceToSkeleton m = Except.ok (lS, tS)
      ∧ self.modelInterfaceToRobot m = Except.ok (lR, tR)
      ∧ tR.nodes = NodePtr.defaultRoot :: tS.nodes := by
  obtain ⟨ns, r, hS, _, hr, _⟩ :=
    modelInterfaceToSkeleton_graph self m h.endpointsResolve h.rootPresent
  obtain ⟨l, r', hRb, hr'⟩ := modelInterfaceToRobot_graph self m h
  rw [hr] at hr'
  cases hr'
  exact ⟨_, _, _, _, hS, hRb, rfl⟩

/-- C16, on the specification's example arm. -/
theorem skeleton_robot_traversals_agree_witness :
    armModel.WellFormed
      ∧ ∃ lS tS lR tR, DartLoader.fresh.modelInterfaceToSkeleton armModel = Except.ok (lS, tS)
        ∧ DartLoader.fresh.modelInterfaceToRobot armModel = Except.ok (lR, tR)
        ∧ tR.nodes = NodePtr.defaultRoot :: tS.nodes :=
  ⟨armModel_wellFormed,
    skeleton_robot_traversals_agree DartLoader.fresh armModel armModel_wellFormed⟩

/-! ## The joint sequence of the Robot builder -/

theorem robot_out_eq_bfs (self : DartLoader) (m : urdf.ModelInterface) (h : m.WellFormed)
    (l : DartLoader) (t : SkeletonDynamics) (r : Nat) (out : List Nat)
    (hr : lookupLink m m.root_link_.name = some r)
    (hok : self.modelInterfaceToRobot m = Except.ok (l, t))
    (hout : t.nodes = NodePtr.defaultRoot :: out.map NodePtr.link) :
    out = bfs (childrenOf m) m.links_.length [r] := by
  obtain ⟨l', r', hRb, hr'⟩ := modelInterfaceToRobot_graph self m h
  rw [hr] at hr'
  cases hr'
  rw [hok] at hRb
  cases hRb
  simp only [List.cons.injEq, true_and] at hout
  exact (List.map_injective_iff.2 link_injective hout).symm

/-- C17. For a flat model whose root resolves: whenever the Robot builder
returns, `mJoints` starts with the synthesized root joint and goes on, for
each dequeued node in turn, with the converted joints of the records whose
`parent_link_name` is that node's name, so a record is converted once in
every iteration that dequeues a node with its parent's name, and a record
whose parent name is the name of no dequeued node is never converted. The
builder does return when the joint endpoints resolve. On a well-formed model
every joint record is converted exactly once, and `mJoints` has one entry
more than there are joint records. -/
theorem modelInterfaceToRobot_converts_on_dequeue (self : DartLoader) (m : urdf.ModelInterface)
    (hR : m.RootResolves) :
    (∀ l t, self.modelInterfaceToRobot m = Except.ok (l, t) →
        ∃ (r : Nat) (out : List Nat), lookupLink m m.root_link_.name = some r
          ∧ t.nodes = NodePtr.defaultRoot :: out.map NodePtr.link
          ∧ l.mJoints = Joint.rootJoint m.root_link_.name true NodePtr.defaultRoot
              (NodePtr.link r)
              :: (out.flatMap (recordsOf m)).filterMap (fun jt => resolveIn m jt.2)
          ∧ l.mJoints.length = (out.flatMap (recordsOf m)).length + 1
          ∧ (∀ u ∈ out, ∀ a, m.linkNames[u]? = some a →
              recordsOf m u = m.joints_.filter (fun jt => decide (jt.2.parent_link_name = a)))
          ∧ (∀ jt : String × urdf.Joint,
              (∀ u ∈ out, m.linkNames[u]? ≠ some jt.2.parent_link_name) →
              jt ∉ out.flatMap (recordsOf m))
          ∧ (m.WellFormed →
              (out.flatMap (recordsOf m)).Perm m.joints_
              ∧ l.mJoints.length = m.joints_.length + 1))
    ∧ (m.EndpointsResolve → ∃ l t, self.modelInterfaceToRobot m = Except.ok (l, t)) := by
  obtain ⟨r, hr⟩ := lookupLink_isSome m _ hR
  constructor
  · intro l t hok
    obtain ⟨out, h1, h2, h3, h4⟩ := modelInterfaceToRobot_ok_joints self m l t r hr hok
    have hlen : l.mJoints.length = (out.flatMap (recordsOf m)).length + 1 := by
      have hfm := (filterMap_all_some (fun jt : String × urdf.Joint => resolveIn m jt.2)
        (out.flatMap (recordsOf m)) h4).1
      rw [h3, List.length_cons, hfm]
    refine ⟨r, out, hr, h1, h3, hlen, ?_, ?_, ?_⟩
    · intro u _ a ha
      exact recordsOf_of_name m u a ha
    · intro jt hno hmem
      obtain ⟨u, hu, hjt⟩ := List.mem_flatMap.1 hmem
      cases hname : m.linkNames[u]? with
      | none => simp [recordsOf, hname] at hjt
      | some a =>
        rw [recordsOf_of_name m u a hname] at hjt
        have := (List.mem_filter.1 hjt).2
        simp only [decide_eq_true_eq] at this
        exact hno u hu (by rw [hname, this])
    · intro hW
      have hout := robot_out_eq_bfs self m hW l t r out hr hok h1
      have hperm : (out.flatMap (recordsOf m)).Perm m.joints_ := by
        rw [hout]
        exact ((bfs_childrenOf_perm m hW r hr).flatMap_right (recordsOf m)).trans
          (recordsOf_range_perm m hW.noDuplicateNames hW.endpointsResolve)
      exact ⟨hperm, by rw [hlen, hperm.length_eq]⟩
  · intro hE
    obtain ⟨_, _, _, _, h2, _⟩ := modelInterfaceToRobot_run self m hR hE
    exact ⟨_, _, h2⟩

/-- C17, on the specification's example arm, which is well formed: the robot
is returned, and its `mJoints` is the root joint followed by j1 and j2. -/
theorem modelInterfaceToRobot_converts_on_dequeue_witness :
    armModel.RootResolves ∧ armModel.WellFormed
    ∧ ∃ l t, DartLoader.fresh.modelInterfaceToRobot armModel = Except.ok (l, t)
      ∧ l.mJoints = [Joint.rootJoint "base" true NodePtr.defaultRoot (NodePtr.link 2),
          Joint.converted "j1" 2 0, Joint.converted "j2" 0 1]
      ∧ ∃ (r : Nat) (out : List Nat), lookupLink armModel armModel.root_link_.name = some r
        ∧ t.nodes = NodePtr.defaultRoot :: out.map NodePtr.link
        ∧ l.mJoints = Joint.rootJoint armModel.root_link_.name true NodePtr.defaultRoot
            (NodePtr.link r)
            :: (out.flatMap (recordsOf armModel)).filterMap (fun jt => resolveIn armModel jt.2)
        ∧ l.mJoints.length = (out.flatMap (recordsOf armModel)).length + 1
        ∧ (∀ u ∈ out, ∀ a, armModel.linkNames[u]? = some a →
            recordsOf armModel u
              = armModel.joints_.filter (fun jt => decide (jt.2.parent_link_name = a)))
        ∧ (∀ jt : String × urdf.Joint,
            (∀ u ∈ out, armModel.linkNames[u]? ≠ some jt.2.parent_link_name) →
            jt ∉ out.flatMap (recordsOf armModel))
        ∧ (out.flatMap (recordsOf armModel)).Perm armModel.joints_
        ∧ l.mJoints.length = armModel.joints_.length + 1 :=
  have h := modelInterfaceToRobot_converts_on_dequeue DartLoader.fresh armModel (by decide)
  match h.1 _ _ rfl with
  | ⟨r, out, h1, h2, h3, h4, h5, h6, h7⟩ =>
    ⟨by decide, armModel_wellFormed, _, _, rfl, rfl, r, out, h1, h2, h3, h4, h5, h6,
      (h7 armModel_wellFormed).1, (h7 armModel_wellFormed).2⟩

/-! ## Object and Robot -/

/-- C12 fails as stated: on the specification's example arm, which is well
formed, the Object builder records j1, j2 and then the root joint, the Robot
builder the root joint and then j1, j2. -/
theorem object_robot_joint_sequences_differ :
    armModel.WellFormed
      ∧ ∃ lO tO lR tR, DartLoader.fresh.modelInterfaceToObject armModel = Except.ok (lO, tO)
        ∧ DartLoader.fresh.modelInterfaceToRobot armModel = Except.ok (lR, tR)
        ∧ lO.mJoints = [Joint.converted "j1" 2 0, Joint.converted "j2" 0 1,
            Joint.rootJoint "base" true NodePtr.defaultRoot (NodePtr.link 2)]
        ∧ lR.mJoints = [Joint.rootJoint "base" true NodePtr.defaultRoot (NodePtr.link 2),
            Joint.converted "j1" 2 0, Joint.converted "j2" 0 1]
        ∧ lO.mJoints ≠ lR.mJoints :=
  ⟨armModel_wellFormed, _, _, _, _, rfl, rfl, rfl, rfl, by decide⟩

/-- C12, amended: on a well-formed flat model the Object and the Robot
builders record the same joints, each as often as the other: the Object's
`mJoints` is the converted joints in joint-map order followed by the root
joint, the Robot's is the same root joint followed by a permutation of the
same converted joints, so either sequence is a permutation of the other. -/
theorem object_robot_joints_perm (self : DartLoader) (m : urdf.ModelInterface)
    (h : m.WellFormed) :
    ∃ lO tO lR tR r js, self.modelInterfaceToObject m = Except.ok (lO, tO)
      ∧ self.modelInterfaceToRobot m = Except.ok (lR, tR)
      ∧ lO.mJoints = convertedJoints m
          ++ [Joint.rootJoint m.root_link_.name true NodePtr.defaultRoot (NodePtr.link r)]
      ∧ lR.mJoints = Joint.rootJoint m.root_link_.name true NodePtr.defaultRoot (NodePtr.link r)
          :: js
      ∧ js.Perm (convertedJoints m)
      ∧ lO.mJoints.Perm lR.mJoints := by
  obtain ⟨ns, r, hO, _, hr⟩ := modelInterfaceToObject_graph self m h.endpointsResolve h.rootPresent
  obtain ⟨lR, r', hRb, hr'⟩ := modelInterfaceToRobot_graph self m h
  rw [hr] at hr'
  cases hr'
  obtain ⟨out, h1, _, h3, _⟩ := modelInterfaceToRobot_ok_joints self m _ _ r hr hRb
  have hout := robot_out_eq_bfs self m h _ _ r out hr hRb h1
  have hperm : ((out.flatMap (recordsOf m)).filterMap (fun jt => resolveIn m jt.2)).Perm
      (convertedJoints m) := by
    rw [hout, convertedJoints]
    exact List.Perm.filterMap _
      (((bfs_childrenOf_perm m h r hr).flatMap_right (recordsOf m)).trans
        (recordsOf_range_perm m h.noDuplicateNames h.endpointsResolve))
  refine ⟨_, _, _, _, r, _, hO, hRb, rfl, h3, hperm, ?_⟩
  rw [h3]
  exact (List.perm_append_singleton _ _).trans (List.Perm.cons _ hperm.symm)

/-- C12, amended, on the specification's example arm. -/
theorem object_robot_joints_perm_witness :
    armModel.WellFormed
      ∧ ∃ lO tO lR tR r js, DartLoader.fresh.modelInterfaceToObject armModel = Except.ok (lO, tO)
        ∧ DartLoader.fresh.modelInterfaceToRobot armModel = Except.ok (lR, tR)
        ∧ lO.mJoints = convertedJoints armModel
            ++ [Joint.rootJoint armModel.root_link_.name true NodePtr.defaultRoot
                 (NodePtr.link r)]
        ∧ lR.mJoints = Joint.rootJoint armModel.root_link_.name true NodePtr.defaultRoot
            (NodePtr.link r) :: js
        ∧ js.Perm (convertedJoints armModel)
        ∧ lO.mJoints.Perm lR.mJoints :=
  ⟨armModel_wellFormed, object_robot_joints_perm DartLoader.fresh armModel armModel_wellFormed⟩

/-! ## Breadth-first traversal and level order -/

theorem bfs_nil (kids : Nat → List Nat) (f : Nat) : bfs kids f [] = [] := by
  cases f <;> rfl

theorem levelOrder_nil (kids : Nat → List Nat) (d : Nat) : levelOrder kids d [] = [] := by
  induction d with
  | zero => rfl
  | succ d ih => simp [levelOrder, ih]

/-- Dequeuing a whole front part of the queue: its nodes come out in order,
and their children are queued behind the rest, in the same order. -/
theorem bfs_append_queue (kids : Nat → List Nat) (q r : List Nat) (f : Nat) :
    bfs kids f (q ++ r) = q.take f ++ bfs kids (f - q.length) (r ++ q.flatMap kids) := by
  induction q generalizing f r with
  | nil => simp
  | cons u rest ih =>
    cases f with
    | zero => simp [bfs]
    | succ f =>
      have e : bfs kids (f + 1) (u :: rest ++ r) = u :: bfs kids f (rest ++ (r ++ kids u)) := by
        rw [List.cons_append, bfs_head, List.append_assoc]
      rw [e, ih]
      simp [List.append_assoc]

theorem take_levelOrder_stable (kids : Nat → List Nat) (d1 : Nat) :
    ∀ (k d2 : Nat) (q : List Nat), k ≤ d1 → k ≤ d2 →
      (levelOrder kids d1 q).take k = (levelOrder kids d2 q).take k := by
  induction d1 with
  | zero =>
    intro k d2 q h1 _
    have : k = 0 := by omega
    subst this
    simp
  | succ d1 ih =>
    intro k d2 q h1 h2
    cases d2 with
    | zero =>
      have : k = 0 := by omega
      subst this
      simp
    | succ d2 =>
      cases q with
      | nil => simp [levelOrder_nil]
      | cons u rest =>
        simp only [levelOrder, List.take_append_eq_append_take]
        congr 1
        apply ih
        · simp only [List.length_cons]; omega
        · simp only [List.length_cons]; omega

/-- The bounded breadth-first traversal is the level-order traversal, cut at
the bound. -/
theorem bfs_eq_take_levelOrder (kids : Nat → List Nat) (f : Nat) :
    ∀ q : List Nat, bfs kids f q = (levelOrder kids f q).take f := by
  induction f using Nat.strong_induction_on with
  | _ f ih =>
    intro q
    cases f with
    | zero => simp [bfs]
    | succ f =>
      cases q with
      | nil => simp [bfs, levelOrder_nil]
      | cons u rest =>
        have hB := bfs_append_queue kids (u :: rest) [] (f + 1)
        simp only [List.append_nil, List.nil_append] at hB
        rw [hB]
        simp only [levelOrder, List.take_append_eq_append_take]
        congr 1
        rw [ih (f + 1 - (u :: rest).length) (by simp only [List.length_cons]; omega)]
        apply take_levelOrder_stable
        · exact Nat.le_refl _
        · simp only [List.length_cons]; omega

theorem levelOrder_succ_append (kids : Nat → List Nat) (d : Nat) :
    ∀ q : List Nat, ∃ ext, levelOrder kids (d + 1) q = levelOrder kids d q ++ ext := by
  induction d with
  | zero => intro q; exact ⟨levelOrder kids 1 q, by simp [levelOrder]⟩
  | succ d ih =>
    intro q
    obtain ⟨ext, he⟩ := ih (q.flatMap kids)
    refine ⟨ext, ?_⟩
    rw [levelOrder, he, levelOrder, List.append_assoc]

/-- When a traversal one step longer than `n` stays within `n` nodes, every
level-order traversal at least `n` levels deep is the traversal bounded by
`n`. -/
theorem levelOrder_eq_bfs (kids : Nat → List Nat) (q : List Nat) (n : Nat)
    (hbound : ∀ f, (bfs kids f q).length ≤ n) (hlen : (bfs kids n q).length = n)
    (d : Nat) (hd : n ≤ d) : levelOrder kids d q = bfs kids n q := by
  -- deeper than n: the cut does not bite
  have hdeep : ∀ e, n < e → levelOrder kids e q = bfs kids n q := by
    intro e he
    have h1 := bfs_eq_take_levelOrder kids e q
    have h2 : (levelOrder kids e q).length < e := by
      by_contra hge
      have := hbound e
      rw [h1, List.length_take] at this
      omega
    have h3 : levelOrder kids e q = bfs kids e q := by
      rw [h1, List.take_of_length_le (Nat.le_of_lt h2)]
    have h4 := bfs_eq_take_levelOrder kids n q
    rw [take_levelOrder_stable kids n n e q (Nat.le_refl _) (Nat.le_of_lt he), h3] at h4
    rw [h3, h4, List.take_of_length_le (hbound e)]
  rcases Nat.lt_or_ge n d with hlt | hge
  · exact hdeep d hlt
  · have hdn : d = n := Nat.le_antisymm hge hd
    subst hdn
    obtain ⟨ext, he⟩ := levelOrder_succ_append kids d q
    have h1 := hdeep (d + 1) (Nat.lt_succ_self d)
    have h2 := bfs_eq_take_levelOrder kids d q
    have h3 : (levelOrder kids d q).length ≤ d := by
      have := congrArg List.length he
      rw [h1, hlen, List.length_append] at this
      omega
    rw [h2, List.take_of_length_le h3]

/-- Along a level-order traversal the depth never decreases. -/
theorem levelOrder_depth (kids : Nat → List Nat) (D : Nat → Nat → Prop)
    (hstep : ∀ u c d, c ∈ kids u → D u d → D c (d + 1)) (d : Nat) :
    ∀ (q : List Nat) (k : Nat), (∀ x ∈ q, D x k) →
      (levelOrder kids d q).Pairwise (fun x y => ∃ dx dy, D x dx ∧ D y dy ∧ dx ≤ dy)
        ∧ ∀ y ∈ levelOrder kids d q, ∃ dy, k ≤ dy ∧ D y dy := by
  induction d with
  | zero => intro q k _; simp [levelOrder]
  | succ d ih =>
    intro q k hq
    have hnext : ∀ x ∈ q.flatMap kids, D x (k + 1) := by
      intro x hx
      obtain ⟨u, hu, hxu⟩ := List.mem_flatMap.1 hx
      exact hstep u x k hxu (hq u hu)
    obtain ⟨h1, h2⟩ := ih (q.flatMap kids) (k + 1) hnext
    simp only [levelOrder]
    constructor
    · rw [List.pairwise_append]
      refine ⟨?_, h1, ?_⟩
      · rw [List.pairwise_iff_getElem]
        intro i j hi hj _
        exact ⟨k, k, hq _ (List.getElem_mem _), hq _ (List.getElem_mem _), Nat.le_refl _⟩
      · intro a ha b hb
        obtain ⟨db, hdb, hDb⟩ := h2 b hb
        exact ⟨k, db, hq a ha, hDb, by omega⟩
    · intro y hy
      rcases List.mem_append.1 hy with hy | hy
      · exact ⟨k, Nat.le_refl _, hq y hy⟩
      · obtain ⟨dy, hdy, hDy⟩ := h2 y hy
        exact ⟨dy, by omega, hDy⟩

/-- The children of a node of a level-order traversal form, in the order of
its child list, one block of the traversal that is one level deeper. -/
theorem levelOrder_children_block (kids : Nat → List Nat) (d : Nat) :
    ∀ (q : List Nat) (p : Nat), p ∈ levelOrder kids d q →
      ∃ pre post, levelOrder kids (d + 1) q = pre ++ kids p ++ post := by
  induction d with
  | zero => intro q p hp; simp [levelOrder] at hp
  | succ d ih =>
    intro q p hp
    simp only [levelOrder, List.mem_append] at hp
    rcases hp with hp | hp
    · obtain ⟨a, b, rfl⟩ := List.append_of_mem hp
      refine ⟨(a ++ p :: b) ++ a.flatMap kids,
        b.flatMap kids ++ levelOrder kids d (((a ++ p :: b).flatMap kids).flatMap kids), ?_⟩
      rw [levelOrder, levelOrder]
      simp [List.flatMap_append, List.flatMap_cons, List.append_assoc]
    · obtain ⟨pre, post, he⟩ := ih (q.flatMap kids) p hp
      refine ⟨q ++ pre, post, ?_⟩
      rw [levelOrder, he]
      simp [List.append_assoc]

end DartLoader

namespace urdf.ModelInterface

/-- In a well-formed model a link has one depth only. -/
theorem WellFormed.depth_unique {m : ModelInterface} (h : m.WellFormed) {x : String}
    {d1 d2 : Nat} (h1 : m.HasDepth x d1) (h2 : m.HasDepth x d2) : d1 = d2 := by
  induction h1 generalizing d2 with
  | root =>
    cases h2 with
    | root => rfl
    | child _ e =>
      obtain ⟨jt, hjt, _, hc⟩ := e
      exact absurd hc ((h.singleRoot _ h.rootPresent).1 rfl jt hjt)
  | child ha e ih =>
    obtain ⟨jt, hjt, hp, hc⟩ := e
    cases h2 with
    | root => exact absurd hc ((h.singleRoot _ h.rootPresent).1 rfl jt hjt)
    | child ha2 e2 =>
      obtain ⟨jt2, hjt2, hp2, hc2⟩ := e2
      have : jt = jt2 := h.parent_unique jt jt2 hjt hjt2 (hc.trans hc2.symm)
      subst this
      rw [← hp2, hp] at ha2
      rw [ih ha2]

end urdf.ModelInterface

namespace DartLoader
open dynamics kinematics

/-! ## The Skeleton traversal is level order -/

theorem depth_step (m : urdf.ModelInterface) (u c d : Nat) (hc : c ∈ childrenOf m u)
    (hu : ∃ a, m.linkNames[u]? = some a ∧ m.HasDepth a d) :
    ∃ a, m.linkNames[c]? = some a ∧ m.HasDepth a (d + 1) := by
  obtain ⟨jt, hjt, hp, hc'⟩ := (mem_childrenOf m u c).1 hc
  obtain ⟨a, ha, hda⟩ := hu
  have h1 := (lookupLink_some m _ u hp).2
  rw [ha] at h1
  cases h1
  exact ⟨jt.2.child_link_name, (lookupLink_some m _ c hc').2,
    urdf.ModelInterface.HasDepth.child hda ⟨jt, hjt, rfl, rfl⟩⟩

/-- C15. On a well-formed flat model the node sequence of the skeleton is the
level-order traversal from the root node over the child-joint lists (at any
depth of at least the number of links): the root, then its children in the
order of its child-joint list, then their children, and so on. The children
in a child-joint list are those of the records with that parent, in the order
of their conversion. Every node of the sequence has a depth in the joint
graph, the depth never decreases along the sequence, and the children of
every node of the sequence form one block of it, in the order of the node's
child-joint list. -/
theorem skeleton_traversal_level_order (self : DartLoader) (m : urdf.ModelInterface)
    (h : m.WellFormed) :
    ∃ l t r, self.modelInterfaceToSkeleton m = Except.ok (l, t)
      ∧ lookupLink m m.root_link_.name = some r
      ∧ (∀ d, m.links_.length ≤ d →
          t.nodes = (levelOrder (kidsAt l.mNodes) d [r]).map NodePtr.link)
      ∧ (∀ i, kidsAt l.mNodes i = childrenOf m i)
      ∧ (∀ k x, l.nodeNameAt t k = some x → ∃ d, m.HasDepth x d)
      ∧ (∀ i j x y dx dy, i ≤ j → l.nodeNameAt t i = some x → l.nodeNameAt t j = some y →
          m.HasDepth x dx → m.HasDepth y dy → dx ≤ dy)
      ∧ ∀ p, NodePtr.link p ∈ t.nodes →
          ∃ pre post, t.nodes = pre ++ (kidsAt l.mNodes p).map NodePtr.link ++ post := by
  obtain ⟨ns, r, hrun, hnames, hr, hcj⟩ :=
    modelInterfaceToSkeleton_graph self m h.endpointsResolve h.rootPresent
  have hk : kidsAt ns = childrenOf m := kidsAt_eq_childrenOf m ns hcj
  have hbound : ∀ f, (bfs (childrenOf m) f [r]).length ≤ m.links_.length :=
    fun f => (bfs_perm_range m h r hr f).2.2
  have hlen : (bfs (childrenOf m) m.links_.length [r]).length = m.links_.length := by
    have := (bfs_childrenOf_perm m h r hr).length_eq
    simpa using this
  have hLO : ∀ d, m.links_.length ≤ d →
      levelOrder (childrenOf m) d [r] = bfs (childrenOf m) m.links_.length [r] :=
    fun d hd => levelOrder_eq_bfs (childrenOf m) [r] m.links_.length hbound hlen d hd
  -- depths along the traversal
  obtain ⟨hpw, hdep⟩ := levelOrder_depth (childrenOf m)
    (fun c k => ∃ a, m.linkNames[c]? = some a ∧ m.HasDepth a k)
    (fun u c d hc hu => depth_step m u c d hc hu) m.links_.length [r] 0
    (by
      intro x hx
      simp only [List.mem_singleton] at hx
      subst hx
      exact ⟨_, (lookupLink_some m _ x hr).2, urdf.ModelInterface.HasDepth.root⟩)
  rw [hLO _ (Nat.le_refl _)] at hpw hdep
  -- a position with a name holds a node with that name
  have hpos : ∀ k x, nodeNameAt
      { mNodes := ns,
        mJoints := convertedJoints m
          ++ [Joint.rootJoint m.root_link_.name false NodePtr.null (NodePtr.link r)],
        debug := self.debug }
      { mName := "", nodes := (bfs (childrenOf m) m.links_.length [r]).map NodePtr.link,
        initialised := true } k = some x →
      ∃ c, (bfs (childrenOf m) m.links_.length [r])[k]? = some c
        ∧ m.linkNames[c]? = some x := by
    intro k x hkx
    rw [nodeNameAt_skeleton _ m hnames] at hkx
    cases hc : (bfs (childrenOf m) m.links_.length [r])[k]? with
    | none => simp [hc] at hkx
    | some c =>
      simp only [hc, Option.some_bind] at hkx
      exact ⟨c, rfl, hkx⟩
  refine ⟨_, _, r, hrun, hr, ?_, ?_, ?_, ?_, ?_⟩
  · intro d hd
    show _ = List.map NodePtr.link (levelOrder (kidsAt ns) d [r])
    rw [hk, hLO d hd]
  · intro i
    show kidsAt ns i = _
    rw [hk]
  · intro k x hkx
    obtain ⟨c, hc, hcx⟩ := hpos k x hkx
    obtain ⟨d, _, a, ha, hda⟩ := hdep c (List.getElem?_mem hc)
    rw [hcx] at ha
    cases ha
    exact ⟨d, hda⟩
  · intro i j x y dx dy hij hi hj hdx hdy
    obtain ⟨ci, hci, hcix⟩ := hpos i x hi
    obtain ⟨cj, hcj', hcjy⟩ := hpos j y hj
    rcases Nat.lt_or_ge i j with hlt | hge
    · obtain ⟨hil, ei⟩ := List.getElem?_eq_some.1 hci
      obtain ⟨hjl, ej⟩ := List.getElem?_eq_some.1 hcj'
      obtain ⟨d1, d2, ⟨a1, ha1, hd1⟩, ⟨a2, ha2, hd2⟩, hle⟩ :=
        (List.pairwise_iff_getElem.1 hpw) i j hil hjl hlt
      rw [ei, hcix] at ha1
      rw [ej, hcjy] at ha2
      cases ha1
      cases ha2
      rw [h.depth_unique hdx hd1, h.depth_unique hdy hd2]
      exact hle
    · have hij' : i = j := Nat.le_antisymm hij hge
      subst hij'
      rw [hci] at hcj'
      cases hcj'
      rw [hcix] at hcjy
      cases hcjy
      exact Nat.le_of_eq (h.depth_unique hdx hdy)
  · intro p hp
    have hp' : p ∈ bfs (childrenOf m) m.links_.length [r] := by
      obtain ⟨p', hp', e⟩ := List.mem_map.1 hp
      cases e
      exact hp'
    rw [← hLO _ (Nat.le_refl _)] at hp'
    obtain ⟨pre, post, he⟩ := levelOrder_children_block (childrenOf m) m.links_.length [r] p hp'
    rw [hLO _ (Nat.le_succ _)] at he
    refine ⟨pre.map NodePtr.link, post.map NodePtr.link, ?_⟩
    show List.map NodePtr.link (bfs (childrenOf m) m.links_.length [r])
      = _ ++ List.map NodePtr.link (kidsAt ns p) ++ _
    rw [he, hk]
    simp

/-- C15, on the specification's example arm. -/
theorem skeleton_traversal_level_order_witness :
    armModel.WellFormed
    ∧ ∃ l t r, DartLoader.fresh.modelInterfaceToSkeleton armModel = Except.ok (l, t)
      ∧ lookupLink armModel armModel.root_link_.name = some r
      ∧ (∀ d, armModel.links_.length ≤ d →
          t.nodes = (levelOrder (kidsAt l.mNodes) d [r]).map NodePtr.link)
      ∧ (∀ i, kidsAt l.mNodes i = childrenOf armModel i)
      ∧ (∀ k x, l.nodeNameAt t k = some x → ∃ d, armModel.HasDepth x d)
      ∧ (∀ i j x y dx dy, i ≤ j → l.nodeNameAt t i = some x → l.nodeNameAt t j = some y →
          armModel.HasDepth x dx → armModel.HasDepth y dy → dx ≤ dy)
      ∧ ∀ p, NodePtr.link p ∈ t.nodes →
          ∃ pre post, t.nodes = pre ++ (kidsAt l.mNodes p).map NodePtr.link ++ post :=
  ⟨armModel_wellFormed,
    skeleton_traversal_level_order DartLoader.fresh armModel armModel_wellFormed⟩

/-! ## Examples for the prior state and the name lookup -/

/-- C11, on the specification's example arm: a loader that an earlier
conversion has left with a node and a joint gives the same skeleton, robot and
object as a fresh loader, and gives them again on a second run. -/
theorem conversion_idempotent_witness :
    (DartLoader.used.modelInterfaceToSkeleton armModel
        = DartLoader.fresh.modelInterfaceToSkeleton armModel
      ∧ DartLoader.used.modelInterfaceToRobot armModel
        = DartLoader.fresh.modelInterfaceToRobot armModel
      ∧ DartLoader.used.modelInterfaceToObject armModel
        = DartLoader.fresh.modelInterfaceToObject armModel)
    ∧ (∃ l t, DartLoader.used.modelInterfaceToSkeleton armModel = Except.ok (l, t)
        ∧ l.modelInterfaceToSkeleton armModel = Except.ok (l, t))
    ∧ (∃ l t, DartLoader.used.modelInterfaceToRobot armModel = Except.ok (l, t)
        ∧ l.modelInterfaceToRobot armModel = Except.ok (l, t))
    ∧ ∃ l t, DartLoader.used.modelInterfaceToObject armModel = Except.ok (l, t)
        ∧ l.modelInterfaceToObject armModel = Except.ok (l, t) :=
  have h := conversion_idempotent armModel false DartLoader.used.mNodes DartLoader.fresh.mNodes
    DartLoader.used.mJoints DartLoader.fresh.mJoints
  ⟨h.1, ⟨_, _, rfl, h.2.1 _ _ rfl⟩, ⟨_, _, rfl, h.2.2.1 _ _ rfl⟩, ⟨_, _, rfl, h.2.2.2 _ _ rfl⟩⟩

/-- C18, on a loader whose nodes are named arm, base, arm: the lookup of
"arm" finds node 0, the first of the two, and the lookup of "tip" finds
nothing. -/
theorem getNode_first_match_witness :
    DartLoader.twoArms.getNode "arm" = some 0
    ∧ (∃ node, DartLoader.twoArms.mNodes[0]? = some node ∧ node.getName = "arm"
        ∧ ∀ j node1, DartLoader.twoArms.mNodes[j]? = some node1 → node1.getName = "arm" → 0 ≤ j)
    ∧ DartLoader.twoArms.getNode "tip" = none
    ∧ ∀ node ∈ DartLoader.twoArms.mNodes, node.getName ≠ "tip" :=
  have h := getNode_first_match DartLoader.twoArms "arm"
  have h2 := getNode_first_match DartLoader.twoArms "tip"
  ⟨rfl, h.1 0 rfl, rfl, h2.2.1.1 rfl⟩

/-! ## The Object builder has no error of its own -/

end DartLoader
